import Mathlib

/-!
# Verification of the rsync-Phoenix-Rebuilt core

Shallow embedding of the checksum engine, delta matcher, wire codec and
negotiation helpers of `rsync_phoenix_rebuilt.py`, together with proofs
about them.

Bytes are modelled as `Nat` values (the Python code works on `bytes`
objects; the embedded functions use the same modular arithmetic as the
source, so no global byte bound is required).  Machine integers are
modelled as `Nat`/`Int` with explicit `% 2^w` wherever the source masks
or packs.  The strong-checksum algorithms (MD4/MD5/SHA/xxHash) live in
external libraries (`hashlib`, `xxhash`) and are therefore modelled as
an explicit function parameter `strongFn : List Nat → List Nat`; the
in-source `ChecksumType.NONE` variant (`lambda data: b'\x00'`) is the
constant function `fun _ => [0]`.
-/

namespace Rsync

/-- Python slice `data[a:b]` on a byte list. -/
def sliceN (data : List Nat) (a b : Nat) : List Nat :=
  (data.drop a).take (b - a)

/-- `CHAR_OFFSET` from the source (0, required for rsync compatibility). -/
def CHAR_OFFSET : Nat := 0

/-- `CHUNK_SIZE = 32 * 1024` from the source. -/
def CHUNK_SIZE : Nat := 32 * 1024

/-! ## Weak rolling checksum (`Checksum` in the source) -/

/-- One step of the accumulation loop of `Checksum.rolling_checksum`:
`s1 = (s1 + (b + CHAR_OFFSET)) & 0xFFFF; s2 = (s2 + s1) & 0xFFFF`. -/
def rollStep (st : Nat × Nat) (b : Nat) : Nat × Nat :=
  let s1 := (st.1 + (b + CHAR_OFFSET)) % 65536
  (s1, (st.2 + s1) % 65536)

/-- The `(s1, s2)` pair computed by the loop of `Checksum.rolling_checksum`
over a byte list. -/
def rollingComponents (data : List Nat) : Nat × Nat :=
  data.foldl rollStep (0, 0)

/-- `Checksum.combine_checksum`: `(s1 & 0xFFFF) | ((s2 & 0xFFFF) << 16)`
(the OR of disjoint bit fields is a sum). -/
def combine_checksum (s1 s2 : Nat) : Nat :=
  (s1 % 65536) + (s2 % 65536) * 65536

/-- `Checksum.rolling_checksum` on a byte list. -/
def rolling_checksum (data : List Nat) : Nat :=
  combine_checksum (rollingComponents data).1 (rollingComponents data).2

/-- `Checksum.checksum_components`: extract `(s1, s2)` from a 32-bit value. -/
def checksum_components (c : Nat) : Nat × Nat :=
  (c % 65536, (c / 65536) % 65536)

/-- `Checksum.rolling_update`: slide the window one byte.  Python's
`& 0xFFFF` on a possibly-negative int is Euclidean mod, i.e. `Int.emod`. -/
def rolling_update (old_byte new_byte old_s1 old_s2 length : Nat) : Nat × Nat :=
  let old_val : Int := (old_byte : Int) + (CHAR_OFFSET : Int)
  let new_val : Int := (new_byte : Int) + (CHAR_OFFSET : Int)
  let new_s1 : Int := ((old_s1 : Int) - old_val + new_val) % 65536
  let new_s2 : Int := ((old_s2 : Int) - (length : Int) * old_val + new_s1) % 65536
  (new_s1.toNat, new_s2.toNat)

/-- The inline EOF shrink update of `ChecksumEngine.generate_delta`
(`s1 = (s1 - old_val) & 0xFFFF; s2 = (s2 - k * old_val) & 0xFFFF`), where
`old_val = new[offset] + CHAR_OFFSET` is the byte at the window start and
`k` is the pre-shrink window length. -/
def shrink_update (old_byte old_s1 old_s2 k : Nat) : Nat × Nat :=
  let old_val : Int := (old_byte : Int) + (CHAR_OFFSET : Int)
  let new_s1 : Int := ((old_s1 : Int) - old_val) % 65536
  let new_s2 : Int := ((old_s2 : Int) - (k : Int) * old_val) % 65536
  (new_s1.toNat, new_s2.toNat)

/-! ### Closed forms -/

/-- Unweighted byte sum `Σ (b[i] + CHAR_OFFSET)`. -/
def wsum1 (data : List Nat) : Nat := (data.map (· + CHAR_OFFSET)).sum

/-- Weighted byte sum `Σ (len - i) * (b[i] + CHAR_OFFSET)`. -/
def wsum2 : List Nat → Nat
  | [] => 0
  | b :: rest => (b + CHAR_OFFSET) * (rest.length + 1) + wsum2 rest

theorem CHAR_OFFSET_eq : CHAR_OFFSET = 0 := rfl

theorem wsum1_cons (b : Nat) (l : List Nat) :
    wsum1 (b :: l) = (b + CHAR_OFFSET) + wsum1 l := by
  simp [wsum1]

theorem wsum1_append (l₁ l₂ : List Nat) :
    wsum1 (l₁ ++ l₂) = wsum1 l₁ + wsum1 l₂ := by
  simp [wsum1]

theorem wsum1_singleton (c : Nat) : wsum1 [c] = c + CHAR_OFFSET := by
  simp [wsum1]

theorem wsum1_nil : wsum1 [] = 0 := by
  simp [wsum1]

theorem wsum2_append_singleton (l : List Nat) (c : Nat) :
    wsum2 (l ++ [c]) = wsum2 l + wsum1 l + (c + CHAR_OFFSET) := by
  induction l with
  | nil => simp [wsum2, wsum1]
  | cons x l ih =>
    show wsum2 (x :: (l ++ [c])) = wsum2 (x :: l) + wsum1 (x :: l) + (c + CHAR_OFFSET)
    rw [show wsum2 (x :: (l ++ [c])) =
        (x + CHAR_OFFSET) * ((l ++ [c]).length + 1) + wsum2 (l ++ [c]) from rfl, ih,
      show wsum2 (x :: l) = (x + CHAR_OFFSET) * (l.length + 1) + wsum2 l from rfl,
      wsum1_cons]
    simp only [List.length_append, List.length_cons, List.length_nil]
    ring

theorem rollingComponents_go (l : List Nat) :
    ∀ s1 s2 : Nat,
      l.foldl rollStep (s1 % 65536, s2 % 65536) =
        ((s1 + wsum1 l) % 65536, (s2 + l.length * s1 + wsum2 l) % 65536) := by
  induction l with
  | nil => intro s1 s2; simp [wsum1, wsum2]
  | cons b rest ih =>
    intro s1 s2
    have e1 : rollStep (s1 % 65536, s2 % 65536) b =
        ((s1 + (b + CHAR_OFFSET)) % 65536,
         (s2 + s1 + (b + CHAR_OFFSET)) % 65536) := by
      simp only [rollStep, Prod.mk.injEq]
      constructor
      · omega
      · omega
    rw [List.foldl_cons, e1, ih (s1 + (b + CHAR_OFFSET)) (s2 + s1 + (b + CHAR_OFFSET))]
    simp only [wsum1_cons, wsum2, List.length_cons, Prod.mk.injEq]
    constructor
    · congr 1
      ring
    · congr 1
      ring

theorem rollingComponents_closed (data : List Nat) :
    rollingComponents data = (wsum1 data % 65536, wsum2 data % 65536) := by
  have h := rollingComponents_go data 0 0
  simpa [rollingComponents] using h

theorem rollingComponents_fst_lt (data : List Nat) :
    (rollingComponents data).1 < 65536 := by
  rw [rollingComponents_closed]; exact Nat.mod_lt _ (by norm_num)

theorem rollingComponents_snd_lt (data : List Nat) :
    (rollingComponents data).2 < 65536 := by
  rw [rollingComponents_closed]; exact Nat.mod_lt _ (by norm_num)

/-! ### `Checksum.rolling_checksum_optimized` (4 bytes per iteration) -/

/-- The loop of `rolling_checksum_optimized`: process 4 bytes at a time
while at least 4 bytes remain (`while i < length - 3`), then fall back to
the single-byte loop for the remainder. -/
def rcOptAux : Nat × Nat → List Nat → Nat × Nat
  | st, b0 :: b1 :: b2 :: b3 :: rest =>
      let s2 := (st.2 + 4 * (st.1 + (b0 + CHAR_OFFSET)) + 3 * (b1 + CHAR_OFFSET) +
                 2 * (b2 + CHAR_OFFSET) + (b3 + CHAR_OFFSET)) % 65536
      let s1 := (st.1 + (b0 + CHAR_OFFSET) + (b1 + CHAR_OFFSET) + (b2 + CHAR_OFFSET) +
                 (b3 + CHAR_OFFSET)) % 65536
      rcOptAux (s1, s2) rest
  | st, rest => rest.foldl rollStep st

/-- `Checksum.rolling_checksum_optimized` on a byte list. -/
def rolling_checksum_optimized (data : List Nat) : Nat :=
  combine_checksum (rcOptAux (0, 0) data).1 (rcOptAux (0, 0) data).2

theorem rcOptAux_eq_foldl (n : Nat) :
    ∀ (l : List Nat), l.length ≤ n → ∀ st : Nat × Nat,
      rcOptAux st l = l.foldl rollStep st := by
  induction n with
  | zero =>
    intro l h st
    match l with
    | [] => rfl
  | succ n ih =>
    intro l h st
    match l with
    | [] => rfl
    | [a] => rfl
    | [a, b] => rfl
    | [a, b, c] => rfl
    | b0 :: b1 :: b2 :: b3 :: rest =>
      show rcOptAux _ rest = _
      rw [ih rest (by simp only [List.length_cons] at h; omega)]
      simp only [List.foldl_cons]
      congr 1
      simp only [rollStep, Prod.mk.injEq]
      constructor
      · omega
      · omega

theorem rolling_checksum_optimized_eq (data : List Nat) :
    rolling_checksum_optimized data = rolling_checksum data := by
  unfold rolling_checksum_optimized rolling_checksum rollingComponents
  rw [rcOptAux_eq_foldl data.length data le_rfl]

/-- The slide update of `Checksum.rolling_update` agrees with recomputing
the weak checksum from scratch on the slid window. -/
theorem rolling_update_slide (b c : Nat) (mid : List Nat) :
    rolling_update b c (rollingComponents (b :: mid)).1
      (rollingComponents (b :: mid)).2 (mid.length + 1) =
      rollingComponents (mid ++ [c]) := by
  rw [rollingComponents_closed, rollingComponents_closed]
  simp only [rolling_update, wsum1_cons, wsum2, wsum1_append, wsum1_singleton,
    wsum1_nil, wsum2_append_singleton, CHAR_OFFSET_eq, Nat.add_zero, Prod.mk.injEq]
  constructor
  · push_cast
    omega
  · push_cast
    ring_nf
    generalize (b : Int) * ((mid.length : Int) + 1) = W
    omega

/-- The shrink update of `generate_delta` agrees with recomputing the weak
checksum from scratch on the window with its FIRST byte removed. -/
theorem shrink_update_drops_first (b : Nat) (w : List Nat) :
    shrink_update b (rollingComponents (b :: w)).1
      (rollingComponents (b :: w)).2 (w.length + 1) =
      rollingComponents w := by
  rw [rollingComponents_closed, rollingComponents_closed]
  simp only [shrink_update, wsum1_cons, wsum2, CHAR_OFFSET_eq, Nat.add_zero,
    Prod.mk.injEq]
  constructor
  · push_cast; omega
  · push_cast
    ring_nf
    generalize (b : Int) * ((w.length : Int) + 1) = W
    omega

/-! ## Wire codec: bytes, fixed integers, varint, varlong (`ProtocolIO`) -/

/-- Error type covering the exceptions raised by the wire codec
(`ProtocolError`, unexpected EOF, ...). -/
inductive Err where
  | eof : Err
  | protocol : String → Err
deriving DecidableEq, Repr

/-- Little-endian value of a byte list (`int.from_bytes(l, 'little')`). -/
def fromLE : List Nat → Nat
  | [] => 0
  | b :: rest => b + 256 * fromLE rest

/-- `int.from_bytes(buf[:4], 'little', signed=True)`. -/
def intFromLE4signed (l : List Nat) : Int :=
  let u := fromLE l
  if u < 2 ^ 31 then (u : Int) else (u : Int) - 2 ^ 32

/-- `int.from_bytes(buf[:8], 'little', signed=True)`. -/
def intFromLE8signed (l : List Nat) : Int :=
  let u := fromLE l
  if u < 2 ^ 63 then (u : Int) else (u : Int) - 2 ^ 64

/-- The `_INT_BYTE_EXTRA` table from the source, as a function of the
index `ch // 4` (values grouped exactly as in the table literal). -/
def int_byte_extra (idx : Nat) : Nat :=
  if idx < 32 then 0
  else if idx < 48 then 1
  else if idx < 56 then 2
  else if idx < 60 then 3
  else if idx < 62 then 4
  else if idx = 62 then 5
  else 6

theorem int_byte_extra_0 {i : Nat} (h : i < 32) : int_byte_extra i = 0 := by
  unfold int_byte_extra; rw [if_pos h]

theorem int_byte_extra_1 {i : Nat} (h₁ : 32 ≤ i) (h₂ : i < 48) :
    int_byte_extra i = 1 := by
  unfold int_byte_extra; rw [if_neg (by omega), if_pos h₂]

theorem int_byte_extra_2 {i : Nat} (h₁ : 48 ≤ i) (h₂ : i < 56) :
    int_byte_extra i = 2 := by
  unfold int_byte_extra; rw [if_neg (by omega), if_neg (by omega), if_pos h₂]

theorem int_byte_extra_3 {i : Nat} (h₁ : 56 ≤ i) (h₂ : i < 60) :
    int_byte_extra i = 3 := by
  unfold int_byte_extra
  rw [if_neg (by omega), if_neg (by omega), if_neg (by omega), if_pos h₂]

theorem int_byte_extra_4 {i : Nat} (h₁ : 60 ≤ i) (h₂ : i < 62) :
    int_byte_extra i = 4 := by
  unfold int_byte_extra
  rw [if_neg (by omega), if_neg (by omega), if_neg (by omega), if_neg (by omega),
    if_pos h₂]

theorem int_byte_extra_5 {i : Nat} (h : i = 62) : int_byte_extra i = 5 := by
  unfold int_byte_extra
  rw [if_neg (by omega), if_neg (by omega), if_neg (by omega), if_neg (by omega),
    if_neg (by omega), if_pos h]

theorem int_byte_extra_6 {i : Nat} (h : i = 63) : int_byte_extra i = 6 := by
  unfold int_byte_extra
  rw [if_neg (by omega), if_neg (by omega), if_neg (by omega), if_neg (by omega),
    if_neg (by omega), if_neg (by omega)]

/-- `ProtocolIO.write_varint`.  The source packs `value & 0xFFFFFFFF` as 4
little-endian bytes `b[1..4]`, finds `cnt` (the highest nonzero byte
position, at least 1) by the `while cnt > 1 and b[cnt] == 0` loop, sets
`bit = 1 << (8 - cnt)` and emits one of three shapes.  Here the loop and
the bit operations are unrolled over the four possible values of `cnt`
(`~(bit-1) & 0xFF = 256 - bit`; `b[cnt] | (~(bit*2-1) & 0xFF)` is the
disjoint sum `b[cnt] + (256 - 2*bit)` since `b[cnt] < bit`). -/
def write_varint (v : Int) : List Nat :=
  let u := (v % 4294967296).toNat
  let b1 := u % 256
  let b2 := u / 256 % 256
  let b3 := u / 65536 % 256
  let b4 := u / 16777216 % 256
  if b4 ≠ 0 then
    if b4 ≥ 16 then 240 :: [b1, b2, b3, b4] else (224 + b4) :: [b1, b2, b3]
  else if b3 ≠ 0 then
    if b3 ≥ 32 then 224 :: [b1, b2, b3] else (192 + b3) :: [b1, b2]
  else if b2 ≠ 0 then
    if b2 ≥ 64 then 192 :: [b1, b2] else (128 + b2) :: [b1]
  else
    if b1 ≥ 128 then [128, b1] else [b1]

/-- `ProtocolIO.read_varint` on a byte list, returning the decoded value
and the unconsumed rest of the stream. -/
def read_varint (stream : List Nat) : Except Err (Int × List Nat) :=
  match stream with
  | [] => .error .eof
  | ch :: rest =>
    let extra := int_byte_extra (ch % 256 / 4)
    if extra ≠ 0 then
      if extra ≥ 5 then .error (.protocol "Overflow in read_varint()")
      else
        let bit := 2 ^ (8 - extra)
        if rest.length < extra then .error .eof
        else
          let buf := (rest.take extra ++ [ch % 256 % bit] ++ List.replicate 4 0).take 4
          .ok (intFromLE4signed buf, rest.drop extra)
    else .ok (intFromLE4signed [ch % 256, 0, 0, 0], rest)

theorem read_varint_e0 {c : Nat} (rest : List Nat) (h : c < 128) :
    read_varint (c :: rest) = .ok ((c : Int), rest) := by
  simp only [read_varint]
  rw [Nat.mod_eq_of_lt (show c < 256 by omega), int_byte_extra_0 (by omega)]
  rw [if_neg (by simp)]
  simp only [intFromLE4signed, fromLE, Except.ok.injEq, Prod.mk.injEq, and_true]
  refine ?_
  rw [if_pos (by push_cast; omega)]
  push_cast
  ring

theorem read_varint_e1 {c : Nat} (x1 : Nat) (rest : List Nat)
    (h1 : 128 ≤ c) (h2 : c < 192) :
    read_varint (c :: x1 :: rest) =
      .ok (intFromLE4signed [x1, c % 128, 0, 0], rest) := by
  simp only [read_varint]
  rw [Nat.mod_eq_of_lt (show c < 256 by omega), int_byte_extra_1 (by omega) (by omega)]
  rw [if_pos (by omega), if_neg (by omega), if_neg (by simp)]
  simp [Nat.mod_eq_of_lt (show c < 256 by omega), List.replicate]

theorem read_varint_e2 {c : Nat} (x1 x2 : Nat) (rest : List Nat)
    (h1 : 192 ≤ c) (h2 : c < 224) :
    read_varint (c :: x1 :: x2 :: rest) =
      .ok (intFromLE4signed [x1, x2, c % 64, 0], rest) := by
  simp only [read_varint]
  rw [Nat.mod_eq_of_lt (show c < 256 by omega), int_byte_extra_2 (by omega) (by omega)]
  rw [if_pos (by omega), if_neg (by omega), if_neg (by simp)]
  simp [Nat.mod_eq_of_lt (show c < 256 by omega), List.replicate]

theorem read_varint_e3 {c : Nat} (x1 x2 x3 : Nat) (rest : List Nat)
    (h1 : 224 ≤ c) (h2 : c < 240) :
    read_varint (c :: x1 :: x2 :: x3 :: rest) =
      .ok (intFromLE4signed [x1, x2, x3, c % 32], rest) := by
  simp only [read_varint]
  rw [Nat.mod_eq_of_lt (show c < 256 by omega), int_byte_extra_3 (by omega) (by omega)]
  rw [if_pos (by omega), if_neg (by omega), if_neg (by simp)]
  simp [Nat.mod_eq_of_lt (show c < 256 by omega), List.replicate]

theorem read_varint_e4 {c : Nat} (x1 x2 x3 x4 : Nat) (rest : List Nat)
    (h1 : 240 ≤ c) (h2 : c < 248) :
    read_varint (c :: x1 :: x2 :: x3 :: x4 :: rest) =
      .ok (intFromLE4signed [x1, x2, x3, x4], rest) := by
  simp only [read_varint]
  rw [Nat.mod_eq_of_lt (show c < 256 by omega), int_byte_extra_4 (by omega) (by omega)]
  rw [if_pos (by omega), if_neg (by omega), if_neg (by simp)]
  simp [Nat.mod_eq_of_lt (show c < 256 by omega), List.replicate]

/-- varint roundtrip over the full signed 32-bit range
(`read_varint(write_varint(v)) = v`). -/
theorem read_write_varint (v : Int) (rest : List Nat)
    (hlo : -(2 ^ 31) ≤ v) (hhi : v < 2 ^ 31) :
    read_varint (write_varint v ++ rest) = .ok (v, rest) := by
  set u := (v % 4294967296).toNat with hu
  have humod : (u : Int) = v % 4294967296 := by
    rw [hu]; exact Int.toNat_of_nonneg (Int.emod_nonneg v (by norm_num))
  have hult : u < 4294967296 := by
    have := Int.emod_lt_of_pos v (show (0:Int) < 4294967296 by norm_num)
    omega
  set b1 := u % 256 with hb1
  set b2 := u / 256 % 256 with hb2
  set b3 := u / 65536 % 256 with hb3
  set b4 := u / 16777216 % 256 with hb4
  have hrec : u = b1 + 256 * b2 + 65536 * b3 + 16777216 * b4 := by omega
  have hb1lt : b1 < 256 := by omega
  have hb2lt : b2 < 256 := by omega
  have hb3lt : b3 < 256 := by omega
  have hb4lt : b4 < 256 := by omega
  have hval : ∀ y1 y2 y3 y4 : Nat, y1 + 256 * y2 + 65536 * y3 + 16777216 * y4 = u →
      intFromLE4signed [y1, y2, y3, y4] = v := by
    intro y1 y2 y3 y4 hy
    simp only [intFromLE4signed, fromLE]
    split
    · omega
    · omega
  have hw : write_varint v =
      (if b4 ≠ 0 then
        if b4 ≥ 16 then 240 :: [b1, b2, b3, b4] else (224 + b4) :: [b1, b2, b3]
      else if b3 ≠ 0 then
        if b3 ≥ 32 then 224 :: [b1, b2, b3] else (192 + b3) :: [b1, b2]
      else if b2 ≠ 0 then
        if b2 ≥ 64 then 192 :: [b1, b2] else (128 + b2) :: [b1]
      else
        if b1 ≥ 128 then [128, b1] else [b1]) := by
    simp only [write_varint, ← hu, ← hb1, ← hb2, ← hb3, ← hb4]
  by_cases h4 : b4 = 0
  · by_cases h3 : b3 = 0
    · by_cases h2 : b2 = 0
      · by_cases h1 : b1 ≥ 128
        · -- cnt = 1, b1 ≥ 128
          rw [hw, if_neg (by omega), if_neg (by omega), if_neg (by omega), if_pos h1]
          show read_varint (128 :: b1 :: rest) = _
          rw [read_varint_e1 b1 rest (by omega) (by omega)]
          rw [hval b1 (128 % 128) 0 0 (by omega)]
        · -- cnt = 1, b1 < 128
          rw [hw, if_neg (by omega), if_neg (by omega), if_neg (by omega), if_neg h1]
          show read_varint (b1 :: rest) = _
          rw [read_varint_e0 rest (by omega)]
          have : ((b1 : Int)) = v := by omega
          rw [this]
      · by_cases hbig : b2 ≥ 64
        · rw [hw, if_neg (by omega), if_neg (by omega), if_pos (by omega), if_pos hbig]
          show read_varint (192 :: b1 :: b2 :: rest) = _
          rw [read_varint_e2 b1 b2 rest (by omega) (by omega)]
          rw [hval b1 b2 (192 % 64) 0 (by omega)]
        · rw [hw, if_neg (by omega), if_neg (by omega), if_pos (by omega), if_neg hbig]
          show read_varint ((128 + b2) :: b1 :: rest) = _
          rw [read_varint_e1 b1 rest (by omega) (by omega)]
          rw [hval b1 ((128 + b2) % 128) 0 0 (by omega)]
    · by_cases hbig : b3 ≥ 32
      · rw [hw, if_neg (by omega), if_pos (by omega), if_pos hbig]
        show read_varint (224 :: b1 :: b2 :: b3 :: rest) = _
        rw [read_varint_e3 b1 b2 b3 rest (by omega) (by omega)]
        rw [hval b1 b2 b3 (224 % 32) (by omega)]
      · rw [hw, if_neg (by omega), if_pos (by omega), if_neg hbig]
        show read_varint ((192 + b3) :: b1 :: b2 :: rest) = _
        rw [read_varint_e2 b1 b2 rest (by omega) (by omega)]
        rw [hval b1 b2 ((192 + b3) % 64) 0 (by omega)]
  · by_cases hbig : b4 ≥ 16
    · rw [hw, if_pos (by omega), if_pos hbig]
      show read_varint (240 :: b1 :: b2 :: b3 :: b4 :: rest) = _
      rw [read_varint_e4 b1 b2 b3 b4 rest (by omega) (by omega)]
      rw [hval b1 b2 b3 b4 (by omega)]
    · rw [hw, if_pos (by omega), if_neg hbig]
      show read_varint ((224 + b4) :: b1 :: b2 :: b3 :: rest) = _
      rw [read_varint_e3 b1 b2 b3 rest (by omega) (by omega)]
      rw [hval b1 b2 b3 ((224 + b4) % 32) (by omega)]

/-- The `cnt = 8; while cnt > min_bytes and b[cnt] == 0: cnt -= 1` loop of
`write_varlong`, unrolled: the loop stops at the first position (from 8
down) that is `≤ min_bytes` or holds a nonzero byte. -/
def varlongCnt (b8 b7 b6 b5 b4 b3 b2 : Nat) (minb : Nat) : Nat :=
  if 8 ≤ minb ∨ b8 ≠ 0 then 8
  else if 7 ≤ minb ∨ b7 ≠ 0 then 7
  else if 6 ≤ minb ∨ b6 ≠ 0 then 6
  else if 5 ≤ minb ∨ b5 ≠ 0 then 5
  else if 4 ≤ minb ∨ b4 ≠ 0 then 4
  else if 3 ≤ minb ∨ b3 ≠ 0 then 3
  else if 2 ≤ minb ∨ b2 ≠ 0 then 2
  else 1

/-- The emission step of `write_varlong` for a given `cnt` value and top
byte `bc = b[cnt]`: `bit = 1 << (7 - cnt + min_bytes)`; then either prefix
`~(bit-1) & 0xFF = 256 - bit` followed by `b[1..cnt]`, or (for
`cnt > min_bytes`) prefix `b[cnt] | (~(bit*2-1) & 0xFF)` (the disjoint sum
`b[cnt] + (256 - 2*bit)` since `b[cnt] < bit`) followed by `b[1..cnt-1]`,
or (for `cnt = min_bytes`) prefix `b[cnt]` followed by `b[1..cnt-1]`. -/
def varlongEmit (minb c bc : Nat) (pack : List Nat) : List Nat :=
  let bit := 2 ^ (7 + minb - c)
  if bc ≥ bit then (256 - bit) :: pack.take c
  else if minb < c then (bc + (256 - 2 * bit)) :: pack.take (c - 1)
  else bc :: pack.take (c - 1)

/-- `ProtocolIO.write_varlong` (see `varlongCnt` and `varlongEmit` for the
unrolled loop and emission; the byte-position cases of the loop are
unrolled into the `if` chain). -/
def write_varlong (v : Int) (minb : Nat) : Except Err (List Nat) :=
  if minb < 1 ∨ 8 < minb then
    .error (.protocol "Invalid min_bytes for write_varlong()")
  else
    let u := (v % 18446744073709551616).toNat
    let q1 := u % 256
    let q2 := u / 256 % 256
    let q3 := u / 65536 % 256
    let q4 := u / 16777216 % 256
    let q5 := u / 4294967296 % 256
    let q6 := u / 1099511627776 % 256
    let q7 := u / 281474976710656 % 256
    let q8 := u / 72057594037927936 % 256
    let pack := [q1, q2, q3, q4, q5, q6, q7, q8]
    if 8 ≤ minb ∨ q8 ≠ 0 then .ok (varlongEmit minb 8 q8 pack)
    else if 7 ≤ minb ∨ q7 ≠ 0 then .ok (varlongEmit minb 7 q7 pack)
    else if 6 ≤ minb ∨ q6 ≠ 0 then .ok (varlongEmit minb 6 q6 pack)
    else if 5 ≤ minb ∨ q5 ≠ 0 then .ok (varlongEmit minb 5 q5 pack)
    else if 4 ≤ minb ∨ q4 ≠ 0 then .ok (varlongEmit minb 4 q4 pack)
    else if 3 ≤ minb ∨ q3 ≠ 0 then .ok (varlongEmit minb 3 q3 pack)
    else if 2 ≤ minb ∨ q2 ≠ 0 then .ok (varlongEmit minb 2 q2 pack)
    else .ok (varlongEmit minb 1 q1 pack)

/-- `ProtocolIO.read_varlong` on a byte list, returning the decoded value
and the unconsumed rest of the stream. -/
def read_varlong (stream : List Nat) (min_bytes : Nat) : Except Err (Int × List Nat) :=
  if min_bytes < 1 ∨ 8 < min_bytes then
    .error (.protocol "Invalid min_bytes for read_varlong()")
  else if stream.length < min_bytes then .error .eof
  else
    let b2 := stream.take min_bytes
    let rest0 := stream.drop min_bytes
    let c := b2.headD 0
    let extra := int_byte_extra (c % 256 / 4)
    if extra ≠ 0 then
      if 9 < min_bytes + extra then .error (.protocol "Overflow in read_varlong()")
      else if rest0.length < extra then .error .eof
      else
        let bit := 2 ^ (8 - extra)
        let buf := (b2.drop 1 ++ (rest0.take extra ++ ([c % bit] ++ List.replicate 9 0))).take 8
        .ok (intFromLE8signed buf, rest0.drop extra)
    else
      let buf := (b2.drop 1 ++ ([c] ++ List.replicate 9 0)).take 8
      .ok (intFromLE8signed buf, rest0)

theorem read_varlong_shape {m e p : Nat} (mid rest : List Nat) (v : Int)
    (hm1 : 1 ≤ m) (hm8 : m ≤ 8) (hp : p < 256)
    (hibe : int_byte_extra (p / 4) = e) (he : 0 < e) (hover : m + e ≤ 9)
    (hlen : mid.length = m - 1 + e)
    (hval : intFromLE8signed
      ((mid ++ ([p % 2 ^ (8 - e)] ++ List.replicate 9 0)).take 8) = v) :
    read_varlong ((p :: mid) ++ rest) m = .ok (v, rest) := by
  obtain ⟨m', rfl⟩ : ∃ m', m = m' + 1 := ⟨m - 1, by omega⟩
  simp only [read_varlong]
  rw [if_neg (by omega)]
  rw [if_neg (by simp only [List.cons_append, List.length_cons, List.length_append]; omega)]
  simp only [List.cons_append, List.take_succ_cons, List.drop_succ_cons, List.headD_cons]
  rw [Nat.mod_eq_of_lt hp, hibe]
  rw [if_pos (by omega), if_neg (by omega)]
  have hmidtake : (mid ++ rest).take m' = mid.take m' := by
    rw [List.take_append_eq_append_take, Nat.sub_eq_zero_of_le (by omega)]
    simp
  have hmiddrop : (mid ++ rest).drop m' = mid.drop m' ++ rest := by
    rw [List.drop_append_eq_append_drop, Nat.sub_eq_zero_of_le (by omega)]
    simp
  rw [hmidtake, hmiddrop]
  rw [if_neg (by simp only [List.length_append, List.length_drop]; omega)]
  have htail : (mid.drop m' ++ rest).take e = mid.drop m' := by
    rw [List.take_append_eq_append_take, List.length_drop,
      Nat.sub_eq_zero_of_le (by omega)]
    simp only [List.take_zero, List.append_nil]
    exact List.take_of_length_le (by simp; omega)
  have hdrop : (mid.drop m' ++ rest).drop e = rest := by
    rw [List.drop_append_eq_append_drop, List.length_drop]
    rw [List.drop_of_length_le (by simp; omega)]
    rw [Nat.sub_eq_zero_of_le (by omega)]
    simp
  rw [htail, hdrop]
  simp only [List.drop_zero, List.nil_append, List.singleton_append] at hval ⊢
  rw [← List.append_assoc, List.take_append_drop]
  rw [hval]

theorem read_varlong_shape0 {m p : Nat} (mid rest : List Nat) (v : Int)
    (hm1 : 1 ≤ m) (hm8 : m ≤ 8) (hp : p < 128)
    (hlen : mid.length = m - 1)
    (hval : intFromLE8signed ((mid ++ ([p] ++ List.replicate 9 0)).take 8) = v) :
    read_varlong ((p :: mid) ++ rest) m = .ok (v, rest) := by
  obtain ⟨m', rfl⟩ : ∃ m', m = m' + 1 := ⟨m - 1, by omega⟩
  simp only [read_varlong]
  rw [if_neg (by omega)]
  rw [if_neg (by simp only [List.cons_append, List.length_cons, List.length_append]; omega)]
  simp only [List.cons_append, List.take_succ_cons, List.drop_succ_cons, List.headD_cons]
  rw [Nat.mod_eq_of_lt (show p < 256 by omega), int_byte_extra_0 (by omega)]
  rw [if_neg (by simp)]
  have hmidtake : (mid ++ rest).take m' = mid.take m' := by
    rw [List.take_append_eq_append_take, Nat.sub_eq_zero_of_le (by omega)]
    simp
  have hmiddrop : (mid ++ rest).drop m' = rest := by
    rw [List.drop_append_eq_append_drop]
    rw [List.drop_of_length_le (by omega)]
    rw [Nat.sub_eq_zero_of_le (by omega)]
    simp
  rw [hmidtake, hmiddrop]
  simp only [List.drop_zero, List.nil_append, List.singleton_append] at hval ⊢
  rw [show mid.take m' = mid from List.take_of_length_le (by omega)]
  rw [hval]

theorem varlongEmit_first {m c bc : Nat} (pack : List Nat)
    (h : 2 ^ (7 + m - c) ≤ bc) :
    varlongEmit m c bc pack = (256 - 2 ^ (7 + m - c)) :: pack.take c := by
  simp only [varlongEmit]
  rw [if_pos h]

theorem varlongEmit_middle {m c bc : Nat} (pack : List Nat)
    (h : bc < 2 ^ (7 + m - c)) (h2 : m < c) :
    varlongEmit m c bc pack =
      (bc + (256 - 2 * 2 ^ (7 + m - c))) :: pack.take (c - 1) := by
  simp only [varlongEmit]
  rw [if_neg (by omega), if_pos h2]

theorem varlongEmit_last {m c bc : Nat} (pack : List Nat)
    (h : bc < 2 ^ (7 + m - c)) (h2 : ¬m < c) :
    varlongEmit m c bc pack = bc :: pack.take (c - 1) := by
  simp only [varlongEmit]
  rw [if_neg (by omega), if_neg h2]

theorem varlong_bind_ok (L rest : List Nat) (m : Nat) :
    (Except.ok L : Except Err (List Nat)).bind
      (fun s => read_varlong (s ++ rest) m) = read_varlong (L ++ rest) m := rfl

/-! ### Generic little-endian byte decompositions, for the varlong proofs -/

/-- The first `k` little-endian base-256 digits of `u` (the shape of
`struct.pack`). -/
def leBytes : Nat → Nat → List Nat
  | 0, _ => []
  | k + 1, u => u % 256 :: leBytes k (u / 256)

theorem leBytes_length (k : Nat) : ∀ u, (leBytes k u).length = k := by
  induction k with
  | zero => intro u; rfl
  | succ k ih => intro u; simp [leBytes, ih]

theorem fromLE_leBytes (k : Nat) : ∀ u, fromLE (leBytes k u) = u % 256 ^ k := by
  induction k with
  | zero => intro u; simp [leBytes, fromLE]; omega
  | succ k ih =>
    intro u
    show u % 256 + 256 * fromLE (leBytes k (u / 256)) = _
    rw [ih, Nat.div_mod_eq_mod_mul_div, show 256 * 256 ^ k = 256 ^ (k + 1) by ring]
    have hdvd : u % 256 ^ (k + 1) % 256 = u % 256 :=
      Nat.mod_mod_of_dvd u (dvd_pow_self 256 (Nat.succ_ne_zero k))
    omega

theorem fromLE_append (l r : List Nat) :
    fromLE (l ++ r) = fromLE l + 256 ^ l.length * fromLE r := by
  induction l with
  | nil => simp [fromLE]
  | cons b t ih =>
    show b + 256 * fromLE (t ++ r) = (b + 256 * fromLE t) + 256 ^ (t.length + 1) * fromLE r
    rw [ih, pow_succ]
    ring

theorem fromLE_replicate (k : Nat) : fromLE (List.replicate k 0) = 0 := by
  induction k with
  | zero => rfl
  | succ k ih => simpa [List.replicate, fromLE] using ih

theorem fromLE_pad (l : List Nat) (x k : Nat) :
    fromLE (l ++ x :: List.replicate k 0) = fromLE l + 256 ^ l.length * x := by
  rw [fromLE_append]
  show fromLE l + 256 ^ l.length * (x + 256 * fromLE (List.replicate k 0)) = _
  rw [fromLE_replicate]
  ring

theorem buf_take_le7 (l : List Nat) (x : Nat) (h : l.length ≤ 7) :
    (l ++ ([x] ++ List.replicate 9 0)).take 8 =
      l ++ x :: List.replicate (7 - l.length) 0 := by
  rw [List.take_append_eq_append_take, List.take_of_length_le (by omega)]
  congr 1
  have h9 : List.replicate 9 (0:Nat) =
      List.replicate (7 - l.length) 0 ++ List.replicate (2 + l.length) 0 := by
    rw [← List.replicate_add]
    congr 1
    omega
  rw [h9, List.singleton_append, ← List.cons_append, List.take_append_eq_append_take]
  rw [List.take_of_length_le (by simp; omega)]
  rw [show 8 - l.length - (x :: List.replicate (7 - l.length) 0).length = 0 by simp; omega]
  simp

theorem buf_take_8 (l : List Nat) (x : Nat) (h : l.length = 8) :
    (l ++ ([x] ++ List.replicate 9 0)).take 8 = l := by
  rw [List.take_append_eq_append_take, List.take_of_length_le (by omega), h]
  simp

theorem intFromLE8signed_eq_of (l : List Nat) (v : Int) (u : Nat)
    (hl : fromLE l = u) (hu : (u : Int) = v % 18446744073709551616)
    (hlo : -(2 ^ 63) ≤ v) (hhi : v < 2 ^ 63)
    (hult : u < 18446744073709551616) :
    intFromLE8signed l = v := by
  simp only [intFromLE8signed, hl]
  split
  · omega
  · omega

theorem value_mod_top (u P : Nat) (hP : 0 < P) (h : u < P * 256) :
    u % P + P * (u / P % 256) = u := by
  have h1 : u / P < 256 := Nat.div_lt_of_lt_mul (by omega)
  rw [Nat.mod_eq_of_lt h1, Nat.mod_add_div]

/-- Finite table facts about the prefix bytes emitted by `write_varlong`
(prefix `~(bit-1)` for the grown case, checked against `_INT_BYTE_EXTRA`). -/
theorem ibe_first_table : ∀ e < 7, 0 < e →
    int_byte_extra ((256 - 2 ^ (8 - e)) / 4) = e := by decide

theorem mask_first_table : ∀ e < 7, 0 < e →
    (256 - 2 ^ (8 - e)) % 2 ^ (8 - e) = 0 := by decide

theorem ibe_middle_table : ∀ e < 6, ∀ b < 128, 0 < e → b < 2 ^ (7 - e) →
    int_byte_extra ((b + (256 - 2 ^ (8 - e))) / 4) = e := by decide

theorem mask_middle_table : ∀ e < 6, ∀ b < 128, 0 < e → b < 2 ^ (7 - e) →
    (b + (256 - 2 ^ (8 - e))) % 2 ^ (8 - e) = b := by decide

/-- Decode of the `write_varlong` "grown prefix" shape
(`cnt` incremented, prefix `~(bit-1)`, all `n` payload bytes present). -/
theorem round_first (v : Int) (u n m : Nat) (rest : List Nat)
    (hu : (u : Int) = v % 18446744073709551616)
    (hlo : -(2 ^ 63) ≤ v) (hhi : v < 2 ^ 63)
    (hm3 : 3 ≤ m) (hm8 : m ≤ 8) (hmn : m ≤ n) (hn8 : n ≤ 8)
    (hun : u < 256 ^ n) :
    read_varlong (((256 - 2 ^ (8 - (n + 1 - m))) :: leBytes n u) ++ rest) m =
      .ok (v, rest) := by
  have hult : u < 18446744073709551616 := by
    have h1 : (256:Nat) ^ n ≤ 256 ^ 8 := Nat.pow_le_pow_right (by norm_num) hn8
    have h2 : (256:Nat) ^ 8 = 18446744073709551616 := by norm_num
    omega
  have he1 : 1 ≤ n + 1 - m := by omega
  have he7 : n + 1 - m < 7 := by omega
  have hbitpos : 0 < 2 ^ (8 - (n + 1 - m)) := Nat.pos_pow_of_pos _ (by norm_num)
  have hbitle : 2 ^ (8 - (n + 1 - m)) ≤ 2 ^ 8 :=
    Nat.pow_le_pow_right (by norm_num) (by omega)
  refine read_varlong_shape _ rest v (by omega) hm8 (by norm_num at hbitle; omega)
    (ibe_first_table _ he7 he1) (by omega) (by omega)
    (by rw [leBytes_length]; omega) ?_
  rw [mask_first_table _ he7 he1]
  by_cases hn7 : n ≤ 7
  · rw [buf_take_le7 _ _ (by rw [leBytes_length]; omega)]
    refine intFromLE8signed_eq_of _ v u ?_ hu hlo hhi hult
    rw [fromLE_pad, fromLE_leBytes, Nat.mod_eq_of_lt hun]
    ring
  · have hn8' : n = 8 := by omega
    subst hn8'
    rw [buf_take_8 _ _ (leBytes_length 8 u)]
    refine intFromLE8signed_eq_of _ v u ?_ hu hlo hhi hult
    rw [fromLE_leBytes]
    exact Nat.mod_eq_of_lt hun

/-- Decode of the `write_varlong` "middle" shape (`cnt > min_bytes`, top
byte folded into the prefix). -/
theorem round_middle (v : Int) (u n m : Nat) (rest : List Nat)
    (hu : (u : Int) = v % 18446744073709551616)
    (hlo : -(2 ^ 63) ≤ v) (hhi : v < 2 ^ 63)
    (hm3 : 3 ≤ m) (hm8 : m ≤ 8) (hmn : m < n) (hn8 : n ≤ 8)
    (hun : u < 256 ^ n)
    (htop : u / 256 ^ (n - 1) % 256 < 2 ^ (7 - (n - m))) :
    read_varlong (((u / 256 ^ (n - 1) % 256 + (256 - 2 * 2 ^ (7 + m - n))) ::
        leBytes (n - 1) u) ++ rest) m = .ok (v, rest) := by
  have hult : u < 18446744073709551616 := by
    have h1 : (256:Nat) ^ n ≤ 256 ^ 8 := Nat.pow_le_pow_right (by norm_num) hn8
    have h2 : (256:Nat) ^ 8 = 18446744073709551616 := by norm_num
    omega
  have he1 : 1 ≤ n - m := by omega
  have he6 : n - m < 6 := by omega
  have h2bit : 2 * 2 ^ (7 + m - n) = 2 ^ (8 - (n - m)) := by
    rw [show 8 - (n - m) = (7 + m - n) + 1 by omega, pow_succ]
    ring
  have hsm : 2 ^ (7 - (n - m)) ≤ 2 ^ 7 := Nat.pow_le_pow_right (by norm_num) (by omega)
  have hβ128 : u / 256 ^ (n - 1) % 256 < 128 := by norm_num at hsm; omega
  have hbitle : 2 ^ (8 - (n - m)) ≤ 2 ^ 8 := Nat.pow_le_pow_right (by norm_num) (by omega)
  have hbitgt : 2 ^ (7 - (n - m)) < 2 ^ (8 - (n - m)) :=
    Nat.pow_lt_pow_right (by norm_num) (by omega)
  rw [h2bit]
  refine read_varlong_shape _ rest v (by omega) hm8
    (by norm_num at hbitle; omega)
    (ibe_middle_table _ he6 _ hβ128 (by omega) htop) (by omega) (by omega)
    (by rw [leBytes_length]; omega) ?_
  rw [mask_middle_table _ he6 _ hβ128 (by omega) htop]
  rw [buf_take_le7 _ _ (by rw [leBytes_length]; omega)]
  refine intFromLE8signed_eq_of _ v u ?_ hu hlo hhi hult
  rw [fromLE_pad, fromLE_leBytes, leBytes_length]
  refine value_mod_top u (256 ^ (n - 1)) (Nat.pos_pow_of_pos _ (by norm_num)) ?_
  rw [show (256:Nat) ^ (n - 1) * 256 = 256 ^ n by
    rw [← pow_succ]; congr 1; omega]
  exact hun

/-- Decode of the `write_varlong` "minimum" shape (`cnt = min_bytes`,
prefix byte is the top payload byte itself, no extra bytes). -/
theorem round_last (v : Int) (u m : Nat) (rest : List Nat)
    (hu : (u : Int) = v % 18446744073709551616)
    (hlo : -(2 ^ 63) ≤ v) (hhi : v < 2 ^ 63)
    (hm1 : 1 ≤ m) (hm8 : m ≤ 8)
    (hun : u < 256 ^ m)
    (htop : u / 256 ^ (m - 1) % 256 < 128) :
    read_varlong (((u / 256 ^ (m - 1) % 256) :: leBytes (m - 1) u) ++ rest) m =
      .ok (v, rest) := by
  have hult : u < 18446744073709551616 := by
    have h1 : (256:Nat) ^ m ≤ 256 ^ 8 := Nat.pow_le_pow_right (by norm_num) hm8
    have h2 : (256:Nat) ^ 8 = 18446744073709551616 := by norm_num
    omega
  refine read_varlong_shape0 _ rest v hm1 hm8 htop (by rw [leBytes_length]) ?_
  rw [buf_take_le7 _ _ (by rw [leBytes_length]; omega)]
  refine intFromLE8signed_eq_of _ v u ?_ hu hlo hhi hult
  rw [fromLE_pad, fromLE_leBytes, leBytes_length]
  refine value_mod_top u (256 ^ (m - 1)) (Nat.pos_pow_of_pos _ (by norm_num)) ?_
  rw [show (256:Nat) ^ (m - 1) * 256 = 256 ^ m by
    rw [← pow_succ]; congr 1; omega]
  exact hun

theorem pack_take (u : Nat) :
    ∀ c ≤ 8, (List.take c [u % 256, u / 256 % 256, u / 65536 % 256,
      u / 16777216 % 256, u / 4294967296 % 256, u / 1099511627776 % 256,
      u / 281474976710656 % 256, u / 72057594037927936 % 256]) = leBytes c u := by
  have d2 : u / 256 / 256 = u / 65536 := by rw [Nat.div_div_eq_div_mul]
  have d3 : u / 65536 / 256 = u / 16777216 := by rw [Nat.div_div_eq_div_mul]
  have d4 : u / 16777216 / 256 = u / 4294967296 := by rw [Nat.div_div_eq_div_mul]
  have d5 : u / 4294967296 / 256 = u / 1099511627776 := by rw [Nat.div_div_eq_div_mul]
  have d6 : u / 1099511627776 / 256 = u / 281474976710656 := by
    rw [Nat.div_div_eq_div_mul]
  have d7 : u / 281474976710656 / 256 = u / 72057594037927936 := by
    rw [Nat.div_div_eq_div_mul]
  intro c hc
  interval_cases c <;>
    simp [leBytes, d2, d3, d4, d5, d6, d7]

set_option maxHeartbeats 1600000 in
/-- varlong roundtrip: for `min_bytes ∈ [3, 8]` the encoder and decoder
are mutual inverses over the full signed 64-bit range. -/
theorem write_read_varlong (v : Int) (minb : Nat) (rest : List Nat)
    (hlo : -(2 ^ 63) ≤ v) (hhi : v < 2 ^ 63) (hm3 : 3 ≤ minb) (hm8 : minb ≤ 8) :
    (write_varlong v minb).bind (fun s => read_varlong (s ++ rest) minb) =
      .ok (v, rest) := by
  set u := (v % 18446744073709551616).toNat with hu
  have humod : (u : Int) = v % 18446744073709551616 := by
    rw [hu]; exact Int.toNat_of_nonneg (Int.emod_nonneg v (by norm_num))
  have hult : u < 18446744073709551616 := by
    have := Int.emod_lt_of_pos v (show (0:Int) < 18446744073709551616 by norm_num)
    omega
  set b1 := u % 256 with hq1
  set b2 := u / 256 % 256 with hq2
  set b3 := u / 65536 % 256 with hq3
  set b4 := u / 16777216 % 256 with hq4
  set b5 := u / 4294967296 % 256 with hq5
  set b6 := u / 1099511627776 % 256 with hq6
  set b7 := u / 281474976710656 % 256 with hq7
  set b8 := u / 72057594037927936 % 256 with hq8
  have hpackAll : ∀ c, c ≤ 8 →
      List.take c [b1, b2, b3, b4, b5, b6, b7, b8] = leBytes c u := by
    intro c hc
    rw [hq1, hq2, hq3, hq4, hq5, hq6, hq7, hq8]
    exact pack_take u c hc
  have hw : write_varlong v minb =
      (if 8 ≤ minb ∨ b8 ≠ 0 then
        .ok (varlongEmit minb 8 b8 [b1, b2, b3, b4, b5, b6, b7, b8])
      else if 7 ≤ minb ∨ b7 ≠ 0 then
        .ok (varlongEmit minb 7 b7 [b1, b2, b3, b4, b5, b6, b7, b8])
      else if 6 ≤ minb ∨ b6 ≠ 0 then
        .ok (varlongEmit minb 6 b6 [b1, b2, b3, b4, b5, b6, b7, b8])
      else if 5 ≤ minb ∨ b5 ≠ 0 then
        .ok (varlongEmit minb 5 b5 [b1, b2, b3, b4, b5, b6, b7, b8])
      else if 4 ≤ minb ∨ b4 ≠ 0 then
        .ok (varlongEmit minb 4 b4 [b1, b2, b3, b4, b5, b6, b7, b8])
      else if 3 ≤ minb ∨ b3 ≠ 0 then
        .ok (varlongEmit minb 3 b3 [b1, b2, b3, b4, b5, b6, b7, b8])
      else if 2 ≤ minb ∨ b2 ≠ 0 then
        .ok (varlongEmit minb 2 b2 [b1, b2, b3, b4, b5, b6, b7, b8])
      else .ok (varlongEmit minb 1 b1 [b1, b2, b3, b4, b5, b6, b7, b8])) := by
    simp only [write_varlong, ← hu, ← hq1, ← hq2, ← hq3, ← hq4, ← hq5, ← hq6,
      ← hq7, ← hq8]
    rw [if_neg (by omega)]
  interval_cases minb
  · -- min_bytes = 3
    by_cases h8 : b8 = 0
    · -- byte 8 is zero, descend
      by_cases h7 : b7 = 0
      · -- byte 7 is zero, descend
        by_cases h6 : b6 = 0
        · -- byte 6 is zero, descend
          by_cases h5 : b5 = 0
          · -- byte 5 is zero, descend
            by_cases h4 : b4 = 0
            · -- byte 4 is zero, descend
              by_cases hb : 2 ^ (7 + 3 - 3) ≤ b3
              · rw [hw, if_neg (by omega), if_neg (by omega), if_neg (by omega), if_neg (by omega), if_neg (by omega), if_pos (by omega),
                  varlongEmit_first _ hb, varlong_bind_ok, hpackAll 3 (by norm_num)]
                exact round_first v u 3 3 rest humod hlo hhi (by norm_num)
                  (by norm_num) (by norm_num) (by norm_num) (by norm_num; omega)
              · rw [hw, if_neg (by omega), if_neg (by omega), if_neg (by omega), if_neg (by omega), if_neg (by omega), if_pos (by omega),
                  varlongEmit_last _ (not_le.mp hb) (by norm_num), varlong_bind_ok,
                  hpackAll (3 - 1) (by norm_num)]
                norm_num at hb
                exact round_last v u 3 rest humod hlo hhi (by norm_num)
                  (by norm_num) (by norm_num; omega) (by norm_num; omega)
            · by_cases hb : 2 ^ (7 + 3 - 4) ≤ b4
              · rw [hw, if_neg (by omega), if_neg (by omega), if_neg (by omega), if_neg (by omega), if_pos (Or.inr h4),
                  varlongEmit_first _ hb, varlong_bind_ok, hpackAll 4 (by norm_num)]
                exact round_first v u 4 3 rest humod hlo hhi (by norm_num)
                  (by norm_num) (by norm_num) (by norm_num) (by norm_num; omega)
              · rw [hw, if_neg (by omega), if_neg (by omega), if_neg (by omega), if_neg (by omega), if_pos (Or.inr h4),
                  varlongEmit_middle _ (not_le.mp hb) (by norm_num), varlong_bind_ok,
                  hpackAll (4 - 1) (by norm_num)]
                norm_num at hb
                exact round_middle v u 4 3 rest humod hlo hhi (by norm_num)
                  (by norm_num) (by norm_num) (by norm_num) (by norm_num; omega)
                  (by norm_num; omega)
          · by_cases hb : 2 ^ (7 + 3 - 5) ≤ b5
            · rw [hw, if_neg (by omega), if_neg (by omega), if_neg (by omega), if_pos (Or.inr h5),
                varlongEmit_first _ hb, varlong_bind_ok, hpackAll 5 (by norm_num)]
              exact round_first v u 5 3 rest humod hlo hhi (by norm_num)
                (by norm_num) (by norm_num) (by norm_num) (by norm_num; omega)
            · rw [hw, if_neg (by omega), if_neg (by omega), if_neg (by omega), if_pos (Or.inr h5),
                varlongEmit_middle _ (not_le.mp hb) (by norm_num), varlong_bind_ok,
                hpackAll (5 - 1) (by norm_num)]
              norm_num at hb
              exact round_middle v u 5 3 rest humod hlo hhi (by norm_num)
                (by norm_num) (by norm_num) (by norm_num) (by norm_num; omega)
                (by norm_num; omega)
        · by_cases hb : 2 ^ (7 + 3 - 6) ≤ b6
          · rw [hw, if_neg (by omega), if_neg (by omega), if_pos (Or.inr h6),
              varlongEmit_first _ hb, varlong_bind_ok, hpackAll 6 (by norm_num)]
            exact round_first v u 6 3 rest humod hlo hhi (by norm_num)
              (by norm_num) (by norm_num) (by norm_num) (by norm_num; omega)
          · rw [hw, if_neg (by omega), if_neg (by omega), if_pos (Or.inr h6),
              varlongEmit_middle _ (not_le.mp hb) (by norm_num), varlong_bind_ok,
              hpackAll (6 - 1) (by norm_num)]
            norm_num at hb
            exact round_middle v u 6 3 rest humod hlo hhi (by norm_num)
              (by norm_num) (by norm_num) (by norm_num) (by norm_num; omega)
              (by norm_num; omega)
      · by_cases hb : 2 ^ (7 + 3 - 7) ≤ b7
        · rw [hw, if_neg (by omega), if_pos (Or.inr h7),
            varlongEmit_first _ hb, varlong_bind_ok, hpackAll 7 (by norm_num)]
          exact round_first v u 7 3 rest humod hlo hhi (by norm_num)
            (by norm_num) (by norm_num) (by norm_num) (by norm_num; omega)
        · rw [hw, if_neg (by omega), if_pos (Or.inr h7),
            varlongEmit_middle _ (not_le.mp hb) (by norm_num), varlong_bind_ok,
            hpackAll (7 - 1) (by norm_num)]
          norm_num at hb
          exact round_middle v u 7 3 rest humod hlo hhi (by norm_num)
            (by norm_num) (by norm_num) (by norm_num) (by norm_num; omega)
            (by norm_num; omega)
    · by_cases hb : 2 ^ (7 + 3 - 8) ≤ b8
      · rw [hw, if_pos (Or.inr h8),
          varlongEmit_first _ hb, varlong_bind_ok, hpackAll 8 (by norm_num)]
        exact round_first v u 8 3 rest humod hlo hhi (by norm_num)
          (by norm_num) (by norm_num) (by norm_num) (by norm_num; omega)
      · rw [hw, if_pos (Or.inr h8),
          varlongEmit_middle _ (not_le.mp hb) (by norm_num), varlong_bind_ok,
          hpackAll (8 - 1) (by norm_num)]
        norm_num at hb
        exact round_middle v u 8 3 rest humod hlo hhi (by norm_num)
          (by norm_num) (by norm_num) (by norm_num) (by norm_num; omega)
          (by norm_num; omega)
  · -- min_bytes = 4
    by_cases h8 : b8 = 0
    · -- byte 8 is zero, descend
      by_cases h7 : b7 = 0
      · -- byte 7 is zero, descend
        by_cases h6 : b6 = 0
        · -- byte 6 is zero, descend
          by_cases h5 : b5 = 0
          · -- byte 5 is zero, descend
            by_cases hb : 2 ^ (7 + 4 - 4) ≤ b4
            · rw [hw, if_neg (by omega), if_neg (by omega), if_neg (by omega), if_neg (by omega), if_pos (by omega),
                varlongEmit_first _ hb, varlong_bind_ok, hpackAll 4 (by norm_num)]
              exact round_first v u 4 4 rest humod hlo hhi (by norm_num)
                (by norm_num) (by norm_num) (by norm_num) (by norm_num; omega)
            · rw [hw, if_neg (by omega), if_neg (by omega), if_neg (by omega), if_neg (by omega), if_pos (by omega),
                varlongEmit_last _ (not_le.mp hb) (by norm_num), varlong_bind_ok,
                hpackAll (4 - 1) (by norm_num)]
              norm_num at hb
              exact round_last v u 4 rest humod hlo hhi (by norm_num)
                (by norm_num) (by norm_num; omega) (by norm_num; omega)
          · by_cases hb : 2 ^ (7 + 4 - 5) ≤ b5
            · rw [hw, if_neg (by omega), if_neg (by omega), if_neg (by omega), if_pos (Or.inr h5),
                varlongEmit_first _ hb, varlong_bind_ok, hpackAll 5 (by norm_num)]
              exact round_first v u 5 4 rest humod hlo hhi (by norm_num)
                (by norm_num) (by norm_num) (by norm_num) (by norm_num; omega)
            · rw [hw, if_neg (by omega), if_neg (by omega), if_neg (by omega), if_pos (Or.inr h5),
                varlongEmit_middle _ (not_le.mp hb) (by norm_num), varlong_bind_ok,
                hpackAll (5 - 1) (by norm_num)]
              norm_num at hb
              exact round_middle v u 5 4 rest humod hlo hhi (by norm_num)
                (by norm_num) (by norm_num) (by norm_num) (by norm_num; omega)
                (by norm_num; omega)
        · by_cases hb : 2 ^ (7 + 4 - 6) ≤ b6
          · rw [hw, if_neg (by omega), if_neg (by omega), if_pos (Or.inr h6),
              varlongEmit_first _ hb, varlong_bind_ok, hpackAll 6 (by norm_num)]
            exact round_first v u 6 4 rest humod hlo hhi (by norm_num)
              (by norm_num) (by norm_num) (by norm_num) (by norm_num; omega)
          · rw [hw, if_neg (by omega), if_neg (by omega), if_pos (Or.inr h6),
              varlongEmit_middle _ (not_le.mp hb) (by norm_num), varlong_bind_ok,
              hpackAll (6 - 1) (by norm_num)]
            norm_num at hb
            exact round_middle v u 6 4 rest humod hlo hhi (by norm_num)
              (by norm_num) (by norm_num) (by norm_num) (by norm_num; omega)
              (by norm_num; omega)
      · by_cases hb : 2 ^ (7 + 4 - 7) ≤ b7
        · rw [hw, if_neg (by omega), if_pos (Or.inr h7),
            varlongEmit_first _ hb, varlong_bind_ok, hpackAll 7 (by norm_num)]
          exact round_first v u 7 4 rest humod hlo hhi (by norm_num)
            (by norm_num) (by norm_num) (by norm_num) (by norm_num; omega)
        · rw [hw, if_neg (by omega), if_pos (Or.inr h7),
            varlongEmit_middle _ (not_le.mp hb) (by norm_num), varlong_bind_ok,
            hpackAll (7 - 1) (by norm_num)]
          norm_num at hb
          exact round_middle v u 7 4 rest humod hlo hhi (by norm_num)
            (by norm_num) (by norm_num) (by norm_num) (by norm_num; omega)
            (by norm_num; omega)
    · by_cases hb : 2 ^ (7 + 4 - 8) ≤ b8
      · rw [hw, if_pos (Or.inr h8),
          varlongEmit_first _ hb, varlong_bind_ok, hpackAll 8 (by norm_num)]
        exact round_first v u 8 4 rest humod hlo hhi (by norm_num)
          (by norm_num) (by norm_num) (by norm_num) (by norm_num; omega)
      · rw [hw, if_pos (Or.inr h8),
          varlongEmit_middle _ (not_le.mp hb) (by norm_num), varlong_bind_ok,
          hpackAll (8 - 1) (by norm_num)]
        norm_num at hb
        exact round_middle v u 8 4 rest humod hlo hhi (by norm_num)
          (by norm_num) (by norm_num) (by norm_num) (by norm_num; omega)
          (by norm_num; omega)
  · -- min_bytes = 5
    by_cases h8 : b8 = 0
    · -- byte 8 is zero, descend
      by_cases h7 : b7 = 0
      · -- byte 7 is zero, descend
        by_cases h6 : b6 = 0
        · -- byte 6 is zero, descend
          by_cases hb : 2 ^ (7 + 5 - 5) ≤ b5
          · rw [hw, if_neg (by omega), if_neg (by omega), if_neg (by omega), if_pos (by omega),
              varlongEmit_first _ hb, varlong_bind_ok, hpackAll 5 (by norm_num)]
            exact round_first v u 5 5 rest humod hlo hhi (by norm_num)
              (by norm_num) (by norm_num) (by norm_num) (by norm_num; omega)
          · rw [hw, if_neg (by omega), if_neg (by omega), if_neg (by omega), if_pos (by omega),
              varlongEmit_last _ (not_le.mp hb) (by norm_num), varlong_bind_ok,
              hpackAll (5 - 1) (by norm_num)]
            norm_num at hb
            exact round_last v u 5 rest humod hlo hhi (by norm_num)
              (by norm_num) (by norm_num; omega) (by norm_num; omega)
        · by_cases hb : 2 ^ (7 + 5 - 6) ≤ b6
          · rw [hw, if_neg (by omega), if_neg (by omega), if_pos (Or.inr h6),
              varlongEmit_first _ hb, varlong_bind_ok, hpackAll 6 (by norm_num)]
            exact round_first v u 6 5 rest humod hlo hhi (by norm_num)
              (by norm_num) (by norm_num) (by norm_num) (by norm_num; omega)
          · rw [hw, if_neg (by omega), if_neg (by omega), if_pos (Or.inr h6),
              varlongEmit_middle _ (not_le.mp hb) (by norm_num), varlong_bind_ok,
              hpackAll (6 - 1) (by norm_num)]
            norm_num at hb
            exact round_middle v u 6 5 rest humod hlo hhi (by norm_num)
              (by norm_num) (by norm_num) (by norm_num) (by norm_num; omega)
              (by norm_num; omega)
      · by_cases hb : 2 ^ (7 + 5 - 7) ≤ b7
        · rw [hw, if_neg (by omega), if_pos (Or.inr h7),
            varlongEmit_first _ hb, varlong_bind_ok, hpackAll 7 (by norm_num)]
          exact round_first v u 7 5 rest humod hlo hhi (by norm_num)
            (by norm_num) (by norm_num) (by norm_num) (by norm_num; omega)
        · rw [hw, if_neg (by omega), if_pos (Or.inr h7),
            varlongEmit_middle _ (not_le.mp hb) (by norm_num), varlong_bind_ok,
            hpackAll (7 - 1) (by norm_num)]
          norm_num at hb
          exact round_middle v u 7 5 rest humod hlo hhi (by norm_num)
            (by norm_num) (by norm_num) (by norm_num) (by norm_num; omega)
            (by norm_num; omega)
    · by_cases hb : 2 ^ (7 + 5 - 8) ≤ b8
      · rw [hw, if_pos (Or.inr h8),
          varlongEmit_first _ hb, varlong_bind_ok, hpackAll 8 (by norm_num)]
        exact round_first v u 8 5 rest humod hlo hhi (by norm_num)
          (by norm_num) (by norm_num) (by norm_num) (by norm_num; omega)
      · rw [hw, if_pos (Or.inr h8),
          varlongEmit_middle _ (not_le.mp hb) (by norm_num), varlong_bind_ok,
          hpackAll (8 - 1) (by norm_num)]
        norm_num at hb
        exact round_middle v u 8 5 rest humod hlo hhi (by norm_num)
          (by norm_num) (by norm_num) (by norm_num) (by norm_num; omega)
          (by norm_num; omega)
  · -- min_bytes = 6
    by_cases h8 : b8 = 0
    · -- byte 8 is zero, descend
      by_cases h7 : b7 = 0
      · -- byte 7 is zero, descend
        by_cases hb : 2 ^ (7 + 6 - 6) ≤ b6
        · rw [hw, if_neg (by omega), if_neg (by omega), if_pos (by omega),
            varlongEmit_first _ hb, varlong_bind_ok, hpackAll 6 (by norm_num)]
          exact round_first v u 6 6 rest humod hlo hhi (by norm_num)
            (by norm_num) (by norm_num) (by norm_num) (by norm_num; omega)
        · rw [hw, if_neg (by omega), if_neg (by omega), if_pos (by omega),
            varlongEmit_last _ (not_le.mp hb) (by norm_num), varlong_bind_ok,
            hpackAll (6 - 1) (by norm_num)]
          norm_num at hb
          exact round_last v u 6 rest humod hlo hhi (by norm_num)
            (by norm_num) (by norm_num; omega) (by norm_num; omega)
      · by_cases hb : 2 ^ (7 + 6 - 7) ≤ b7
        · rw [hw, if_neg (by omega), if_pos (Or.inr h7),
            varlongEmit_first _ hb, varlong_bind_ok, hpackAll 7 (by norm_num)]
          exact round_first v u 7 6 rest humod hlo hhi (by norm_num)
            (by norm_num) (by norm_num) (by norm_num) (by norm_num; omega)
        · rw [hw, if_neg (by omega), if_pos (Or.inr h7),
            varlongEmit_middle _ (not_le.mp hb) (by norm_num), varlong_bind_ok,
            hpackAll (7 - 1) (by norm_num)]
          norm_num at hb
          exact round_middle v u 7 6 rest humod hlo hhi (by norm_num)
            (by norm_num) (by norm_num) (by norm_num) (by norm_num; omega)
            (by norm_num; omega)
    · by_cases hb : 2 ^ (7 + 6 - 8) ≤ b8
      · rw [hw, if_pos (Or.inr h8),
          varlongEmit_first _ hb, varlong_bind_ok, hpackAll 8 (by norm_num)]
        exact round_first v u 8 6 rest humod hlo hhi (by norm_num)
          (by norm_num) (by norm_num) (by norm_num) (by norm_num; omega)
      · rw [hw, if_pos (Or.inr h8),
          varlongEmit_middle _ (not_le.mp hb) (by norm_num), varlong_bind_ok,
          hpackAll (8 - 1) (by norm_num)]
        norm_num at hb
        exact round_middle v u 8 6 rest humod hlo hhi (by norm_num)
          (by norm_num) (by norm_num) (by norm_num) (by norm_num; omega)
          (by norm_num; omega)
  · -- min_bytes = 7
    by_cases h8 : b8 = 0
    · -- byte 8 is zero, descend
      by_cases hb : 2 ^ (7 + 7 - 7) ≤ b7
      · rw [hw, if_neg (by omega), if_pos (by omega),
          varlongEmit_first _ hb, varlong_bind_ok, hpackAll 7 (by norm_num)]
        exact round_first v u 7 7 rest humod hlo hhi (by norm_num)
          (by norm_num) (by norm_num) (by norm_num) (by norm_num; omega)
      · rw [hw, if_neg (by omega), if_pos (by omega),
          varlongEmit_last _ (not_le.mp hb) (by norm_num), varlong_bind_ok,
          hpackAll (7 - 1) (by norm_num)]
        norm_num at hb
        exact round_last v u 7 rest humod hlo hhi (by norm_num)
          (by norm_num) (by norm_num; omega) (by norm_num; omega)
    · by_cases hb : 2 ^ (7 + 7 - 8) ≤ b8
      · rw [hw, if_pos (Or.inr h8),
          varlongEmit_first _ hb, varlong_bind_ok, hpackAll 8 (by norm_num)]
        exact round_first v u 8 7 rest humod hlo hhi (by norm_num)
          (by norm_num) (by norm_num) (by norm_num) (by norm_num; omega)
      · rw [hw, if_pos (Or.inr h8),
          varlongEmit_middle _ (not_le.mp hb) (by norm_num), varlong_bind_ok,
          hpackAll (8 - 1) (by norm_num)]
        norm_num at hb
        exact round_middle v u 8 7 rest humod hlo hhi (by norm_num)
          (by norm_num) (by norm_num) (by norm_num) (by norm_num; omega)
          (by norm_num; omega)
  · -- min_bytes = 8
    by_cases hb : 2 ^ (7 + 8 - 8) ≤ b8
    · rw [hw, if_pos (by omega),
        varlongEmit_first _ hb, varlong_bind_ok, hpackAll 8 (by norm_num)]
      exact round_first v u 8 8 rest humod hlo hhi (by norm_num)
        (by norm_num) (by norm_num) (by norm_num) (by norm_num; omega)
    · rw [hw, if_pos (by omega),
        varlongEmit_last _ (not_le.mp hb) (by norm_num), varlong_bind_ok,
        hpackAll (8 - 1) (by norm_num)]
      norm_num at hb
      exact round_last v u 8 rest humod hlo hhi (by norm_num)
        (by norm_num) (by norm_num; omega) (by norm_num; omega)

/-- C3 counterexample: the claim orients the shrink update wrongly.  For
`D = [1, 2]`, `o = 0`, `k = 2`, the shrink update applied to
`weak(D[0:2]) = weak([1, 2])` yields the components of `[2]` (the window
loses its FIRST byte, as in the source, which subtracts
`new[offset] + CHAR_OFFSET` and advances `offset`), not the components of
`D[0:1] = [1]` (one byte shorter at the right end) as the claim states. -/
theorem C3_counterexample :
    shrink_update 1 (rollingComponents (sliceN [1, 2] 0 2)).1
        (rollingComponents (sliceN [1, 2] 0 2)).2 2 ≠
      rollingComponents (sliceN [1, 2] 0 1) := by
  decide

/-- C3 (amended): both rolling updates agree with recomputing the weak
checksum components from scratch, with the shrink update oriented as the
source has it.  Slide: for a window `b :: mid` (any `D[o-1 .. o+k-1]`
split at its first byte) and incoming byte `c`, `rolling_update` maps the
components of `b :: mid` to the components of `mid ++ [c]`
(`= D[o .. o+k]`).  Shrink: for a window `b :: w` (any `D[o .. o+k]`
split at its first byte), the shrink update of `generate_delta` maps the
components of `b :: w` to the components of `w = D[o+1 .. o+k]` — the
window loses its first byte, not its last as the claim says. -/
theorem C3_rolling_and_shrink_updates (b c : Nat) (mid w : List Nat) :
    rolling_update b c (rollingComponents (b :: mid)).1
        (rollingComponents (b :: mid)).2 (mid.length + 1) =
      rollingComponents (mid ++ [c]) ∧
    shrink_update b (rollingComponents (b :: w)).1
        (rollingComponents (b :: w)).2 (w.length + 1) =
      rollingComponents w :=
  ⟨rolling_update_slide b c mid, shrink_update_drops_first b w⟩

/-! ### Sum-struct header (read_sum_head / write_sum_head) -/

def MAX_BLOCK_SIZE : Nat := 131072

def OLD_MAX_BLOCK_SIZE : Nat := 8192

def MAX_DIGEST_LEN : Nat := 64

def SHORT_SUM_LENGTH : Nat := 2

def CSUM_LENGTH : Nat := SHORT_SUM_LENGTH

/-- The `SumHead` record (count, blength, s2length, remainder). -/
structure SumHead where
  count : Int
  blength : Int
  s2length : Int
  remainder : Int
deriving DecidableEq, Repr

/-- The 4 little-endian bytes of `struct.pack(lt_i, v)` for an in-range
value (two's complement). -/
def encInt32 (v : Int) : List Nat :=
  leBytes 4 (v % 4294967296).toNat

/-- `ProtocolIO.write_int`: `struct.pack(lt_i, value)` raises for values
outside the signed 32-bit range. -/
def write_int (value : Int) : Except Err (List Nat) :=
  if value < -(2 ^ 31) ∨ 2 ^ 31 ≤ value then
    .error (.protocol "struct.error: int out of 32-bit range")
  else .ok (encInt32 value)

/-- `ProtocolIO.read_int`: 4 little-endian bytes, signed. -/
def read_int (stream : List Nat) : Except Err (Int × List Nat) :=
  if stream.length < 4 then .error .eof
  else .ok (intFromLE4signed (stream.take 4), stream.drop 4)

/-- `ProtocolIO.read_sum_head` on a byte list: reads `count`, `blength`,
(`s2length` when `protocol_version ≥ 27`, else `Config.CSUM_LENGTH`),
`remainder`, validating each exactly as the source. -/
def read_sum_head (stream : List Nat) (protocol_version : Nat) :
    Except Err (SumHead × List Nat) :=
  let max_blength : Int :=
    if protocol_version < 30 then (OLD_MAX_BLOCK_SIZE : Int) else (MAX_BLOCK_SIZE : Int)
  match read_int stream with
  | .error e => .error e
  | .ok (count, s1) =>
    if count < 0 then .error (.protocol "Invalid checksum count")
    else
      match read_int s1 with
      | .error e => .error e
      | .ok (blength, s2) =>
        if blength < 0 ∨ max_blength < blength then
          .error (.protocol "Invalid block length")
        else
          match (if 27 ≤ protocol_version then read_int s2
                 else .ok ((CSUM_LENGTH : Int), s2)) with
          | .error e => .error e
          | .ok (s2length, s3) =>
            if s2length < 0 ∨ (MAX_DIGEST_LEN : Int) < s2length then
              .error (.protocol "Invalid checksum length")
            else
              match read_int s3 with
              | .error e => .error e
              | .ok (remainder, s4) =>
                if remainder < 0 ∨ blength < remainder then
                  .error (.protocol "Invalid remainder")
                else .ok (⟨count, blength, s2length, remainder⟩, s4)

/-- `ProtocolIO.write_sum_head`: `count`, `blength`, (`s2length` when
`protocol_version ≥ 27`), `remainder`, each through `write_int`. -/
def write_sum_head (s : SumHead) (protocol_version : Nat) :
    Except Err (List Nat) :=
  match write_int s.count with
  | .error e => .error e
  | .ok a =>
    match write_int s.blength with
    | .error e => .error e
    | .ok b =>
      match (if 27 ≤ protocol_version then write_int s.s2length
             else .ok []) with
      | .error e => .error e
      | .ok c =>
        match write_int s.remainder with
        | .error e => .error e
        | .ok d => .ok (a ++ (b ++ (c ++ d)))

theorem read_int_enc (v : Int) (rest : List Nat)
    (h1 : -(2 ^ 31) ≤ v) (h2 : v < 2 ^ 31) :
    read_int (encInt32 v ++ rest) = .ok (v, rest) := by
  have humod : (((v % 4294967296).toNat : Nat) : Int) = v % 4294967296 :=
    Int.toNat_of_nonneg (Int.emod_nonneg v (by norm_num))
  have hult : (v % 4294967296).toNat < 4294967296 := by
    have := Int.emod_lt_of_pos v (show (0:Int) < 4294967296 by norm_num)
    omega
  have hlen : (encInt32 v).length = 4 := leBytes_length 4 _
  unfold read_int
  rw [if_neg (by rw [List.length_append, hlen]; omega)]
  have ht : (encInt32 v ++ rest).take 4 = encInt32 v := by
    rw [← hlen]; exact List.take_left (encInt32 v) rest
  have hd : (encInt32 v ++ rest).drop 4 = rest := by
    rw [← hlen]; exact List.drop_left (encInt32 v) rest
  rw [ht, hd]
  unfold intFromLE4signed encInt32
  rw [fromLE_leBytes]
  rw [Nat.mod_eq_of_lt (by omega)]
  by_cases hbig : (v % 4294967296).toNat < 2 ^ 31
  · rw [if_pos hbig]
    have : (v % 4294967296) = v := by omega
    simp only [Except.ok.injEq, Prod.mk.injEq, and_true]
    omega
  · rw [if_neg hbig]
    simp only [Except.ok.injEq, Prod.mk.injEq, and_true]
    omega

theorem write_int_ok (v : Int) (h1 : -(2 ^ 31) ≤ v) (h2 : v < 2 ^ 31) :
    write_int v = .ok (encInt32 v) := by
  unfold write_int
  rw [if_neg (by omega)]

/-- C6 helper: the full sum-head round-trip, covering both protocol
branches in one equation. -/
theorem read_write_sum_head (s : SumHead) (P : Nat) (rest : List Nat)
    (hc0 : 0 ≤ s.count) (hc1 : s.count < 2 ^ 31)
    (hb0 : 0 ≤ s.blength)
    (hb1 : s.blength ≤ if P < 30 then (OLD_MAX_BLOCK_SIZE : Int) else (MAX_BLOCK_SIZE : Int))
    (hs0 : 0 ≤ s.s2length) (hs1 : s.s2length ≤ 64)
    (hr0 : 0 ≤ s.remainder) (hr1 : s.remainder ≤ s.blength) :
    (write_sum_head s P).bind (fun L => read_sum_head (L ++ rest) P) =
      .ok (if 27 ≤ P then s else { s with s2length := (CSUM_LENGTH : Int) }, rest) := by
  have hbm : (OLD_MAX_BLOCK_SIZE : Int) ≤ (MAX_BLOCK_SIZE : Int) := by
    unfold OLD_MAX_BLOCK_SIZE MAX_BLOCK_SIZE; norm_num
  have hb1' : s.blength < 2 ^ 31 := by
    by_cases h : P < 30
    · rw [if_pos h] at hb1
      unfold OLD_MAX_BLOCK_SIZE at hb1; omega
    · rw [if_neg h] at hb1
      unfold MAX_BLOCK_SIZE at hb1; omega
  unfold write_sum_head
  rw [write_int_ok s.count (by omega) hc1,
      write_int_ok s.blength (by omega) hb1',
      write_int_ok s.remainder (by omega) (by omega)]
  by_cases hP : 27 ≤ P
  · rw [if_pos hP, write_int_ok s.s2length (by omega) (by omega)]
    show read_sum_head ((encInt32 s.count ++ (encInt32 s.blength ++
      (encInt32 s.s2length ++ encInt32 s.remainder))) ++ rest) P = _
    unfold read_sum_head
    simp only [List.append_assoc]
    rw [read_int_enc s.count _ (by omega) hc1]
    simp only
    rw [if_neg (by omega)]
    rw [read_int_enc s.blength _ (by omega) hb1']
    simp only
    rw [if_neg (by push_neg; exact ⟨hb0, hb1⟩)]
    rw [if_pos hP, read_int_enc s.s2length _ (by omega) (by omega)]
    simp only
    rw [if_neg (by
      unfold MAX_DIGEST_LEN; push_cast; omega)]
    rw [read_int_enc s.remainder _ (by omega) (by omega)]
    simp only
    rw [if_neg (by omega), if_pos hP]
  · rw [if_neg hP]
    show read_sum_head ((encInt32 s.count ++ (encInt32 s.blength ++
      ([] ++ encInt32 s.remainder))) ++ rest) P = _
    unfold read_sum_head
    simp only [List.append_assoc, List.nil_append]
    rw [read_int_enc s.count _ (by omega) hc1]
    simp only
    rw [if_neg (by omega)]
    rw [read_int_enc s.blength _ (by omega) hb1']
    simp only
    rw [if_neg (by push_neg; exact ⟨hb0, hb1⟩)]
    rw [if_neg hP]
    simp only
    rw [if_neg (by unfold CSUM_LENGTH SHORT_SUM_LENGTH MAX_DIGEST_LEN; norm_num)]
    rw [read_int_enc s.remainder _ (by omega) (by omega)]
    simp only
    rw [if_neg (by omega), if_neg hP]

/-- C6 counterexample: the header `⟨2 ^ 31, 0, 2, 0⟩` satisfies every
range condition the claim lists as defining validity (`count ≥ 0`,
`0 ≤ block_length ≤ max`, `0 ≤ strong_prefix_len ≤ 64`,
`0 ≤ remainder ≤ block_length`), yet `write_sum_head` raises
`struct.error` on it (`count` does not fit a signed int32), so the
round-trip does not return the header. -/
theorem C6_counterexample :
    (write_sum_head ⟨2 ^ 31, 0, 2, 0⟩ 32).bind
        (fun L => read_sum_head (L ++ []) 32) ≠
      .ok ((⟨2 ^ 31, 0, 2, 0⟩ : SumHead), []) := by
  intro h
  have hc : (write_sum_head ⟨2 ^ 31, 0, 2, 0⟩ 32).bind
      (fun L => read_sum_head (L ++ []) 32) =
      .error (.protocol "struct.error: int out of 32-bit range") := rfl
  rw [hc] at h
  exact Except.noConfusion h

/-- C6 (amended): for every sum header whose fields are in range **and
whose `count` fits a signed int32** (`0 ≤ count < 2 ^ 31`, a bound the
claim's validity list omits), and every protocol version,
`read_sum_head ∘ write_sum_head` returns the header unchanged when
`P ≥ 27`; when `P < 27` the `s2length` field is not transmitted and the
reader substitutes the configured default `Config.CSUM_LENGTH`. -/
theorem C6_sum_head_roundtrip (s : SumHead) (P : Nat) (rest : List Nat)
    (hc0 : 0 ≤ s.count) (hc1 : s.count < 2 ^ 31)
    (hb0 : 0 ≤ s.blength)
    (hb1 : s.blength ≤ if P < 30 then (OLD_MAX_BLOCK_SIZE : Int) else (MAX_BLOCK_SIZE : Int))
    (hs0 : 0 ≤ s.s2length) (hs1 : s.s2length ≤ 64)
    (hr0 : 0 ≤ s.remainder) (hr1 : s.remainder ≤ s.blength) :
    (write_sum_head s P).bind (fun L => read_sum_head (L ++ rest) P) =
      .ok (if 27 ≤ P then s else { s with s2length := (CSUM_LENGTH : Int) }, rest) :=
  read_write_sum_head s P rest hc0 hc1 hb0 hb1 hs0 hs1 hr0 hr1

/-- C6 witness: the amended round-trip theorem at
`h = ⟨1, 700, 16, 42⟩`, protocol 32, and at protocol 20 (default
substituted). -/
theorem C6_witness :
    (write_sum_head ⟨1, 700, 16, 42⟩ 32).bind
        (fun L => read_sum_head (L ++ [5]) 32) =
      .ok ((⟨1, 700, 16, 42⟩ : SumHead), [5]) ∧
    (write_sum_head ⟨1, 700, 16, 42⟩ 20).bind
        (fun L => read_sum_head (L ++ [5]) 20) =
      .ok ((⟨1, 700, 2, 42⟩ : SumHead), [5]) := by
  constructor
  · have h := C6_sum_head_roundtrip ⟨1, 700, 16, 42⟩ 32 [5] (by norm_num)
      (by norm_num) (by norm_num)
      (by unfold MAX_BLOCK_SIZE; norm_num) (by norm_num) (by norm_num)
      (by norm_num) (by norm_num)
    simpa using h
  · have h := C6_sum_head_roundtrip ⟨1, 700, 16, 42⟩ 20 [5] (by norm_num)
      (by norm_num) (by norm_num)
      (by unfold OLD_MAX_BLOCK_SIZE; norm_num) (by norm_num) (by norm_num)
      (by norm_num) (by norm_num)
    simpa [CSUM_LENGTH, SHORT_SUM_LENGTH] using h

/-! ### Delta instructions and apply_delta -/

def MAX_FILE_SIZE_IN_MEMORY : Nat := 1024 * 1024 * 100

/-- `DeltaMatch` (frozen dataclass): `block_index`, `offset_in_new`,
`length`, all Python `int`s. -/
structure DeltaMatch where
  block_index : Int
  offset_in_new : Int
  length : Int
deriving DecidableEq, Repr

/-- `DeltaLiteral` (frozen dataclass): `offset` and the literal bytes. -/
structure DeltaLiteral where
  offset : Int
  data : List Nat
deriving DecidableEq, Repr

/-- The `Union[DeltaMatch, DeltaLiteral]` payload of an instruction. -/
inductive DeltaInstr where
  | dmatch : DeltaMatch → DeltaInstr
  | dliteral : DeltaLiteral → DeltaInstr
deriving DecidableEq, Repr

/-- `DeltaInstructions` (the fields apply/describe paths consult;
`compression_ratio` is modelled in ℚ — the two values the spec compares
against, 1.0 and 0.0, are exact in binary floating point). -/
structure DeltaInstructions where
  original_file_size : Nat
  new_file_size : Nat
  block_size : Nat
  instructions : List (String × DeltaInstr)
  compression_ratio : ℚ
deriving DecidableEq, Repr

/-- Python slice `data[a:b]` for arbitrary `int` bounds: negative
indices count from the end, both bounds clamp to `[0, len]`, and a
hollow range yields `[]`. -/
def pySlice (data : List Nat) (a b : Int) : List Nat :=
  let n : Int := (data.length : Int)
  let a' : Int := if a < 0 then max (n + a) 0 else min a n
  let b' : Int := if b < 0 then max (n + b) 0 else min b n
  sliceN data a'.toNat b'.toNat

/-- The bytes one instruction contributes in `apply_delta`'s loop:
`cmd == 'match' and isinstance(instruction, DeltaMatch)` copies
`original_data[block_index*block_size : +length]` (a truncating slice),
`cmd == 'literal' and isinstance(instruction, DeltaLiteral)` appends the
literal bytes, and every other combination is skipped. -/
def instrBytes (B : List Nat) (bs : Nat) (ci : String × DeltaInstr) : List Nat :=
  match ci with
  | (cmd, .dmatch m) =>
    if cmd = "match" then
      pySlice B (m.block_index * (bs : Int))
        (m.block_index * (bs : Int) + m.length)
    else []
  | (cmd, .dliteral l) => if cmd = "literal" then l.data else []

/-- `ChecksumEngine.apply_delta`: `validate_data` rejects an oversized
basis, then the loop concatenates each instruction's contribution. -/
def apply_delta (original_data : List Nat) (delta : DeltaInstructions) :
    Except Err (List Nat) :=
  if MAX_FILE_SIZE_IN_MEMORY < original_data.length then
    .error (.protocol "ResourceLimitError: data too large")
  else
    .ok ((delta.instructions.map (instrBytes original_data delta.block_size)).flatten)

/-- The information `apply_delta` actually reads from an instruction:
`(block_index, length)` of a well-tagged match, the byte buffer of a
well-tagged literal, nothing otherwise.  Offset fields do not appear. -/
def instrKey : String × DeltaInstr → Option ((Int × Int) ⊕ List Nat)
  | (cmd, .dmatch m) =>
    if cmd = "match" then some (.inl (m.block_index, m.length)) else none
  | (cmd, .dliteral l) =>
    if cmd = "literal" then some (.inr l.data) else none

/-- Reconstructing a contribution from the key alone. -/
def keyBytes (B : List Nat) (bs : Nat) :
    Option ((Int × Int) ⊕ List Nat) → List Nat
  | none => []
  | some (.inl (bi, len)) =>
    pySlice B (bi * (bs : Int)) (bi * (bs : Int) + len)
  | some (.inr d) => d

theorem instrBytes_eq_keyBytes (B : List Nat) (bs : Nat)
    (ci : String × DeltaInstr) :
    instrBytes B bs ci = keyBytes B bs (instrKey ci) := by
  obtain ⟨cmd, i⟩ := ci
  cases i with
  | dmatch m =>
    by_cases h : cmd = "match" <;> simp [instrBytes, instrKey, keyBytes, h]
  | dliteral l =>
    by_cases h : cmd = "literal" <;> simp [instrBytes, instrKey, keyBytes, h]

theorem apply_delta_keyed (B : List Nat) (E : DeltaInstructions)
    (hB : B.length ≤ MAX_FILE_SIZE_IN_MEMORY) :
    apply_delta B E =
      .ok (((E.instructions.map instrKey).map (keyBytes B E.block_size)).flatten) := by
  unfold apply_delta
  rw [if_neg (by omega), List.map_map]
  have : instrBytes B E.block_size =
      keyBytes B E.block_size ∘ instrKey :=
    funext (instrBytes_eq_keyBytes B E.block_size)
  rw [this]

/-- C10: `apply_delta` is total on every well-typed instruction list (no
instruction can make it raise; only an oversized basis, rejected by
`validate_data` up front, can).  Its output is the concatenation, in
instruction order, of per-instruction contributions that depend only on
the tag, the `(block_index, length)` pair of a well-tagged match (the
slice silently truncating at the end of the basis, possibly to empty)
and the byte buffer of a well-tagged literal: `offset_in_new`/`offset`
fields are never consulted, and unknown or mismatched tags are silently
skipped, so two deltas with the same per-instruction keys reconstruct
identically. -/
theorem C10_apply_delta_behavior (B : List Nat) (D D' : DeltaInstructions)
    (hB : B.length ≤ MAX_FILE_SIZE_IN_MEMORY)
    (hbs : D.block_size = D'.block_size)
    (hkeys : D.instructions.map instrKey = D'.instructions.map instrKey) :
    apply_delta B D =
      .ok (((D.instructions.map instrKey).map (keyBytes B D.block_size)).flatten) ∧
    apply_delta B D = apply_delta B D' := by
  refine ⟨apply_delta_keyed B D hB, ?_⟩
  rw [apply_delta_keyed B D hB, apply_delta_keyed B D' hB, hkeys, hbs]

/-- C10 witness: on the basis `[10, .., 14]` with block size 2, a delta
with a truncated match (block 2, length 9 → bytes `[14]`), an unknown
tag, a mismatched tag and a literal reconstructs `[12, 13, 7, 8, 14]`,
and changing every offset field (and the payloads of skipped
instructions) leaves the result unchanged. -/
theorem C10_witness :
    apply_delta [10, 11, 12, 13, 14]
        ⟨5, 9, 2, [("match", .dmatch ⟨1, 0, 2⟩),
                   ("literal", .dliteral ⟨2, [7, 8]⟩),
                   ("bogus", .dmatch ⟨0, 4, 2⟩),
                   ("literal", .dmatch ⟨0, 4, 2⟩),
                   ("match", .dmatch ⟨2, 6, 9⟩)], 1⟩ =
      .ok [12, 13, 7, 8, 14] ∧
    apply_delta [10, 11, 12, 13, 14]
        ⟨5, 9, 2, [("match", .dmatch ⟨1, 0, 2⟩),
                   ("literal", .dliteral ⟨2, [7, 8]⟩),
                   ("bogus", .dmatch ⟨0, 4, 2⟩),
                   ("literal", .dmatch ⟨0, 4, 2⟩),
                   ("match", .dmatch ⟨2, 6, 9⟩)], 1⟩ =
      apply_delta [10, 11, 12, 13, 14]
        ⟨5, 9, 2, [("match", .dmatch ⟨1, 99, 2⟩),
                   ("literal", .dliteral ⟨0, [7, 8]⟩),
                   ("bogus", .dliteral ⟨77, [1]⟩),
                   ("literal", .dmatch ⟨5, 0, 2⟩),
                   ("match", .dmatch ⟨2, 0, 9⟩)], 1⟩ := by
  have h := C10_apply_delta_behavior [10, 11, 12, 13, 14]
    ⟨5, 9, 2, [("match", .dmatch ⟨1, 0, 2⟩),
               ("literal", .dliteral ⟨2, [7, 8]⟩),
               ("bogus", .dmatch ⟨0, 4, 2⟩),
               ("literal", .dmatch ⟨0, 4, 2⟩),
               ("match", .dmatch ⟨2, 6, 9⟩)], 1⟩
    ⟨5, 9, 2, [("match", .dmatch ⟨1, 99, 2⟩),
               ("literal", .dliteral ⟨0, [7, 8]⟩),
               ("bogus", .dliteral ⟨77, [1]⟩),
               ("literal", .dmatch ⟨5, 0, 2⟩),
               ("match", .dmatch ⟨2, 0, 9⟩)], 1⟩
    (by decide) rfl (by decide)
  refine ⟨?_, h.2⟩
  rw [h.1]
  rfl

/-! ### Signature generation (sum_sizes_sqroot, block_checksums,
generate_signature) -/

def BLOCK_SIZE : Nat := 700

def BLOCKSUM_BIAS : Nat := 10

def SUM_LENGTH : Nat := 16

def MD5_DIGEST_LEN : Nat := 16

def TRADITIONAL_TABLESIZE : Nat := 65536

def MIN_BLOCK_SIZE_LIMIT : Nat := 16

/-- `while l > 0: l >>= 2; c <<= 1` of `sum_sizes_sqroot` (`fuel ≥ l`
iterations always suffice). -/
def csizeLoop : Nat → Nat → Nat → Nat
  | 0, _, c => c
  | fuel + 1, l, c => if 0 < l then csizeLoop fuel (l / 4) (c * 2) else c

/-- `while c >= 8: blength |= c; if file_length < blength*blength:
blength &= ~c; c >>= 1`.  `x &&& ~c` on Python ints equals
`x - (x &&& c)` for nonnegative `x`. -/
def blenLoop : Nat → Nat → Nat → Nat → Nat
  | 0, _, bl, _ => bl
  | fuel + 1, c, bl, flen =>
    if 8 ≤ c then
      let bl' := Nat.lor bl c
      let bl'' := if flen < bl' * bl' then bl' - Nat.land bl' c else bl'
      blenLoop fuel (c / 2) bl'' flen
    else bl

/-- `while l > 0: l >>= 1; b += 2`. -/
def bitsLoop : Nat → Nat → Nat → Nat
  | 0, _, b => b
  | fuel + 1, l, b => if 0 < l then bitsLoop fuel (l / 2) (b + 2) else b

/-- `while (c >> 1) and b: c >>= 1; b -= 1`. -/
def shaveLoop : Nat → Nat → Nat → Nat
  | 0, _, b => b
  | fuel + 1, c, b =>
    if 0 < c / 2 ∧ 0 < b then shaveLoop fuel (c / 2) (b - 1) else b

structure SumSizes where
  flength : Nat
  blength : Nat
  s2length : Nat
  remainder : Nat
  count : Nat
deriving DecidableEq, Repr

/-- `sum_sizes_sqroot` on a nonnegative file length (the caller always
passes `len(file_data)`; the `file_length < 0` guard is unreachable). -/
def sum_sizes_sqroot (file_length : Nat) (protocol_version : Nat)
    (fixed_block_size : Nat) (csum_length : Nat) (xfer_sum_len : Nat) :
    SumSizes :=
  let max_blength := if protocol_version < 30 then OLD_MAX_BLOCK_SIZE
    else MAX_BLOCK_SIZE
  let blength :=
    if 0 < fixed_block_size then fixed_block_size
    else if file_length ≤ BLOCK_SIZE * BLOCK_SIZE then BLOCK_SIZE
    else
      let c := csizeLoop file_length file_length 1
      if max_blength ≤ c then max_blength
      else max (blenLoop c c 0 file_length) BLOCK_SIZE
  let s2length :=
    if protocol_version < 27 then csum_length
    else if csum_length = SUM_LENGTH then SUM_LENGTH
    else
      let b := shaveLoop blength blength
        (bitsLoop file_length file_length BLOCKSUM_BIAS)
      let s0 : Int := Int.fdiv ((b : Int) + 1 - 32 + 7) 8
      (min (max s0 (csum_length : Int)) (SUM_LENGTH : Int)).toNat
  let s2length := if 0 < xfer_sum_len ∧ xfer_sum_len < s2length then
    xfer_sum_len else s2length
  let remainder := if 0 < blength then file_length % blength else 0
  let count := if 0 < blength then
    file_length / blength + (if remainder ≠ 0 then 1 else 0) else 0
  ⟨file_length, blength, s2length, remainder, count⟩

/-- `BlockChecksum` (the `chain` field, unused by the matcher, is
omitted). -/
structure BlockChecksum where
  weak_checksum : Nat
  strong_checksum : List Nat
  offset : Nat
  length : Nat
deriving DecidableEq, Repr

/-- `ChecksumSignature` (the checksum-name, protocol and seed metadata
fields, which the matcher never reads, are omitted). -/
structure ChecksumSignature where
  block_size : Nat
  file_size : Nat
  num_blocks : Nat
  blocks : List BlockChecksum
deriving DecidableEq, Repr

/-- The `s2length` property of `ChecksumSignature`: the stored
strong-prefix length of the first block, `MD5_DIGEST_LEN` when empty. -/
def sig_s2length (sig : ChecksumSignature) : Nat :=
  match sig.blocks with
  | [] => MD5_DIGEST_LEN
  | b :: _ => b.strong_checksum.length

/-- `Checksum.block_checksums`: one `(weak, strong)` pair per
`block_size` slice (requires `block_size > 0` as in the source, where a
zero step would raise). -/
def block_checksums (block_size : Nat) (strongFn : List Nat → List Nat)
    (data : List Nat) : List (Nat × List Nat) :=
  (List.range ((data.length + block_size - 1) / block_size)).map (fun i =>
    let block := sliceN data (i * block_size) (i * block_size + block_size)
    (rolling_checksum block, strongFn block))

/-- `ChecksumEngine.generate_signature`, parameterised by the engine's
block size and the strong-checksum collaborator (`hashlib`/`xxhash`
digests, or the in-source `NONE` type `fun _ => [0]`) together with its
digest length. -/
def generate_signature (block_size : Nat) (strongFn : List Nat → List Nat)
    (xfer_sum_len : Nat) (protocol_version : Nat) (csum_length : Nat)
    (file_data : List Nat) : ChecksumSignature :=
  let sizes := sum_sizes_sqroot file_data.length protocol_version block_size
    csum_length xfer_sum_len
  let s2length := sizes.s2length
  let blocks_raw := block_checksums block_size strongFn file_data
  let blocks_typed := blocks_raw.enum.map (fun p =>
    BlockChecksum.mk p.2.1 (p.2.2.take s2length) (p.1 * block_size)
      (min block_size (file_data.length - p.1 * block_size)))
  ⟨block_size, file_data.length, blocks_typed.length, blocks_typed⟩

/-! ### Hash table (match.c build_hash_table / SUM2HASH) -/

/-- `HashTable` table size with `Config.HASH_TABLE_DYNAMIC = True`. -/
def tablesize (count : Nat) : Nat :=
  if 0 < count then max (count / 8 * 10 + 11) TRADITIONAL_TABLESIZE
  else TRADITIONAL_TABLESIZE

/-- `HashTable._hash`: `SUM2HASH` for the traditional table,
`BIG_SUM2HASH` otherwise. -/
def sum2hash (ts weak : Nat) : Nat :=
  if ts = TRADITIONAL_TABLESIZE then (weak % 65536 + weak / 65536 % 65536) % 65536
  else weak % ts

def dummyBlock : BlockChecksum := ⟨0, [], 0, 0⟩

def blockAt (blocks : List BlockChecksum) (i : Nat) : BlockChecksum :=
  blocks.getD i dummyBlock

/-- `HashTable.lookup_indices(weak, length=k)`: the bucket of
`hash(weak)` holds block indices in ascending order; the result keeps
those whose weak checksum and length match exactly. -/
def lookup_indices (blocks : List BlockChecksum) (ts weak k : Nat) :
    List Nat :=
  (blocks.enum.filter (fun p =>
    (sum2hash ts p.2.weak_checksum == sum2hash ts weak) &&
      (p.2.weak_checksum == weak) && (p.2.length == k))).map (fun p => p.1)

/-! ### The matcher (ChecksumEngine.generate_delta = match.c
hash_search) -/

structure MatcherCtx where
  data : List Nat
  blocks : List BlockChecksum
  blength : Nat
  s2length : Nat
  ts : Nat
  strongFn : List Nat → List Nat
  ub : Bool
  endB : Nat
  flen : Nat

structure MatchState where
  offset : Nat
  k : Nat
  s1 : Nat
  s2 : Nat
  lit_start : Nat
  want_i : Nat
  last_match : Nat
  instructions : List (String × DeltaInstr)
  aligned_offset : Nat
  aligned_i : Nat
  same_offset : List Nat

inductive StepRes where
  | cont : MatchState → StepRes
  | done : MatchState → StepRes

/-- `while aligned_offset < offset: aligned_offset += blength;
aligned_i += 1` (`fuel ≥ target` suffices whenever `blength > 0`). -/
def alignAdvance (bl target : Nat) : Nat → Nat → Nat → Nat × Nat
  | 0, ao, ai => (ao, ai)
  | fuel + 1, ao, ai =>
    if ao < target then alignAdvance bl target fuel (ao + bl) (ai + 1)
    else (ao, ai)

/-- The match-emission tail of the loop body: flush pending literals,
append the match, advance past it and either `break` (at EOF or an
empty next window) or recompute the weak checksum from scratch and
`continue`. -/
def emitMatch (C : MatcherCtx) (st : MatchState) (mi : Nat) : StepRes :=
  let instrs1 := if st.lit_start < st.offset then
      st.instructions ++ [("literal",
        DeltaInstr.dliteral ⟨(st.lit_start : Int),
          sliceN C.data st.lit_start st.offset⟩)]
    else st.instructions
  let instrs2 := instrs1 ++ [("match",
    DeltaInstr.dmatch ⟨(mi : Int), (st.offset : Int), (st.k : Int)⟩)]
  let offset' := st.offset + st.k
  let st' := { st with
      instructions := instrs2
      want_i := mi + 1
      last_match := offset'
      offset := offset'
      lit_start := offset' }
  if C.flen ≤ offset' then .done st'
  else
    let k' := min C.blength (C.flen - offset')
    if k' = 0 then .done { st' with k := k' }
    else
      let weak0 := rolling_checksum_optimized
        (sliceN C.data offset' (offset' + k'))
      let c := checksum_components weak0
      .cont { st' with k := k', s1 := c.1, s2 := c.2 }

/-- The no-match tail: slide (or shrink at EOF) the window, apply the
early-flush heuristic, advance one byte. -/
def noMatchStep (C : MatcherCtx) (st : MatchState) : StepRes :=
  let old_byte := C.data.getD st.offset 0
  let upd :=
    if st.offset + st.k < C.flen then
      let p := rolling_update old_byte (C.data.getD (st.offset + st.k) 0)
        st.s1 st.s2 st.k
      (p.1, p.2, st.k)
    else
      let p := shrink_update old_byte st.s1 st.s2 st.k
      (p.1, p.2, st.k - 1)
  let backup := st.offset - st.last_match
  let fl :=
    if C.blength + CHUNK_SIZE ≤ backup ∧ CHUNK_SIZE < C.endB - st.offset then
      let flush_end := st.offset - C.blength
      if st.lit_start < flush_end then
        (st.instructions ++ [("literal",
          DeltaInstr.dliteral ⟨(st.lit_start : Int),
            sliceN C.data st.lit_start flush_end⟩)], flush_end, flush_end)
      else (st.instructions, st.lit_start, st.last_match)
    else (st.instructions, st.lit_start, st.last_match)
  .cont { st with
      s1 := upd.1
      s2 := upd.2.1
      k := upd.2.2
      instructions := fl.1
      lit_start := fl.2.1
      last_match := fl.2.2
      offset := st.offset + 1 }

/-- One iteration of `generate_delta`'s `while offset < end and k > 0`
loop: weak lookup, strong scan of the candidate bucket, the
`updating_basis_file` bypass and aligned fast-path, the `want_i`
adjacency promotion, then match emission or the one-byte slide. -/
def bodyStep (C : MatcherCtx) (st : MatchState) : StepRes :=
  let weak := combine_checksum st.s1 st.s2
  let cand0 := lookup_indices C.blocks C.ts weak st.k
  if cand0 = [] then noMatchStep C st
  else
    let window := sliceN C.data st.offset (st.offset + st.k)
    let strong := C.strongFn window
    let cand := if C.ub then
        cand0.filter (fun i =>
          (st.offset ≤ (blockAt C.blocks i).offset : Bool) ||
            st.same_offset.contains i)
      else cand0
    let matched0 := cand.find? (fun i =>
      (blockAt C.blocks i).strong_checksum.take C.s2length ==
        strong.take C.s2length)
    let aligned :=
      if C.ub then
        match matched0 with
        | some _ =>
          let p := alignAdvance C.blength st.offset (st.offset + 1)
            st.aligned_offset st.aligned_i
          let ao := p.1
          let ai := p.2
          let st1 := { st with aligned_offset := ao, aligned_i := ai }
          let l := st.k
          if (st.offset = ao ∨
              (weak = 0 ∧ l = C.blength ∧ ao + l ≤ C.flen)) ∧
              ai < C.blocks.length then
            let matchedA :=
              if matched0 ≠ some ai then
                let ablk := blockAt C.blocks ai
                if weak = ablk.weak_checksum ∧ l = ablk.length ∧
                    ablk.strong_checksum.take C.s2length =
                      strong.take C.s2length then
                  some ai
                else matched0
              else matched0
            if matchedA = some ai then
              let jump :=
                if st.offset ≠ ao ∧ ao + l ≤ C.flen then
                  let astrong := C.strongFn (sliceN C.data ao (ao + l))
                  if astrong.take C.s2length =
                      (blockAt C.blocks ai).strong_checksum.take C.s2length then
                    (ao, astrong)
                  else (st.offset, strong)
                else (st.offset, strong)
              ({ st1 with
                  offset := jump.1
                  same_offset := ai :: st1.same_offset
                  want_i := ai },
                matchedA, jump.2)
            else (st1, matchedA, strong)
          else (st1, matched0, strong)
        | none => (st, matched0, strong)
      else (st, matched0, strong)
    let st1 := aligned.1
    let matched1 := aligned.2.1
    let strong1 := aligned.2.2
    let matched2 :=
      match matched1 with
      | some mi =>
        if mi ≠ st1.want_i ∧ st1.want_i < C.blocks.length then
          let wblk := blockAt C.blocks st1.want_i
          if (¬ C.ub ∨ st1.offset ≤ wblk.offset ∨
              st1.want_i ∈ st1.same_offset) ∧
              weak = wblk.weak_checksum ∧
              strong1.take C.s2length =
                wblk.strong_checksum.take C.s2length then
            some st1.want_i
          else matched1
        else matched1
      | none => none
    match matched2 with
    | some mi => emitMatch C st1 mi
    | none => noMatchStep C st1

/-- The matcher loop on fuel; `endB + 1` iterations always suffice since
`offset` strictly increases on every `cont`. -/
def matchLoop (C : MatcherCtx) : Nat → MatchState → MatchState
  | 0, st => st
  | fuel + 1, st =>
    if st.offset < C.endB ∧ 0 < st.k then
      match bodyStep C st with
      | .done st' => st'
      | .cont st' => matchLoop C fuel st'
    else st

def matchBytesOf (l : List (String × DeltaInstr)) : Int :=
  (l.map (fun ci =>
    match ci with
    | (cmd, .dmatch m) => if cmd = "match" then m.length else 0
    | _ => 0)).sum

def literalBytesOf (l : List (String × DeltaInstr)) : Int :=
  (l.map (fun ci =>
    match ci with
    | (cmd, .dliteral lit) => if cmd = "literal" then (lit.data.length : Int)
      else 0
    | _ => 0)).sum

/-- `ChecksumEngine.generate_delta` (strong checksums through the
`strongFn` collaborator, `updating_basis_file` as the `ub` flag,
statistics and the optional sender file sum not modelled). -/
def generate_delta (strongFn : List Nat → List Nat) (ub : Bool)
    (sig : ChecksumSignature) (new_file_data : List Nat) :
    Except Err DeltaInstructions :=
  if MAX_FILE_SIZE_IN_MEMORY < new_file_data.length then
    .error (.protocol "ResourceLimitError: data too large")
  else
    let flen := new_file_data.length
    let blength := sig.block_size
    let last_block_len := match sig.blocks.getLast? with
      | some b => b.length
      | none => 0
    let endB := if 0 < last_block_len then flen + 1 - last_block_len else 0
    let k0 := min blength flen
    let c0 := if 0 < k0 then
        checksum_components (rolling_checksum_optimized (sliceN new_file_data 0 k0))
      else (0, 0)
    let C : MatcherCtx := ⟨new_file_data, sig.blocks, blength,
      sig_s2length sig, tablesize sig.blocks.length, strongFn, ub, endB, flen⟩
    let st0 : MatchState := ⟨0, k0, c0.1, c0.2, 0, 0, 0, [], 0, 0, []⟩
    let stF := matchLoop C (endB + 1) st0
    let instrsF := if stF.lit_start < flen then
        stF.instructions ++ [("literal",
          DeltaInstr.dliteral ⟨(stF.lit_start : Int),
            sliceN new_file_data stF.lit_start flen⟩)]
      else stF.instructions
    let match_bytes := matchBytesOf instrsF
    let literal_bytes := literalBytesOf instrsF
    let total := match_bytes + literal_bytes
    let ratio : ℚ := if 0 < total then (match_bytes : ℚ) / (total : ℚ) else 0
    .ok ⟨sig.file_size, new_file_data.length, sig.block_size, instrsF, ratio⟩

/-! ### Algorithm negotiation (_choose_from_remote_list) -/

instance exceptDecEq {ε α : Type} [DecidableEq ε] [DecidableEq α] :
    DecidableEq (Except ε α) := fun a b =>
  match a, b with
  | .error x, .error y =>
    if h : x = y then isTrue (by rw [h])
    else isFalse (fun k => h (Except.error.inj k))
  | .error _, .ok _ => isFalse (fun k => Except.noConfusion k)
  | .ok _, .error _ => isFalse (fun k => Except.noConfusion k)
  | .ok x, .ok y =>
    if h : x = y then isTrue (by rw [h])
    else isFalse (fun k => h (Except.ok.inj k))

/-- The lookup into the dict `rank = {name: i for i, name in
enumerate(local_pref)}`: entries are installed left to right, a later
binding overwriting an earlier one, so the lookup returns the index of
the LAST occurrence. -/
def rankGetAux (l : List String) (tok : String) (i : Nat) (acc : Option Nat) :
    Option Nat :=
  match l with
  | [] => acc
  | x :: rest => rankGetAux rest tok (i + 1) (if x == tok then some i else acc)

/-- `rank.get(tok, d)`. -/
def rankGet (l : List String) (tok : String) (d : Nat) : Nat :=
  (rankGetAux l tok 0 none).getD d

/-- The client-side scan of `_choose_from_remote_list`: keep the
strictly-best (lowest-rank) acceptable token, breaking early when rank 0
is reached. -/
def chooseClientLoop (local_pref : List String) :
    List String → Option String → Nat → Option String × Nat
  | [], best_tok, best_rank => (best_tok, best_rank)
  | tok :: rest, best_tok, best_rank =>
    if local_pref.contains tok then
      let r := rankGet local_pref tok best_rank
      if r < best_rank then
        if r = 0 then (some tok, r)
        else chooseClientLoop local_pref rest (some tok) r
      else chooseClientLoop local_pref rest best_tok best_rank
    else chooseClientLoop local_pref rest best_tok best_rank

/-- `_choose_from_remote_list`: the server stops at the first remote
token in its local list; the client scans the remote list keeping the
acceptable token of lowest local rank. -/
def choose_from_remote_list (am_server : Bool)
    (local_pref remote_list : List String) : Except Err String :=
  if am_server then
    match remote_list.find? (fun tok => local_pref.contains tok) with
    | some tok => .ok tok
    | none => .error (.protocol "Failed to negotiate choice (no overlap)")
  else
    match chooseClientLoop local_pref remote_list none (local_pref.length + 1) with
    | (some tok, _) => .ok tok
    | (none, _) => .error (.protocol "Failed to negotiate choice (no overlap)")

theorem contains_iff_mem (l : List String) (a : String) :
    l.contains a = true ↔ a ∈ l := List.elem_iff

theorem rankGetAux_of_not_mem (l : List String) (tok : String) :
    ∀ (i : Nat) (acc : Option Nat), tok ∉ l → rankGetAux l tok i acc = acc := by
  induction l with
  | nil => intro i acc _; rfl
  | cons x rest ih =>
    intro i acc h
    simp only [List.mem_cons, not_or] at h
    simp only [rankGetAux]
    rw [if_neg (by simp only [beq_iff_eq]; exact fun e => h.1 e.symm)]
    exact ih (i + 1) acc h.2

theorem rankGetAux_of_mem (l : List String) (tok : String) :
    ∀ (i : Nat) (acc : Option Nat), tok ∈ l → l.Nodup →
      rankGetAux l tok i acc = some (i + List.indexOf tok l) := by
  induction l with
  | nil => intro i acc h _; cases h
  | cons x rest ih =>
    intro i acc h hnd
    rw [List.nodup_cons] at hnd
    simp only [rankGetAux]
    by_cases he : x = tok
    · subst he
      rw [if_pos (by simp)]
      rw [rankGetAux_of_not_mem rest x (i + 1) (some i) hnd.1]
      rw [List.indexOf_cons_self]
      simp
    · rw [if_neg (by simp only [beq_iff_eq]; exact he)]
      have hm : tok ∈ rest := by
        rcases List.mem_cons.mp h with h1 | h2
        · exact absurd h1.symm he
        · exact h2
      rw [ih (i + 1) acc hm hnd.2, List.indexOf_cons_ne _ he]
      congr 1
      omega

theorem rankGet_eq_indexOf (l : List String) (tok : String) (d : Nat)
    (h : tok ∈ l) (hnd : l.Nodup) : rankGet l tok d = List.indexOf tok l := by
  unfold rankGet
  rw [rankGetAux_of_mem l tok 0 none h hnd]
  simp

/-- Characterisation of the client loop: started from a consistent state
it returns the acceptable token of minimal local rank. -/
theorem chooseClientLoop_spec (Lc : List String) (hnd : Lc.Nodup) :
    ∀ (remote : List String) (best : Option String) (br : Nat),
      (match best with
       | none => br = Lc.length + 1
       | some b => b ∈ Lc ∧ br = List.indexOf b Lc) →
      (match chooseClientLoop Lc remote best br with
       | (none, _) => best = none ∧ ∀ t ∈ remote, t ∉ Lc
       | (some t, r) => t ∈ Lc ∧ r = List.indexOf t Lc ∧ r ≤ br ∧
           (t ∈ remote ∨ best = some t) ∧
           ∀ s ∈ remote, s ∈ Lc → r ≤ List.indexOf s Lc) := by
  intro remote
  induction remote with
  | nil =>
    intro best br hinv
    match best with
    | none => exact ⟨rfl, by simp⟩
    | some b =>
      exact ⟨hinv.1, hinv.2, le_refl _, Or.inr rfl, by simp⟩
  | cons tok rest ih =>
    intro best br hinv
    show (match (if Lc.contains tok then
        let r := rankGet Lc tok br
        if r < br then
          if r = 0 then (some tok, r)
          else chooseClientLoop Lc rest (some tok) r
        else chooseClientLoop Lc rest best br
      else chooseClientLoop Lc rest best br) with
       | (none, _) => best = none ∧ ∀ t ∈ tok :: rest, t ∉ Lc
       | (some t, r) => t ∈ Lc ∧ r = List.indexOf t Lc ∧ r ≤ br ∧
           (t ∈ tok :: rest ∨ best = some t) ∧
           ∀ s ∈ tok :: rest, s ∈ Lc → r ≤ List.indexOf s Lc)
    by_cases hc : Lc.contains tok
    · rw [if_pos hc]
      have htok : tok ∈ Lc := (contains_iff_mem Lc tok).mp hc
      have hrk : rankGet Lc tok br = List.indexOf tok Lc :=
        rankGet_eq_indexOf Lc tok br htok hnd
      by_cases hlt : rankGet Lc tok br < br
      · rw [if_pos hlt]
        by_cases h0 : rankGet Lc tok br = 0
        · rw [if_pos h0]
          refine ⟨htok, hrk, le_of_lt hlt, Or.inl (List.mem_cons_self _ _),
            fun s _ _ => by rw [h0]; exact Nat.zero_le _⟩
        · rw [if_neg h0]
          have hres := ih (some tok) (rankGet Lc tok br) ⟨htok, hrk⟩
          match hmm : chooseClientLoop Lc rest (some tok) (rankGet Lc tok br) with
          | (none, r) =>
            rw [hmm] at hres
            exact absurd hres.1 (by simp)
          | (some t, r) =>
            rw [hmm] at hres
            obtain ⟨ht1, ht2, ht3, ht4, ht5⟩ := hres
            refine ⟨ht1, ht2, le_trans ht3 (le_of_lt hlt), ?_, ?_⟩
            · rcases ht4 with h | h
              · exact Or.inl (List.mem_cons_of_mem _ h)
              · rw [Option.some.inj h] at *
                exact Or.inl (List.mem_cons_self _ _)
            · intro s hs hsl
              rcases List.mem_cons.mp hs with h | h
              · rw [h, ← hrk]
                exact ht3
              · exact ht5 s h hsl
      · rw [if_neg hlt]
        have hres := ih best br hinv
        match hmm : chooseClientLoop Lc rest best br with
        | (none, r) =>
          rw [hmm] at hres
          obtain ⟨hb, hall⟩ := hres
          rw [hb] at hinv
          exfalso
          have : List.indexOf tok Lc < Lc.length := List.indexOf_lt_length.mpr htok
          rw [← hrk] at this
          omega
        | (some t, r) =>
          rw [hmm] at hres
          obtain ⟨ht1, ht2, ht3, ht4, ht5⟩ := hres
          refine ⟨ht1, ht2, ht3, ?_, ?_⟩
          · rcases ht4 with h | h
            · exact Or.inl (List.mem_cons_of_mem _ h)
            · exact Or.inr h
          · intro s hs hsl
            rcases List.mem_cons.mp hs with h | h
            · rw [h, ← hrk]
              omega
            · exact ht5 s h hsl
    · rw [if_neg hc]
      have htok : tok ∉ Lc := fun hmem => hc ((contains_iff_mem Lc tok).mpr hmem)
      have hres := ih best br hinv
      match hmm : chooseClientLoop Lc rest best br with
      | (none, r) =>
        rw [hmm] at hres
        refine ⟨hres.1, fun t ht => ?_⟩
        rcases List.mem_cons.mp ht with h | h
        · rw [h]; exact htok
        · exact hres.2 t h
      | (some t, r) =>
        rw [hmm] at hres
        obtain ⟨ht1, ht2, ht3, ht4, ht5⟩ := hres
        refine ⟨ht1, ht2, ht3, ?_, ?_⟩
        · rcases ht4 with h | h
          · exact Or.inl (List.mem_cons_of_mem _ h)
          · exact Or.inr h
        · intro s hs hsl
          rcases List.mem_cons.mp hs with h | h
          · rw [h] at hsl
            exact absurd hsl htok
          · exact ht5 s h hsl

/-- Characterisation of the server scan: `find?` returns the first
remote token acceptable to the local list, which therefore has minimal
index among acceptable tokens. -/
theorem server_find_spec (Ls : List String) :
    ∀ (Lc : List String) (c : String),
      Lc.find? (fun tok => Ls.contains tok) = some c →
      c ∈ Lc ∧ c ∈ Ls ∧ ∀ t ∈ Lc, t ∈ Ls → List.indexOf c Lc ≤ List.indexOf t Lc := by
  intro Lc
  induction Lc with
  | nil => intro c h; cases h
  | cons x rest ih =>
    intro c h
    rw [List.find?_cons] at h
    cases hc : Ls.contains x with
    | true =>
      rw [hc] at h
      have hcx : c = x := (Option.some.inj h).symm
      subst hcx
      exact ⟨List.mem_cons_self _ _, (contains_iff_mem Ls c).mp hc,
        fun t _ _ => by rw [List.indexOf_cons_self]; exact Nat.zero_le _⟩
    | false =>
      rw [hc] at h
      have hxs : x ∉ Ls := fun hmem => by
        rw [(contains_iff_mem Ls x).mpr hmem] at hc
        cases hc
      obtain ⟨h1, h2, h3⟩ := ih c h
      have hxc : x ≠ c := by
        intro he
        rw [he] at hxs
        exact hxs h2
      refine ⟨List.mem_cons_of_mem _ h1, h2, fun t ht hts => ?_⟩
      rcases List.mem_cons.mp ht with he | hr
      · rw [he] at hts
        exact absurd hts hxs
      · have hxt : x ≠ t := by
          intro he
          rw [he] at hxs
          exact hxs hts
        rw [List.indexOf_cons_ne _ hxc, List.indexOf_cons_ne _ hxt]
        exact Nat.succ_le_succ (h3 t hr hts)

/-- C8 counterexample: with a duplicate in the client's own preference
list the two rules disagree.  Server list `[b, a]`, client list
`[a, b, a]`: the server (scanning the client's list) stops at `a`; the
client (scanning the server's list) ranks `a` by its LAST occurrence
(index 2, the Python dict comprehension keeps the last binding), so it
picks `b`.  The intersection is non-empty yet the choices differ. -/
theorem C8_counterexample :
    choose_from_remote_list true ["b", "a"] ["a", "b", "a"] = .ok "a" ∧
    choose_from_remote_list false ["a", "b", "a"] ["b", "a"] = .ok "b" ∧
    "a" ∈ (["b", "a"] : List String) ∧ "a" ∈ (["a", "b", "a"] : List String) ∧
    ("a" : String) ≠ "b" := by
  exact ⟨by decide, by decide, by decide, by decide, by decide⟩

/-- C8 (amended): provided the client's own preference list has no
duplicate entries (so that the rank dict built by the comprehension is
unambiguous), the server rule (first token of the peer's list appearing
in the local list) and the client rule (acceptable token earliest in the
local list) agree whenever the two lists intersect, and both sides fail
with `ProtocolError` when they do not. -/
theorem C8_negotiation_convergence (Ls Lc : List String) (hnd : Lc.Nodup) :
    ((∃ t, t ∈ Ls ∧ t ∈ Lc) →
      ∃ t, choose_from_remote_list true Ls Lc = .ok t ∧
        choose_from_remote_list false Lc Ls = .ok t) ∧
    ((∀ t, t ∈ Ls → t ∉ Lc) →
      choose_from_remote_list true Ls Lc =
        .error (.protocol "Failed to negotiate choice (no overlap)") ∧
      choose_from_remote_list false Lc Ls =
        .error (.protocol "Failed to negotiate choice (no overlap)")) := by
  constructor
  · rintro ⟨t₀, ht₀s, ht₀c⟩
    have hclient := chooseClientLoop_spec Lc hnd Ls none (Lc.length + 1) rfl
    match hsv : Lc.find? (fun tok => Ls.contains tok) with
    | none =>
      exfalso
      rw [List.find?_eq_none] at hsv
      exact hsv t₀ ht₀c ((contains_iff_mem Ls t₀).mpr ht₀s)
    | some c =>
      obtain ⟨hc1, hc2, hc3⟩ := server_find_spec Ls Lc c hsv
      match hcl : chooseClientLoop Lc Ls none (Lc.length + 1) with
      | (none, r) =>
        exfalso
        rw [hcl] at hclient
        exact hclient.2 t₀ ht₀s ht₀c
      | (some b, r) =>
        rw [hcl] at hclient
        obtain ⟨hb1, hb2, hb3, hb4, hb5⟩ := hclient
        have hbs : b ∈ Ls := by
          rcases hb4 with h | h
          · exact h
          · cases h
        have h1 : r ≤ List.indexOf c Lc := hb5 c hc2 hc1
        have h2 : List.indexOf c Lc ≤ List.indexOf b Lc := hc3 b hb1 hbs
        have heq : List.indexOf b Lc = List.indexOf c Lc := by omega
        have hbc : b = c := (List.indexOf_inj hb1 hc1).mp heq
        refine ⟨c, ?_, ?_⟩
        · show (match Lc.find? (fun tok => Ls.contains tok) with
            | some tok => (.ok tok : Except Err String)
            | none => .error (.protocol "Failed to negotiate choice (no overlap)")) = .ok c
          rw [hsv]
        · show (match chooseClientLoop Lc Ls none (Lc.length + 1) with
            | (some tok, _) => (.ok tok : Except Err String)
            | (none, _) => .error (.protocol "Failed to negotiate choice (no overlap)")) = .ok c
          rw [hcl, hbc]
  · intro hdisj
    have hnone : Lc.find? (fun tok => Ls.contains tok) = none :=
      List.find?_eq_none.mpr
        (fun t ht hc => hdisj t ((contains_iff_mem Ls t).mp hc) ht)
    constructor
    · show (match Lc.find? (fun tok => Ls.contains tok) with
        | some tok => (.ok tok : Except Err String)
        | none => .error (.protocol "Failed to negotiate choice (no overlap)")) = _
      rw [hnone]
    · have hclient := chooseClientLoop_spec Lc hnd Ls none (Lc.length + 1) rfl
      show (match chooseClientLoop Lc Ls none (Lc.length + 1) with
        | (some tok, _) => (.ok tok : Except Err String)
        | (none, _) => .error (.protocol "Failed to negotiate choice (no overlap)")) = _
      match hcl : chooseClientLoop Lc Ls none (Lc.length + 1) with
      | (none, r) => rfl
      | (some b, r) =>
        exfalso
        rw [hcl] at hclient
        obtain ⟨hb1, _, _, hb4, _⟩ := hclient
        rcases hb4 with h | h
        · exact hdisj b h hb1
        · cases h

/-- C8 witness: the amended convergence theorem evaluated on the
duplicate-free lists `Ls = [md5, sha1]`, `Lc = [sha1, none]`: both sides
return `sha1`. -/
theorem C8_witness :
    choose_from_remote_list true ["md5", "sha1"] ["sha1", "none"] = .ok "sha1" ∧
    choose_from_remote_list false ["sha1", "none"] ["md5", "sha1"] = .ok "sha1" := by
  obtain ⟨h1, -⟩ := C8_negotiation_convergence ["md5", "sha1"] ["sha1", "none"]
    (by decide)
  obtain ⟨t, hs, hc⟩ := h1 ⟨"sha1", by decide, by decide⟩
  have hval : choose_from_remote_list true ["md5", "sha1"] ["sha1", "none"] =
      .ok "sha1" := by decide
  have ht : t = "sha1" := Except.ok.inj (hs.symm.trans hval)
  rw [ht] at hs hc
  exact ⟨hs, hc⟩

/-! ### Simple-mode token stream and receive_data -/

/-- The literal-chunking loop of `_send_token_simple`: while `sent < n`,
write `chunk_len = min(CHUNK_SIZE, n - sent)` as an int32 (always in
`[1, 32768]`, so `write_int` cannot raise) followed by
`data[offset+sent : offset+sent+chunk_len]`.  `fuel ≥ n` iterations
suffice since `sent` grows by at least 1. -/
def chunkLoop (data : List Nat) (offset n : Nat) : Nat → Nat → List Nat
  | _, 0 => []
  | sent, fuel + 1 =>
    if sent < n then
      let chunk_len := min CHUNK_SIZE (n - sent)
      encInt32 (chunk_len : Int) ++
        sliceN data (offset + sent) (offset + sent + chunk_len) ++
        chunkLoop data offset n (sent + chunk_len) fuel
    else []

/-- `ProtocolIO._send_token_simple`: optional chunked literal bytes,
then (unless `token = -2`) the int32 marker `-(token + 1)`. -/
def send_token_simple (token : Int) (data : Option (List Nat))
    (offset n : Nat) : Except Err (List Nat) :=
  let lit : List Nat :=
    match data with
    | some d => if 0 < n then chunkLoop d offset n 0 n else []
    | none => []
  if token ≠ -2 then
    (write_int (-(token + 1))).map (fun t => lit ++ t)
  else .ok lit

/-- `ProtocolIO._recv_token_simple` on a byte list: read an int32 `i`;
`0` ends the transfer, `i > 0` is followed by `i` literal bytes,
`i < 0` is a match marker. -/
def recv_token_simple (stream : List Nat) :
    Except Err (Int × Option (List Nat) × List Nat) :=
  match read_int stream with
  | .error e => .error e
  | .ok (i, rest) =>
    if i = 0 then .ok (0, none, rest)
    else if 0 < i then
      if rest.length < i.toNat then .error .eof
      else .ok (i, some (rest.take i.toNat), rest.drop i.toNat)
    else .ok (i, none, rest)

/-- The body of `receive_data`'s `while True` loop.  Every iteration
consumes at least 4 bytes of the stream, so `fuel = stream.length + 1`
never runs out before the terminating token.  (The `stats` counters are
not modelled.) -/
def receive_data_loop (basis : List Nat) (blength remainder count : Int)
    (stream acc : List Nat) : Nat → Except Err (List Nat × List Nat)
  | 0 => .error (.protocol "out of fuel")
  | fuel + 1 =>
    match recv_token_simple stream with
    | .error e => .error e
    | .ok (token, data, rest) =>
      if token = 0 then .ok (acc, rest)
      else if 0 < token then
        match data with
        | some d => receive_data_loop basis blength remainder count rest (acc ++ d) fuel
        | none => receive_data_loop basis blength remainder count rest acc fuel
      else
        let block_num : Int := -(token + 1)
        if block_num < 0 ∨ count ≤ block_num then
          .error (.protocol "Invalid block number")
        else
          let offset := block_num * blength
          let block_len : Int :=
            if block_num = count - 1 ∧ 0 < remainder then remainder else blength
          if offset + block_len ≤ (basis.length : Int) then
            receive_data_loop basis blength remainder count rest
              (acc ++ pySlice basis offset (offset + block_len)) fuel
          else .error (.protocol "Block extends past basis file")

/-- `receive_data` (simple token mode): loop until the `0` token,
returning the reconstructed bytes and the unconsumed stream. -/
def receive_data (stream basis : List Nat) (sh : SumHead) :
    Except Err (List Nat × List Nat) :=
  receive_data_loop basis sh.blength sh.remainder sh.count stream []
    (stream.length + 1)

/-- One decoded token-stream event of the simple protocol. -/
inductive TokEvent where
  | lit : List Nat → TokEvent
  | blk : Nat → TokEvent
deriving DecidableEq, Repr

/-- The wire form of one event: a literal is its length (int32) plus its
bytes; a match on block `b` is the int32 `-(b + 1)`. -/
def encTok : TokEvent → List Nat
  | .lit d => encInt32 (d.length : Int) ++ d
  | .blk b => encInt32 (-((b : Int) + 1))

/-- A whole simple-mode stream: the events, then the terminating `0`. -/
def encStream (evs : List TokEvent) : List Nat :=
  (evs.map encTok).flatten ++ encInt32 0

/-- The length `receive_data` copies for block `b`. -/
def recvBlockLen (blength remainder count : Int) (b : Nat) : Int :=
  if (b : Int) = count - 1 ∧ 0 < remainder then remainder else blength

/-- Validity of one event for `receive_data`: a literal is nonempty and
below 2^31 (so its length survives the int32); a block index fits the
int32 marker, is below `count` and its range lies inside the basis. -/
def evOk (basis : List Nat) (blength remainder count : Int) : TokEvent → Prop
  | .lit d => d ≠ [] ∧ (d.length : Int) < 2 ^ 31
  | .blk b => (b : Int) < 2 ^ 31 ∧ (b : Int) < count ∧
      (b : Int) * blength + recvBlockLen blength remainder count b ≤
        (basis.length : Int)

instance evOk_decidable (basis : List Nat) (blength remainder count : Int)
    (e : TokEvent) : Decidable (evOk basis blength remainder count e) := by
  cases e with
  | lit d => exact instDecidableAnd
  | blk b => exact instDecidableAnd

/-- The bytes one valid event contributes. -/
def evBytes (basis : List Nat) (blength remainder count : Int) :
    TokEvent → List Nat
  | .lit d => d
  | .blk b =>
    pySlice basis ((b : Int) * blength)
      ((b : Int) * blength + recvBlockLen blength remainder count b)

theorem encInt32_length (v : Int) : (encInt32 v).length = 4 :=
  leBytes_length 4 _

theorem recv_tok_lit (d s' : List Nat) (h1 : d ≠ [])
    (h2 : (d.length : Int) < 2 ^ 31) :
    recv_token_simple (encTok (.lit d) ++ s') =
      .ok ((d.length : Int), some d, s') := by
  have hpos : 0 < d.length := List.length_pos.mpr h1
  have htn : ((d.length : Int)).toNat = d.length := Int.toNat_natCast _
  show recv_token_simple ((encInt32 (d.length : Int) ++ d) ++ s') = _
  rw [List.append_assoc]
  unfold recv_token_simple
  rw [read_int_enc _ _ (by omega) h2]
  simp only
  rw [if_neg (by omega), if_pos (by omega),
    if_neg (by rw [htn, List.length_append]; omega)]
  rw [htn, List.take_left, List.drop_left]

theorem recv_tok_blk (b : Nat) (s' : List Nat) (hb : (b : Int) < 2 ^ 31) :
    recv_token_simple (encTok (.blk b) ++ s') =
      .ok (-((b : Int) + 1), none, s') := by
  show recv_token_simple (encInt32 (-((b : Int) + 1)) ++ s') = _
  unfold recv_token_simple
  rw [read_int_enc _ _ (by omega) (by omega)]
  simp only
  rw [if_neg (by omega), if_neg (by omega)]

theorem recv_tok_zero (s' : List Nat) :
    recv_token_simple (encInt32 0 ++ s') = .ok (0, none, s') := by
  unfold recv_token_simple
  rw [read_int_enc _ _ (by norm_num) (by norm_num)]
  norm_num

theorem rdl_succ (basis : List Nat) (bl rem cnt : Int) (stream acc : List Nat)
    (fuel : Nat) :
    receive_data_loop basis bl rem cnt stream acc (fuel + 1) =
      (match recv_token_simple stream with
      | .error e => .error e
      | .ok (token, data, rest) =>
        if token = 0 then .ok (acc, rest)
        else if 0 < token then
          match data with
          | some d => receive_data_loop basis bl rem cnt rest (acc ++ d) fuel
          | none => receive_data_loop basis bl rem cnt rest acc fuel
        else
          let block_num : Int := -(token + 1)
          if block_num < 0 ∨ cnt ≤ block_num then
            .error (.protocol "Invalid block number")
          else
            let offset := block_num * bl
            let block_len : Int :=
              if block_num = cnt - 1 ∧ 0 < rem then rem else bl
            if offset + block_len ≤ (basis.length : Int) then
              receive_data_loop basis bl rem cnt rest
                (acc ++ pySlice basis offset (offset + block_len)) fuel
            else .error (.protocol "Block extends past basis file")) := rfl

theorem receive_loop_events (basis : List Nat) (bl rem cnt : Int)
    (evs : List TokEvent) :
    ∀ (tail acc : List Nat) (fuel : Nat), evs.length < fuel →
      (∀ e ∈ evs, evOk basis bl rem cnt e) →
      receive_data_loop basis bl rem cnt
          ((evs.map encTok).flatten ++ (encInt32 0 ++ tail)) acc fuel =
        .ok (acc ++ (evs.map (evBytes basis bl rem cnt)).flatten, tail) := by
  induction evs with
  | nil =>
    intro tail acc fuel hf _
    cases fuel with
    | zero => exact absurd hf (Nat.not_lt_zero _)
    | succ f =>
      simp only [List.map_nil, List.flatten_nil, List.nil_append, List.append_nil]
      rw [rdl_succ, recv_tok_zero]
      norm_num
  | cons e evs' ih =>
    intro tail acc fuel hf hok
    cases fuel with
    | zero => exact absurd hf (Nat.not_lt_zero _)
    | succ f =>
      have hok_e := hok e (List.mem_cons_self _ _)
      have hok' : ∀ x ∈ evs', evOk basis bl rem cnt x :=
        fun x hx => hok x (List.mem_cons_of_mem _ hx)
      have hf' : evs'.length < f := by
        rw [List.length_cons] at hf
        omega
      simp only [List.map_cons, List.flatten_cons, List.append_assoc]
      cases e with
      | lit d =>
        obtain ⟨h1, h2⟩ := hok_e
        have hpos : 0 < d.length := List.length_pos.mpr h1
        rw [rdl_succ, recv_tok_lit d _ h1 h2]
        simp only
        rw [if_neg (by omega), if_pos (by omega)]
        exact (ih _ (acc ++ d) f hf' hok').trans
          (by simp [evBytes, List.append_assoc])
      | blk b =>
        obtain ⟨hb31, hbc, hbr⟩ := hok_e
        unfold recvBlockLen at hbr
        rw [rdl_succ, recv_tok_blk b _ hb31]
        simp only
        rw [if_neg (by omega), if_neg (by omega)]
        have hbn : -(-((b : Int) + 1) + 1) = (b : Int) := by ring
        rw [hbn]
        rw [if_neg (by omega), if_pos hbr]
        exact (ih _ _ f hf' hok').trans
          (by simp [evBytes, recvBlockLen, List.append_assoc])

theorem receive_loop_blk_err (basis : List Nat) (bl rem cnt : Int)
    (pre : List TokEvent) :
    ∀ (srest acc : List Nat) (fuel : Nat) (b : Nat), pre.length < fuel →
      (∀ e ∈ pre, evOk basis bl rem cnt e) → (b : Int) < 2 ^ 31 →
      ¬ evOk basis bl rem cnt (.blk b) →
      receive_data_loop basis bl rem cnt
          ((pre.map encTok).flatten ++ (encTok (.blk b) ++ srest)) acc fuel =
        .error (.protocol (if cnt ≤ (b : Int) then "Invalid block number"
          else "Block extends past basis file")) := by
  induction pre with
  | nil =>
    intro srest acc fuel b hf _ hb31 hbad
    cases fuel with
    | zero => exact absurd hf (Nat.not_lt_zero _)
    | succ f =>
      simp only [List.map_nil, List.flatten_nil, List.nil_append]
      rw [rdl_succ, recv_tok_blk b _ hb31]
      simp only
      rw [if_neg (by omega), if_neg (by omega)]
      have hbn : -(-((b : Int) + 1) + 1) = (b : Int) := by ring
      rw [hbn]
      simp only [evOk, not_and, not_le] at hbad
      by_cases hc : cnt ≤ (b : Int)
      · rw [if_pos (Or.inr hc), if_pos hc]
      · rw [if_neg (by omega)]
        have hrange := hbad hb31 (by omega)
        unfold recvBlockLen at hrange
        rw [if_neg (by omega), if_neg hc]
  | cons e pre' ih =>
    intro srest acc fuel b hf hok hb31 hbad
    cases fuel with
    | zero => exact absurd hf (Nat.not_lt_zero _)
    | succ f =>
      have hok_e := hok e (List.mem_cons_self _ _)
      have hok' : ∀ x ∈ pre', evOk basis bl rem cnt x :=
        fun x hx => hok x (List.mem_cons_of_mem _ hx)
      have hf' : pre'.length < f := by
        rw [List.length_cons] at hf
        omega
      simp only [List.map_cons, List.flatten_cons, List.append_assoc]
      cases e with
      | lit d =>
        obtain ⟨h1, h2⟩ := hok_e
        have hpos : 0 < d.length := List.length_pos.mpr h1
        rw [rdl_succ, recv_tok_lit d _ h1 h2]
        simp only
        rw [if_neg (by omega), if_pos (by omega)]
        exact ih _ (acc ++ d) f b hf' hok' hb31 hbad
      | blk c =>
        obtain ⟨hc31, hcc, hcr⟩ := hok_e
        unfold recvBlockLen at hcr
        rw [rdl_succ, recv_tok_blk c _ hc31]
        simp only
        rw [if_neg (by omega), if_neg (by omega)]
        have hbn : -(-((c : Int) + 1) + 1) = (c : Int) := by ring
        rw [hbn]
        rw [if_neg (by omega), if_pos hcr]
        exact ih _ _ f b hf' hok' hb31 hbad

theorem encTok_length_ge (e : TokEvent) : 4 ≤ (encTok e).length := by
  cases e with
  | lit d =>
    show 4 ≤ (encInt32 _ ++ d).length
    rw [List.length_append, encInt32_length]
    omega
  | blk b =>
    show 4 ≤ (encInt32 _).length
    rw [encInt32_length]

theorem encStream_length (evs : List TokEvent) :
    4 * evs.length + 4 ≤ (encStream evs).length := by
  induction evs with
  | nil => simp [encStream, encInt32_length]
  | cons e t ih =>
    have h4 := encTok_length_ge e
    unfold encStream at ih ⊢
    rw [List.map_cons, List.flatten_cons, List.append_assoc, List.length_append,
      List.length_cons]
    omega

/-- C7: on a simple-mode token stream, `receive_data` returns the
concatenation of the literal bytes and the referenced basis slices
(`basis[block_num*block_length : +len]` with `len = remainder` for the
final block when `remainder > 0`, else `block_length`), the `0` token
terminating the loop with the accumulated result and the unread stream;
and it fails with `ProtocolError` exactly at the first negative token
whose block number is `≥ count` (`Invalid block number`) or whose range
overruns the basis (`Block extends past basis file`). -/
theorem C7_receive_data_validation (basis tail : List Nat) (sh : SumHead)
    (evs : List TokEvent) :
    ((∀ e ∈ evs, evOk basis sh.blength sh.remainder sh.count e) →
      receive_data (encStream evs ++ tail) basis sh =
        .ok ((evs.map (evBytes basis sh.blength sh.remainder sh.count)).flatten,
          tail)) ∧
    (∀ (pre : List TokEvent) (b : Nat) (post : List TokEvent),
      evs = pre ++ .blk b :: post →
      (∀ e ∈ pre, evOk basis sh.blength sh.remainder sh.count e) →
      (b : Int) < 2 ^ 31 →
      ¬ evOk basis sh.blength sh.remainder sh.count (.blk b) →
      receive_data (encStream evs ++ tail) basis sh =
        .error (.protocol (if sh.count ≤ (b : Int) then "Invalid block number"
          else "Block extends past basis file"))) := by
  constructor
  · intro hvalid
    have hlen := encStream_length evs
    unfold receive_data
    have hshape : encStream evs ++ tail =
        (evs.map encTok).flatten ++ (encInt32 0 ++ tail) := by
      simp [encStream, List.append_assoc]
    rw [hshape]
    rw [receive_loop_events basis _ _ _ evs tail [] _
      (by rw [← hshape, List.length_append]; omega) hvalid]
    simp
  · intro pre b post hsplit hpre hb31 hbad
    have hlen := encStream_length evs
    unfold receive_data
    have hshape : encStream evs ++ tail =
        (pre.map encTok).flatten ++
          (encTok (.blk b) ++
            ((post.map encTok).flatten ++ (encInt32 0 ++ tail))) := by
      rw [hsplit]
      simp [encStream, List.append_assoc]
    rw [hshape]
    rw [receive_loop_blk_err basis _ _ _ pre _ [] _ b
      (by
        rw [← hshape, List.length_append]
        have : evs.length = pre.length + post.length + 1 := by
          rw [hsplit, List.length_append, List.length_cons]
          omega
        omega) hpre hb31 hbad]

set_option maxRecDepth 8000 in
/-- C7 witness: on the basis `[1, 2, 3, 4, 5]` with
`count = 2, block_length = 2, remainder = 1`, the stream
`[lit [9], blk 0, blk 1, 0]` reconstructs `[9, 1, 2, 3]` (the final
block copying only the 1-byte remainder) and leaves the tail unread,
while a stream naming block 5 fails with `Invalid block number`. -/
theorem C7_witness :
    receive_data (encStream [.lit [9], .blk 0, .blk 1] ++ [7]) [1, 2, 3, 4, 5]
        ⟨2, 2, 2, 1⟩ = .ok ([9, 1, 2, 3], [7]) ∧
    receive_data (encStream [.blk 5] ++ []) [1, 2, 3, 4, 5]
        ⟨2, 2, 2, 1⟩ = .error (.protocol "Invalid block number") := by
  constructor
  · have h := (C7_receive_data_validation [1, 2, 3, 4, 5] [7] ⟨2, 2, 2, 1⟩
      [.lit [9], .blk 0, .blk 1]).1 (by decide)
    rw [h]
    rfl
  · have h := (C7_receive_data_validation [1, 2, 3, 4, 5] [] ⟨2, 2, 2, 1⟩
      [.blk 5]).2 [] 5 [] rfl (by simp) (by decide) (by decide)
    rw [if_pos (by norm_num)] at h
    exact h

/-- C5 counterexample: with `min_bytes = 1`, the value `3 * 2 ^ 48` does not
round-trip — `write_varlong` emits the prefix byte `0xFE` (whose top bits
encode the count), but `read_varlong` maps `0xFE` to `extra = 6`, interprets
the prefix payload as bit 1 of the seventh little-endian byte and stops one
byte short, decoding `2 ^ 49` with a stray byte left over.  This refutes the
claim that the varlong pair are mutual inverses for every
`min_bytes ∈ [1, 8]`. -/
theorem C5_varlong_min_bytes_one_fails :
    (write_varlong (3 * 2 ^ 48) 1).bind (fun s => read_varlong s 1) ≠
      .ok ((3 * 2 ^ 48 : Int), ([] : List Nat)) := by
  intro h
  have hc : (write_varlong (3 * 2 ^ 48) 1).bind (fun s => read_varlong s 1) =
      .ok ((2 ^ 49 : Int), ([3] : List Nat)) := rfl
  rw [hc] at h
  exact absurd (Except.ok.inj h) (by decide)

/-- C5 (amended): `read_varint ∘ write_varint` is the identity on the full
signed 32-bit range, and for every `min_bytes ∈ [3, 8]` (instead of the
claimed `[1, 8]`) `read_varlong ∘ write_varlong` is the identity on the full
signed 64-bit range, with the remainder of the stream passed through
untouched. -/
theorem C5_varint_varlong_roundtrip (v w : Int) (minb : Nat)
    (rest rest2 : List Nat)
    (hv1 : -(2 ^ 31) ≤ v) (hv2 : v < 2 ^ 31)
    (hw1 : -(2 ^ 63) ≤ w) (hw2 : w < 2 ^ 63)
    (hm3 : 3 ≤ minb) (hm8 : minb ≤ 8) :
    read_varint (write_varint v ++ rest) = .ok (v, rest) ∧
      (write_varlong w minb).bind (fun s => read_varlong (s ++ rest2) minb) =
        .ok (w, rest2) :=
  ⟨read_write_varint v rest hv1 hv2,
   write_read_varlong w minb rest2 hw1 hw2 hm3 hm8⟩

/-- C5 witness: the amended round-trip theorem evaluated at
`v = -5`, `w = 3 * 2 ^ 48`, `min_bytes = 3`, with nonempty stream tails. -/
theorem C5_witness :
    read_varint (write_varint (-5) ++ [7]) = .ok ((-5 : Int), [7]) ∧
      (write_varlong (3 * 2 ^ 48) 3).bind
          (fun s => read_varlong (s ++ [9]) 3) =
        .ok ((3 * 2 ^ 48 : Int), [9]) :=
  C5_varint_varlong_roundtrip (-5) (3 * 2 ^ 48) 3 [7] [9] (by norm_num)
    (by norm_num) (by norm_num) (by norm_num) (by norm_num) (by norm_num)

end Rsync

namespace Rsync

theorem ceil_le_mul (n bs : Nat) (hbs : 0 < bs) :
    n ≤ (n + bs - 1) / bs * bs := by
  have h1 := Nat.div_add_mod (n + bs - 1) bs
  have h2 : (n + bs - 1) % bs < bs := Nat.mod_lt _ hbs
  rw [show (n + bs - 1) / bs * bs = bs * ((n + bs - 1) / bs) from
    Nat.mul_comm _ _]
  generalize hr : (n + bs - 1) % bs = r at h1 h2
  generalize bs * ((n + bs - 1) / bs) = A at h1 ⊢
  omega

theorem ceil_pos (n bs : Nat) (hbs : 0 < bs) (hn : 0 < n) :
    0 < (n + bs - 1) / bs := by
  have : 1 * bs ≤ n + bs - 1 := by omega
  exact Nat.le_div_iff_mul_le hbs |>.mpr (by omega)

theorem ceil_pred_mul_lt (n bs : Nat) (hbs : 0 < bs) (hn : 0 < n) :
    ((n + bs - 1) / bs - 1) * bs < n := by
  have h1 := Nat.div_add_mod (n + bs - 1) bs
  have h2 : (n + bs - 1) % bs < bs := Nat.mod_lt _ hbs
  rw [show ((n + bs - 1) / bs - 1) * bs = bs * ((n + bs - 1) / bs) - bs by
    rw [Nat.sub_mul, one_mul, Nat.mul_comm]]
  generalize hr : (n + bs - 1) % bs = r at h1 h2
  generalize bs * ((n + bs - 1) / bs) = A at h1 ⊢
  omega

theorem checksum_components_combine (a b : Nat) (ha : a < 65536)
    (hb : b < 65536) : checksum_components (combine_checksum a b) = (a, b) := by
  unfold checksum_components combine_checksum
  rw [Nat.mod_eq_of_lt ha, Nat.mod_eq_of_lt hb]
  rw [Prod.mk.injEq]
  refine ⟨?_, ?_⟩
  · rw [Nat.add_mul_mod_self_right, Nat.mod_eq_of_lt ha]
  · rw [Nat.add_mul_div_right _ _ (by norm_num : (0:Nat) < 65536),
      Nat.div_eq_of_lt ha, Nat.zero_add, Nat.mod_eq_of_lt hb]

theorem combine_components_rc (w : List Nat) :
    combine_checksum (checksum_components (rolling_checksum w)).1
      (checksum_components (rolling_checksum w)).2 = rolling_checksum w := by
  have h1 := rollingComponents_fst_lt w
  have h2 := rollingComponents_snd_lt w
  unfold rolling_checksum
  rw [checksum_components_combine _ _ h1 h2]


end Rsync

namespace Rsync

theorem sliceN_add_min (X : List Nat) (a bs : Nat) :
    sliceN X a (a + min bs (X.length - a)) = sliceN X a (a + bs) := by
  unfold sliceN
  rw [Nat.add_sub_cancel_left, Nat.add_sub_cancel_left]
  rcases Nat.le_total bs (X.length - a) with h | h
  · rw [Nat.min_eq_left h]
  · rw [Nat.min_eq_right h]
    rw [List.take_of_length_le (by rw [List.length_drop]),
      List.take_of_length_le (by rw [List.length_drop]; exact h)]

theorem generate_signature_blocks (bs : Nat) (f : List Nat → List Nat)
    (xl P cl : Nat) (X : List Nat) :
    (generate_signature bs f xl P cl X).blocks =
      (List.range ((X.length + bs - 1) / bs)).map (fun i =>
        ⟨rolling_checksum (sliceN X (i * bs) (i * bs + bs)),
         (f (sliceN X (i * bs) (i * bs + bs))).take
           (sum_sizes_sqroot X.length P bs cl xl).s2length,
         i * bs, min bs (X.length - i * bs)⟩) := by
  unfold generate_signature block_checksums
  apply List.ext_getElem
  · simp
  · intro i h1 h2
    simp [List.getElem_enum]

theorem blockAt_map_range (g : Nat → BlockChecksum) (nb i : Nat)
    (h : i < nb) : blockAt ((List.range nb).map g) i = g i := by
  unfold blockAt
  rw [List.getD_eq_getElem _ _ (by simpa using h)]
  simp

theorem mem_lookup_indices (blocks : List BlockChecksum) (ts weak k i : Nat) :
    i ∈ lookup_indices blocks ts weak k ↔
      (i < blocks.length ∧ (blockAt blocks i).weak_checksum = weak ∧
        (blockAt blocks i).length = k) := by
  unfold lookup_indices
  simp only [List.mem_map, List.mem_filter]
  constructor
  · rintro ⟨⟨j, b⟩, ⟨hmem, hcond⟩, hj⟩
    simp only at hj
    subst hj
    rw [List.mk_mem_enum_iff_getElem?] at hmem
    have hlen : j < blocks.length := by
      by_contra hge
      rw [List.getElem?_eq_none (by omega)] at hmem
      cases hmem
    have hat : blockAt blocks j = b := by
      unfold blockAt
      rw [List.getD_eq_getElem _ _ hlen]
      rw [List.getElem?_eq_getElem hlen] at hmem
      exact Option.some.inj hmem
    simp only [Bool.and_eq_true, beq_iff_eq] at hcond
    exact ⟨hlen, by rw [hat]; exact hcond.1.2, by rw [hat]; exact hcond.2⟩
  · rintro ⟨hlen, hw, hk⟩
    refine ⟨(i, blockAt blocks i), ⟨?_, ?_⟩, rfl⟩
    · rw [List.mk_mem_enum_iff_getElem?]
      unfold blockAt
      rw [List.getD_eq_getElem _ _ hlen, List.getElem?_eq_getElem hlen]
    · simp only [Bool.and_eq_true, beq_iff_eq]
      exact ⟨⟨by rw [hw], hw⟩, hk⟩

end Rsync

namespace Rsync

/-- Block `i` of the signature of `X` itself. -/
def idBlock (X : List Nat) (bs s2len : Nat) (f : List Nat → List Nat)
    (i : Nat) : BlockChecksum :=
  ⟨rolling_checksum (sliceN X (i * bs) (i * bs + bs)),
   (f (sliceN X (i * bs) (i * bs + bs))).take s2len, i * bs,
   min bs (X.length - i * bs)⟩

/-- The matcher context of the identity run `generate_delta(sig(X), X)`. -/
def idCtx (X : List Nat) (bs s2len s2l' ts : Nat) (f : List Nat → List Nat)
    (nb : Nat) : MatcherCtx :=
  ⟨X, (List.range nb).map (idBlock X bs s2len f), bs, s2l', ts, f, false,
   (nb - 1) * bs + 1, X.length⟩

/-- The loop state at the start of block `i` during the identity run. -/
def idState (X : List Nat) (bs i : Nat)
    (instrs : List (String × DeltaInstr)) (ao ai : Nat) (so : List Nat) :
    MatchState :=
  ⟨i * bs, min bs (X.length - i * bs),
   (checksum_components (rolling_checksum (sliceN X (i * bs) (i * bs + bs)))).1,
   (checksum_components (rolling_checksum (sliceN X (i * bs) (i * bs + bs)))).2,
   i * bs, i, i * bs, instrs, ao, ai, so⟩

def idMatchInstr (X : List Nat) (bs i : Nat) : String × DeltaInstr :=
  ("match", DeltaInstr.dmatch
    ⟨(i : Int), ((i * bs : Nat) : Int), ((min bs (X.length - i * bs) : Nat) : Int)⟩)

theorem identity_matched (X : List Nat) (bs s2len s2l' ts : Nat)
    (f : List Nat → List Nat) (nb : Nat)
    (hbs : 0 < bs) (hs2l : s2l' ≤ s2len)
    (i : Nat) (hi : i < nb) (hin : i * bs < X.length)
    (instrs : List (String × DeltaInstr)) (ao ai : Nat) (so : List Nat) :
    bodyStep (idCtx X bs s2len s2l' ts f nb) (idState X bs i instrs ao ai so) =
      emitMatch (idCtx X bs s2len s2l' ts f nb)
        (idState X bs i instrs ao ai so) i := by
  have hwin : sliceN X (i * bs) (i * bs + min bs (X.length - i * bs)) =
      sliceN X (i * bs) (i * bs + bs) := sliceN_add_min X (i * bs) bs
  have hbAt : blockAt ((List.range nb).map (idBlock X bs s2len f)) i =
      idBlock X bs s2len f i := blockAt_map_range _ _ _ hi
  have hmemi : i ∈ lookup_indices ((List.range nb).map (idBlock X bs s2len f))
      ts (rolling_checksum (sliceN X (i * bs) (i * bs + bs)))
      (min bs (X.length - i * bs)) := by
    rw [mem_lookup_indices]
    refine ⟨by simpa using hi, ?_, ?_⟩
    · rw [hbAt]; rfl
    · rw [hbAt]; rfl
  have hptake : ((f (sliceN X (i * bs) (i * bs + bs))).take s2len).take s2l' =
      (f (sliceN X (i * bs) (i * bs + bs))).take s2l' := by
    rw [List.take_take, Nat.min_eq_left hs2l]
  conv_lhs => unfold bodyStep
  simp only [idCtx, idState]
  rw [combine_components_rc]
  rw [if_neg (fun hemp => by rw [hemp] at hmemi; cases hmemi)]
  rw [hwin]
  -- ub = false: the two `if false ...` reduce
  simp only [Bool.false_eq_true, if_false]
  -- find? is some j
  have hfind : ∃ j, (lookup_indices ((List.range nb).map (idBlock X bs s2len f))
      ts (rolling_checksum (sliceN X (i * bs) (i * bs + bs)))
      (min bs (X.length - i * bs))).find? (fun jj =>
        (blockAt ((List.range nb).map (idBlock X bs s2len f)) jj).strong_checksum.take s2l' ==
          (f (sliceN X (i * bs) (i * bs + bs))).take s2l') = some j := by
    rw [← Option.isSome_iff_exists]
    rw [List.find?_isSome]
    exact ⟨i, hmemi, by rw [hbAt]; show (((f _).take s2len).take s2l' == _) = true
                        rw [hptake]; exact beq_self_eq_true _⟩
  obtain ⟨j, hj⟩ := hfind
  rw [hj]
  simp only []
  by_cases hji : j = i
  · subst hji
    rw [if_neg (show ¬(j ≠ j ∧ j <
      (List.map (idBlock X bs s2len f) (List.range nb)).length) from
      fun h => h.1 rfl)]
  · rw [if_pos (show j ≠ i ∧ i <
      (List.map (idBlock X bs s2len f) (List.range nb)).length from
      ⟨hji, by simpa using hi⟩)]
    rw [if_pos ⟨Or.inl not_false, by rw [hbAt]; rfl, by rw [hbAt]; exact hptake.symm⟩]

theorem identity_emit_last (X : List Nat) (bs s2len s2l' ts : Nat)
    (f : List Nat → List Nat) (nb : Nat)
    (hbs : 0 < bs) (hnb : nb = (X.length + bs - 1) / bs)
    (i : Nat) (hi : i + 1 = nb) (hin : i * bs < X.length)
    (instrs : List (String × DeltaInstr)) (ao ai : Nat) (so : List Nat) :
    emitMatch (idCtx X bs s2len s2l' ts f nb)
        (idState X bs i instrs ao ai so) i =
      .done ⟨X.length, min bs (X.length - i * bs),
        (checksum_components (rolling_checksum (sliceN X (i * bs) (i * bs + bs)))).1,
        (checksum_components (rolling_checksum (sliceN X (i * bs) (i * bs + bs)))).2,
        X.length, i + 1, X.length, instrs ++ [idMatchInstr X bs i],
        ao, ai, so⟩ := by
  have hle : X.length ≤ (i + 1) * bs := by
    rw [hi, hnb]
    exact ceil_le_mul X.length bs hbs
  rw [Nat.succ_mul] at hle
  have hoff : i * bs + min bs (X.length - i * bs) = X.length := by omega
  unfold emitMatch
  simp only [idCtx, idState, idMatchInstr]
  rw [if_neg (lt_irrefl (i * bs)), hoff, if_pos (le_refl X.length)]

theorem identity_emit_cont (X : List Nat) (bs s2len s2l' ts : Nat)
    (f : List Nat → List Nat) (nb : Nat)
    (hbs : 0 < bs) (hnb : nb = (X.length + bs - 1) / bs)
    (hn : 0 < X.length)
    (i : Nat) (hi : i + 1 < nb)
    (instrs : List (String × DeltaInstr)) (ao ai : Nat) (so : List Nat) :
    emitMatch (idCtx X bs s2len s2l' ts f nb)
        (idState X bs i instrs ao ai so) i =
      .cont (idState X bs (i + 1) (instrs ++ [idMatchInstr X bs i]) ao ai so) := by
  have hlt : (i + 1) * bs < X.length := by
    calc (i + 1) * bs ≤ (nb - 1) * bs := Nat.mul_le_mul_right bs (by omega)
    _ < X.length := by rw [hnb]; exact ceil_pred_mul_lt X.length bs hbs hn
  have hsm : (i + 1) * bs = i * bs + bs := Nat.succ_mul i bs
  have hmin : min bs (X.length - i * bs) = bs := by omega
  have hoff : i * bs + min bs (X.length - i * bs) = (i + 1) * bs := by omega
  unfold emitMatch
  simp only [idCtx, idState, idMatchInstr]
  rw [if_neg (lt_irrefl (i * bs)), hoff,
    if_neg (show ¬(X.length ≤ (i + 1) * bs) from by omega),
    if_neg (show ¬(min bs (X.length - (i + 1) * bs) = 0) from by omega)]
  rw [rolling_checksum_optimized_eq, sliceN_add_min]

end Rsync

namespace Rsync

theorem matchLoop_succ (C : MatcherCtx) (fuel : Nat) (st : MatchState) :
    matchLoop C (fuel + 1) st =
      (if st.offset < C.endB ∧ 0 < st.k then
        match bodyStep C st with
        | .done st' => st'
        | .cont st' => matchLoop C fuel st'
      else st) := rfl

theorem identity_run (X : List Nat) (bs s2len s2l' ts : Nat)
    (f : List Nat → List Nat) (nb : Nat)
    (hbs : 0 < bs) (hs2l : s2l' ≤ s2len)
    (hnb : nb = (X.length + bs - 1) / bs) (hn : 0 < X.length) :
    ∀ (m : Nat), 0 < m → ∀ (i : Nat), i + m = nb →
    ∀ (instrs : List (String × DeltaInstr)) (ao ai : Nat) (so : List Nat)
      (fuel : Nat), m ≤ fuel →
      (matchLoop (idCtx X bs s2len s2l' ts f nb) fuel
          (idState X bs i instrs ao ai so)).instructions =
        instrs ++ (List.range' i m).map (idMatchInstr X bs) ∧
      (matchLoop (idCtx X bs s2len s2l' ts f nb) fuel
          (idState X bs i instrs ao ai so)).lit_start = X.length := by
  intro m
  induction m with
  | zero => intro h; exact absurd h (lt_irrefl 0)
  | succ m' ih =>
    intro _ i him instrs ao ai so fuel hfuel
    have hi : i < nb := by omega
    have hin : i * bs < X.length := by
      calc i * bs ≤ (nb - 1) * bs := Nat.mul_le_mul_right bs (by omega)
      _ < X.length := by rw [hnb]; exact ceil_pred_mul_lt X.length bs hbs hn
    cases fuel with
    | zero => exact absurd hfuel (by omega)
    | succ fl =>
      rw [matchLoop_succ]
      rw [if_pos (show (idState X bs i instrs ao ai so).offset <
          (idCtx X bs s2len s2l' ts f nb).endB ∧
          0 < (idState X bs i instrs ao ai so).k from by
        constructor
        · show i * bs < (nb - 1) * bs + 1
          have : i * bs ≤ (nb - 1) * bs := Nat.mul_le_mul_right bs (by omega)
          omega
        · show 0 < min bs (X.length - i * bs)
          omega)]
      rw [identity_matched X bs s2len s2l' ts f nb hbs hs2l i hi hin instrs ao ai so]
      cases m' with
      | zero =>
        rw [identity_emit_last X bs s2len s2l' ts f nb hbs hnb i (by omega) hin
          instrs ao ai so]
        constructor
        · show instrs ++ [idMatchInstr X bs i] = _
          simp [List.range']
        · rfl
      | succ m'' =>
        rw [identity_emit_cont X bs s2len s2l' ts f nb hbs hnb hn i (by omega)
          instrs ao ai so]
        show (matchLoop _ fl (idState X bs (i + 1)
          (instrs ++ [idMatchInstr X bs i]) ao ai so)).instructions = _ ∧ _
        obtain ⟨h1, h2⟩ := ih (by omega) (i + 1) (by omega)
          (instrs ++ [idMatchInstr X bs i]) ao ai so fl (by omega)
        refine ⟨?_, h2⟩
        rw [h1, List.append_assoc, List.singleton_append]
        simp [List.range'_succ]

end Rsync

namespace Rsync

theorem matchBytesOf_cons (c : String × DeltaInstr)
    (l : List (String × DeltaInstr)) :
    matchBytesOf (c :: l) =
      (match c with
       | (cmd, .dmatch m) => if cmd = "match" then m.length else 0
       | _ => 0) + matchBytesOf l := by
  obtain ⟨cmd, i⟩ := c
  cases i <;> simp [matchBytesOf]

theorem literalBytesOf_cons (c : String × DeltaInstr)
    (l : List (String × DeltaInstr)) :
    literalBytesOf (c :: l) =
      (match c with
       | (cmd, .dliteral lit) => if cmd = "literal" then (lit.data.length : Int)
         else 0
       | _ => 0) + literalBytesOf l := by
  obtain ⟨cmd, i⟩ := c
  cases i <;> simp [literalBytesOf]

theorem idMatch_bytes_sum (X : List Nat) (bs nb : Nat)
    (hle : X.length ≤ nb * bs) :
    ∀ (m i : Nat), i + m = nb →
      matchBytesOf ((List.range' i m).map (idMatchInstr X bs)) =
        ((X.length - i * bs : Nat) : Int) ∧
      literalBytesOf ((List.range' i m).map (idMatchInstr X bs)) = 0 := by
  intro m
  induction m with
  | zero =>
    intro i him
    have hi : i = nb := by omega
    subst hi
    have hz : X.length - i * bs = 0 := by omega
    rw [hz]
    exact ⟨by simp [matchBytesOf], by simp [literalBytesOf]⟩
  | succ m' ih =>
    intro i him
    rw [List.range'_succ, List.map_cons]
    obtain ⟨ih1, ih2⟩ := ih (i + 1) (by omega)
    have hsm : (i + 1) * bs = i * bs + bs := Nat.succ_mul i bs
    constructor
    · rw [matchBytesOf_cons, ih1]
      show (if "match" = "match" then ((min bs (X.length - i * bs) : Nat) : Int)
        else 0) + _ = _
      rw [if_pos rfl]
      omega
    · rw [literalBytesOf_cons, ih2]
      show (0 : Int) + 0 = 0
      norm_num

end Rsync

namespace Rsync

theorem getLast?_map_range {α : Type} (g : Nat → α) (nb : Nat) (h : 0 < nb) :
    ((List.range nb).map g).getLast? = some (g (nb - 1)) := by
  rw [List.getLast?_eq_getElem?]
  simp only [List.length_map, List.length_range]
  rw [List.getElem?_map, List.getElem?_range (by omega)]
  rfl

theorem generate_delta_identity_core (X : List Nat) (bs : Nat)
    (f : List Nat → List Nat) (sig : ChecksumSignature) (s2len : Nat)
    (hbs : 0 < bs) (hn : 0 < X.length)
    (hcap : X.length ≤ MAX_FILE_SIZE_IN_MEMORY)
    (hblocks : sig.blocks =
      (List.range ((X.length + bs - 1) / bs)).map (idBlock X bs s2len f))
    (hbsz : sig.block_size = bs)
    (hs2l : sig_s2length sig ≤ s2len) :
    generate_delta f false sig X = .ok ⟨sig.file_size, X.length, bs,
      (List.range' 0 ((X.length + bs - 1) / bs)).map (idMatchInstr X bs), 1⟩ := by
  have hnbpos := ceil_pos X.length bs hbs hn
  have hle := ceil_le_mul X.length bs hbs
  have hplt := ceil_pred_mul_lt X.length bs hbs hn
  have hAB : (X.length + bs - 1) / bs * bs =
      ((X.length + bs - 1) / bs - 1) * bs + bs := by
    rw [← Nat.succ_mul]
    congr 1
    omega
  unfold generate_delta
  rw [if_neg (by omega)]
  simp only [hblocks, hbsz]
  rw [getLast?_map_range _ _ hnbpos]
  simp only []
  have hlastlen : (idBlock X bs s2len f ((X.length + bs - 1) / bs - 1)).length =
      min bs (X.length - ((X.length + bs - 1) / bs - 1) * bs) := rfl
  rw [hlastlen]
  rw [if_pos (show 0 < min bs
    (X.length - ((X.length + bs - 1) / bs - 1) * bs) from by omega)]
  have hendB : X.length + 1 - min bs
      (X.length - ((X.length + bs - 1) / bs - 1) * bs) =
      ((X.length + bs - 1) / bs - 1) * bs + 1 := by omega
  rw [hendB]
  rw [if_pos (show 0 < bs ⊓ X.length from by omega)]
  rw [rolling_checksum_optimized_eq]
  have hslice0 : sliceN X 0 (bs ⊓ X.length) = sliceN X (0 * bs) (0 * bs + bs) := by
    have h := sliceN_add_min X 0 bs
    simp only [Nat.zero_add, Nat.sub_zero] at h
    rw [Nat.zero_mul, Nat.zero_add]
    exact h
  rw [hslice0]
  have hst0 : (⟨0, bs ⊓ X.length,
      (checksum_components (rolling_checksum (sliceN X (0 * bs) (0 * bs + bs)))).1,
      (checksum_components (rolling_checksum (sliceN X (0 * bs) (0 * bs + bs)))).2,
      0, 0, 0, [], 0, 0, []⟩ : MatchState) = idState X bs 0 [] 0 0 [] := by
    unfold idState
    rw [Nat.zero_mul]
    simp only [Nat.sub_zero]
  rw [hst0]
  have hctxeq : (⟨X,
      List.map (idBlock X bs s2len f) (List.range ((X.length + bs - 1) / bs)),
      bs, sig_s2length sig,
      tablesize (List.map (idBlock X bs s2len f)
        (List.range ((X.length + bs - 1) / bs))).length,
      f, false, ((X.length + bs - 1) / bs - 1) * bs + 1,
      X.length⟩ : MatcherCtx) =
      idCtx X bs s2len (sig_s2length sig)
        (tablesize (List.map (idBlock X bs s2len f)
          (List.range ((X.length + bs - 1) / bs))).length) f
        ((X.length + bs - 1) / bs) := rfl
  rw [hctxeq]
  have hfuel : (X.length + bs - 1) / bs ≤
      ((X.length + bs - 1) / bs - 1) * bs + 1 + 1 := by
    have h1 : (X.length + bs - 1) / bs - 1 ≤
        ((X.length + bs - 1) / bs - 1) * bs :=
      Nat.le_mul_of_pos_right _ hbs
    omega
  obtain ⟨hI, hL⟩ := identity_run X bs s2len (sig_s2length sig)
    (tablesize (List.map (idBlock X bs s2len f)
      (List.range ((X.length + bs - 1) / bs))).length) f
    ((X.length + bs - 1) / bs) hbs hs2l rfl hn
    ((X.length + bs - 1) / bs) hnbpos 0 (by omega) [] 0 0 []
    (((X.length + bs - 1) / bs - 1) * bs + 1 + 1) hfuel
  rw [hL, if_neg (lt_irrefl X.length), hI, List.nil_append]
  obtain ⟨hMB, hLB⟩ := idMatch_bytes_sum X bs ((X.length + bs - 1) / bs) hle
    ((X.length + bs - 1) / bs) 0 (by omega)
  simp only [Nat.zero_mul, Nat.sub_zero] at hMB
  rw [hMB, hLB]
  rw [if_pos (show (0 : Int) < ↑X.length + 0 from by omega)]
  have hr : (((X.length : Int) : ℚ) / (((X.length : Int) + 0 : Int) : ℚ)) = 1 := by
    rw [add_zero]
    push_cast
    exact div_self (Nat.cast_ne_zero.mpr (by omega))
  rw [hr]

end Rsync

namespace Rsync

/-- C9 (amended): for every NONEMPTY byte string `X` (within the
in-memory size cap, with a positive block size),
`generate_delta(generate_signature(X), X)` returns one MATCH instruction
per signature block in order, zero LITERAL instructions, and
`compression_ratio = 1`.  The original claim's "for all X" fails at
`X = b""`, where the ratio is `0.0` (`C9_counterexample`). -/
theorem C9_identity_delta (X : List Nat) (bs : Nat)
    (f : List Nat → List Nat) (xl P cl : Nat)
    (hbs : 0 < bs) (hn : 0 < X.length)
    (hcap : X.length ≤ MAX_FILE_SIZE_IN_MEMORY) :
    generate_delta f false (generate_signature bs f xl P cl X) X =
      .ok ⟨(generate_signature bs f xl P cl X).file_size, X.length, bs,
        (List.range' 0 ((X.length + bs - 1) / bs)).map (idMatchInstr X bs),
        1⟩ ∧
    ((List.range' 0 ((X.length + bs - 1) / bs)).map
      (idMatchInstr X bs)).length =
      (generate_signature bs f xl P cl X).num_blocks ∧
    ∀ ins ∈ (List.range' 0 ((X.length + bs - 1) / bs)).map
      (idMatchInstr X bs), ins.1 = "match" := by
  have hnb : 0 < (X.length + bs - 1) / bs := Nat.div_pos (by omega) hbs
  have hblocks : (generate_signature bs f xl P cl X).blocks =
      (List.range ((X.length + bs - 1) / bs)).map
        (idBlock X bs (sum_sizes_sqroot X.length P bs cl xl).s2length f) := by
    rw [generate_signature_blocks]
    rfl
  have hs2l : sig_s2length (generate_signature bs f xl P cl X) ≤
      (sum_sizes_sqroot X.length P bs cl xl).s2length := by
    unfold sig_s2length
    rw [hblocks]
    obtain ⟨m, hm⟩ : ∃ m, (X.length + bs - 1) / bs = m + 1 :=
      ⟨(X.length + bs - 1) / bs - 1, by omega⟩
    rw [hm, List.range_succ_eq_map, List.map_cons]
    simp only [idBlock, List.length_take]
    exact Nat.min_le_left _ _
  refine ⟨generate_delta_identity_core X bs f _ _ hbs hn hcap hblocks rfl
    hs2l, ?_, ?_⟩
  · have hnum : (generate_signature bs f xl P cl X).num_blocks =
        (generate_signature bs f xl P cl X).blocks.length := rfl
    rw [hnum, hblocks]
    simp
  · intro ins hins
    simp only [List.mem_map] at hins
    obtain ⟨i, _, h⟩ := hins
    rw [← h]
    rfl


theorem C9_counterexample :
    generate_delta (fun _ => [0]) false
        (generate_signature 700 (fun _ => [0]) 16 31 16 []) [] =
      .ok ⟨0, 0, 700, [], 0⟩ ∧ ((0 : ℚ) ≠ 1) :=
  ⟨rfl, by norm_num⟩

theorem C9_witness :
    generate_delta (fun _ => [0]) false
        (generate_signature 16 (fun _ => [0]) 16 31 16 [3, 1, 2]) [3, 1, 2] =
      .ok ⟨3, 3, 16,
        (List.range' 0 1).map (idMatchInstr [3, 1, 2] 16), 1⟩ :=
  (C9_identity_delta [3, 1, 2] 16 (fun _ => [0]) 16 31 16 (by decide)
    (by decide) (by decide)).1

end Rsync

namespace Rsync

/-- The `[start, start+len)` range in the new file covered by a delta
instruction: `offset_in_new`/`length` for a match,
`offset`/`len(data)` for a literal. -/
def instrSpan : String × DeltaInstr → Int × Int
  | (_, .dmatch m) => (m.offset_in_new, m.length)
  | (_, .dliteral l) => (l.offset, (l.data.length : Int))

/-- Walk an instruction list checking that each instruction starts
exactly where the previous one ended and has positive length; returns
the end of the covered prefix `[pos, result)`. -/
def chainFrom (pos : Int) : List (String × DeltaInstr) → Option Int
  | [] => some pos
  | ins :: rest =>
    if (instrSpan ins).1 = pos ∧ 0 < (instrSpan ins).2 then
      chainFrom (pos + (instrSpan ins).2) rest
    else none

/-- The state carried out of a loop-body step, whether the body
`break`s or `continue`s. -/
def resState : StepRes → MatchState
  | .cont s => s
  | .done s => s

/-- The matcher-loop invariant: the emitted instructions tile
`[0, lit_start)`, the pending-literal start does not exceed the window
offset, and the window fits in the file. -/
def stInv (C : MatcherCtx) (st : MatchState) : Prop :=
  chainFrom 0 st.instructions = some (st.lit_start : Int) ∧
  st.lit_start ≤ st.offset ∧ st.offset + st.k ≤ C.flen

theorem chainFrom_cons (p : Int) (ins : String × DeltaInstr)
    (rest : List (String × DeltaInstr)) :
    chainFrom p (ins :: rest) =
      if (instrSpan ins).1 = p ∧ 0 < (instrSpan ins).2 then
        chainFrom (p + (instrSpan ins).2) rest
      else none := rfl

theorem chainFrom_append (p : Int) (l1 l2 : List (String × DeltaInstr)) :
    chainFrom p (l1 ++ l2) =
      match chainFrom p l1 with
      | some q => chainFrom q l2
      | none => none := by
  induction l1 generalizing p with
  | nil => rfl
  | cons x rest ih =>
    rw [List.cons_append, chainFrom_cons, chainFrom_cons]
    by_cases h : (instrSpan x).1 = p ∧ 0 < (instrSpan x).2
    · rw [if_pos h, if_pos h, ih]
    · rw [if_neg h, if_neg h]

theorem sliceN_length_of_le (data : List Nat) (a b : Nat)
    (hb : b ≤ data.length) : (sliceN data a b).length = b - a := by
  unfold sliceN
  rw [List.length_take, List.length_drop]
  omega

theorem chainFrom_snoc_literal (instrs : List (String × DeltaInstr))
    (data : List Nat) (a b : Nat)
    (hch : chainFrom 0 instrs = some (a : Int)) (hab : a < b)
    (hb : b ≤ data.length) :
    chainFrom 0 (instrs ++ [("literal",
      DeltaInstr.dliteral ⟨(a : Int), sliceN data a b⟩)]) = some (b : Int) := by
  rw [chainFrom_append, hch]
  have hpos : (0 : Int) < ((sliceN data a b).length : Int) := by
    rw [sliceN_length_of_le data a b hb]; omega
  show chainFrom (a : Int) [("literal",
    DeltaInstr.dliteral ⟨(a : Int), sliceN data a b⟩)] = some (b : Int)
  rw [chainFrom_cons, if_pos ⟨rfl, hpos⟩]
  show some _ = _
  congr 1
  show (a : Int) + ((sliceN data a b).length : Int) = b
  rw [sliceN_length_of_le data a b hb]; omega

theorem chainFrom_snoc_match (instrs : List (String × DeltaInstr))
    (mi o k : Nat) (hch : chainFrom 0 instrs = some (o : Int))
    (hk : 0 < k) :
    chainFrom 0 (instrs ++ [("match",
      DeltaInstr.dmatch ⟨(mi : Int), (o : Int), (k : Int)⟩)]) =
      some ((o + k : Nat) : Int) := by
  rw [chainFrom_append, hch]
  show chainFrom (o : Int) [("match",
    DeltaInstr.dmatch ⟨(mi : Int), (o : Int), (k : Int)⟩)] =
    some ((o + k : Nat) : Int)
  rw [chainFrom_cons]
  simp only [instrSpan]
  rw [if_pos ⟨trivial, show (0:Int) < (k : Int) from by exact_mod_cast hk⟩]
  show some ((o : Int) + (k : Int)) = some ((o + k : Nat) : Int)
  norm_cast

theorem alignAdvance_ge (bl target : Nat) (hbl : 0 < bl) :
    ∀ fuel ao ai, target ≤ ao + fuel * bl →
      target ≤ (alignAdvance bl target fuel ao ai).1 := by
  intro fuel
  induction fuel with
  | zero => intro ao ai h; simpa using h
  | succ n ih =>
    intro ao ai h
    unfold alignAdvance
    by_cases hlt : ao < target
    · rw [if_pos hlt]
      exact ih (ao + bl) (ai + 1) (by rw [Nat.succ_mul] at h; omega)
    · rw [if_neg hlt]
      omega


/-- The part of the invariant still meaningful when the loop body
`break`s: instructions tile `[0, lit_start)` and `lit_start` is inside
the file. -/
def stInvEnd (C : MatcherCtx) (st : MatchState) : Prop :=
  chainFrom 0 st.instructions = some (st.lit_start : Int) ∧
  st.lit_start ≤ C.flen

/-- The invariant appropriate to a step result: full `stInv` on
`continue`, `stInvEnd` on `break`. -/
def stepInv (C : MatcherCtx) : StepRes → Prop
  | .cont st => stInv C st
  | .done st => stInvEnd C st

theorem noMatchStep_inv (C : MatcherCtx) (st : MatchState)
    (hdata : C.flen = C.data.length)
    (hch : chainFrom 0 st.instructions = some (st.lit_start : Int))
    (hls : st.lit_start ≤ st.offset) (hof : st.offset + st.k ≤ C.flen)
    (hk : 0 < st.k) :
    stepInv C (noMatchStep C st) := by
  unfold noMatchStep stepInv stInv
  simp only []
  refine ⟨?_, ?_, ?_⟩
  · by_cases hfl : C.blength + CHUNK_SIZE ≤ st.offset - st.last_match ∧
        CHUNK_SIZE < C.endB - st.offset
    · rw [if_pos hfl]
      by_cases hlt : st.lit_start < st.offset - C.blength
      · rw [if_pos hlt]
        exact chainFrom_snoc_literal _ _ _ _ hch hlt (by omega)
      · rw [if_neg hlt]
        exact hch
    · rw [if_neg hfl]
      exact hch
  · by_cases hfl : C.blength + CHUNK_SIZE ≤ st.offset - st.last_match ∧
        CHUNK_SIZE < C.endB - st.offset
    · rw [if_pos hfl]
      by_cases hlt : st.lit_start < st.offset - C.blength
      · rw [if_pos hlt]
        show st.offset - C.blength ≤ st.offset + 1
        omega
      · rw [if_neg hlt]
        show st.lit_start ≤ st.offset + 1
        omega
    · rw [if_neg hfl]
      show st.lit_start ≤ st.offset + 1
      omega
  · by_cases hin : st.offset + st.k < C.flen
    · rw [if_pos hin]
      show st.offset + 1 + st.k ≤ C.flen
      omega
    · rw [if_neg hin]
      show st.offset + 1 + (st.k - 1) ≤ C.flen
      omega

theorem emitMatch_inv (C : MatcherCtx) (st : MatchState) (mi : Nat)
    (hdata : C.flen = C.data.length)
    (hch : chainFrom 0 st.instructions = some (st.lit_start : Int))
    (hls : st.lit_start ≤ st.offset) (hof : st.offset + st.k ≤ C.flen)
    (hk : 0 < st.k) :
    stepInv C (emitMatch C st mi) := by
  unfold emitMatch
  simp only []
  have hch2 : chainFrom 0
      ((if st.lit_start < st.offset then
          st.instructions ++ [("literal",
            DeltaInstr.dliteral ⟨(st.lit_start : Int),
              sliceN C.data st.lit_start st.offset⟩)]
        else st.instructions) ++ [("match",
          DeltaInstr.dmatch ⟨(mi : Int), (st.offset : Int),
            (st.k : Int)⟩)]) = some ((st.offset + st.k : Nat) : Int) := by
    by_cases hlt : st.lit_start < st.offset
    · rw [if_pos hlt]
      refine chainFrom_snoc_match _ _ _ _ ?_ hk
      exact chainFrom_snoc_literal _ _ _ _ hch hlt (by omega)
    · rw [if_neg hlt]
      have hla : st.lit_start = st.offset := by omega
      rw [hla] at hch
      exact chainFrom_snoc_match _ _ _ _ hch hk
  by_cases hend : C.flen ≤ st.offset + st.k
  · rw [if_pos hend]
    exact ⟨hch2, show st.offset + st.k ≤ C.flen by omega⟩
  · rw [if_neg hend]
    by_cases hk0 : C.blength ⊓ (C.flen - (st.offset + st.k)) = 0
    · rw [if_pos hk0]
      exact ⟨hch2, show st.offset + st.k ≤ C.flen by omega⟩
    · rw [if_neg hk0]
      refine ⟨hch2, le_refl _, ?_⟩
      show st.offset + st.k + C.blength ⊓ (C.flen - (st.offset + st.k)) ≤
        C.flen
      omega


theorem bodyStep_inv (C : MatcherCtx) (st : MatchState)
    (hdata : C.flen = C.data.length)
    (hbl : C.ub = true → 0 < C.blength)
    (hI : stInv C st) (hk : 0 < st.k) :
    stepInv C (bodyStep C st) := by
  obtain ⟨hch, hls, hof⟩ := hI
  unfold bodyStep
  simp only []
  by_cases hc0 : lookup_indices C.blocks C.ts
      (combine_checksum st.s1 st.s2) st.k = []
  · rw [if_pos hc0]
    exact noMatchStep_inv C st hdata hch hls hof hk
  · rw [if_neg hc0]
    have hgen : ∀ st1 : MatchState,
        chainFrom 0 st1.instructions = some (st1.lit_start : Int) →
        st1.lit_start ≤ st1.offset → st1.offset + st1.k ≤ C.flen →
        0 < st1.k → ∀ mo : Option Nat,
        stepInv C (match mo with
          | some mi => emitMatch C st1 mi
          | none => noMatchStep C st1) := by
      intro st1 h1 h2 h3 h4 mo
      cases mo with
      | none => exact noMatchStep_inv C st1 hdata h1 h2 h3 h4
      | some mi => exact emitMatch_inv C st1 mi hdata h1 h2 h3 h4
    cases hub : C.ub with
    | false =>
      simp only [hub, Bool.false_eq_true, if_false]
      exact hgen st hch hls hof hk _
    | true =>
      simp only [hub, eq_self_iff_true, if_true]
      cases hm0 : List.find? (fun i =>
          List.take C.s2length (blockAt C.blocks i).strong_checksum ==
            List.take C.s2length (C.strongFn
              (sliceN C.data st.offset (st.offset + st.k))))
          (List.filter (fun i =>
              decide (st.offset ≤ (blockAt C.blocks i).offset) ||
                st.same_offset.contains i)
            (lookup_indices C.blocks C.ts
              (combine_checksum st.s1 st.s2) st.k)) with
      | none =>
        exact hgen st hch hls hof hk none
      | some m =>
        simp only []
        set ao := (alignAdvance C.blength st.offset (st.offset + 1)
          st.aligned_offset st.aligned_i).1 with hao
        set ai := (alignAdvance C.blength st.offset (st.offset + 1)
          st.aligned_offset st.aligned_i).2 with hai
        have hoao : st.offset ≤ ao := by
          rw [hao]
          refine alignAdvance_ge C.blength st.offset (hbl hub) _ _ _ ?_
          have := hbl hub
          have h2 : st.offset + 1 ≤ (st.offset + 1) * C.blength :=
            Nat.le_mul_of_pos_right _ (hbl hub)
          omega
        by_cases hfp : (st.offset = ao ∨ combine_checksum st.s1 st.s2 = 0 ∧
            st.k = C.blength ∧ ao + st.k ≤ C.flen) ∧ ai < C.blocks.length
        · rw [if_pos hfp]
          by_cases hma : (if some m ≠ some ai then
              (if combine_checksum st.s1 st.s2 =
                    (blockAt C.blocks ai).weak_checksum ∧
                  st.k = (blockAt C.blocks ai).length ∧
                  List.take C.s2length (blockAt C.blocks ai).strong_checksum =
                    List.take C.s2length (C.strongFn
                      (sliceN C.data st.offset (st.offset + st.k))) then
                some ai
              else some m)
            else some m) = some ai
          · rw [if_pos hma]
            by_cases hj : st.offset ≠ ao ∧ ao + st.k ≤ C.flen
            · rw [if_pos hj]
              by_cases hjs : List.take C.s2length (C.strongFn
                    (sliceN C.data ao (ao + st.k))) =
                  List.take C.s2length (blockAt C.blocks ai).strong_checksum
              · rw [if_pos hjs]
                exact hgen { st with
                  offset := ao
                  want_i := ai
                  aligned_offset := ao
                  aligned_i := ai
                  same_offset := ai :: st.same_offset }
                  hch (le_trans hls hoao) hj.2 hk _
              · rw [if_neg hjs]
                exact hgen { st with
                  want_i := ai
                  aligned_offset := ao
                  aligned_i := ai
                  same_offset := ai :: st.same_offset } hch hls hof hk _
            · rw [if_neg hj]
              exact hgen { st with
                want_i := ai
                aligned_offset := ao
                aligned_i := ai
                same_offset := ai :: st.same_offset } hch hls hof hk _
          · rw [if_neg hma]
            exact hgen { st with
              aligned_offset := ao
              aligned_i := ai } hch hls hof hk _
        · rw [if_neg hfp]
          exact hgen { st with
            aligned_offset := ao
            aligned_i := ai } hch hls hof hk _


theorem matchLoop_inv (C : MatcherCtx) (hdata : C.flen = C.data.length)
    (hbl : C.ub = true → 0 < C.blength) :
    ∀ (fuel : Nat) (st : MatchState), stInv C st →
      stInvEnd C (matchLoop C fuel st) := by
  intro fuel
  induction fuel with
  | zero =>
    intro st hI
    refine ⟨hI.1, ?_⟩
    show st.lit_start ≤ C.flen
    have h1 := hI.2.1
    have h2 := hI.2.2
    omega
  | succ n ih =>
    intro st hI
    unfold matchLoop
    by_cases hc : st.offset < C.endB ∧ 0 < st.k
    · rw [if_pos hc]
      have hstep := bodyStep_inv C st hdata hbl hI hc.2
      cases hb : bodyStep C st with
      | done st2 => rw [hb] at hstep; exact hstep
      | cont st2 => rw [hb] at hstep; exact ih st2 hstep
    · rw [if_neg hc]
      refine ⟨hI.1, ?_⟩
      show st.lit_start ≤ C.flen
      have h1 := hI.2.1
      have h2 := hI.2.2
      omega

theorem chainFrom_mem_start (l : List (String × DeltaInstr)) :
    ∀ (p q : Int), chainFrom p l = some q →
      ∀ b ∈ l, p ≤ (instrSpan b).1 := by
  induction l with
  | nil => intro p q _ b hb; cases hb
  | cons x rest ih =>
    intro p q hch b hb
    rw [chainFrom_cons] at hch
    by_cases h : (instrSpan x).1 = p ∧ 0 < (instrSpan x).2
    · rw [if_pos h] at hch
      rw [List.mem_cons] at hb
      rcases hb with hb | hb
      · rw [hb, h.1]
      · have := ih (p + (instrSpan x).2) q hch b hb
        have h2 := h.2
        omega
    · rw [if_neg h] at hch
      cases hch

theorem chainFrom_pairwise (l : List (String × DeltaInstr)) :
    ∀ (p q : Int), chainFrom p l = some q →
      l.Pairwise (fun a b => (instrSpan a).1 < (instrSpan b).1) := by
  induction l with
  | nil => intro p q _; exact List.Pairwise.nil
  | cons x rest ih =>
    intro p q hch
    rw [chainFrom_cons] at hch
    by_cases h : (instrSpan x).1 = p ∧ 0 < (instrSpan x).2
    · rw [if_pos h] at hch
      refine List.Pairwise.cons ?_ (ih (p + (instrSpan x).2) q hch)
      intro b hb
      have := chainFrom_mem_start rest (p + (instrSpan x).2) q hch b hb
      have h1 := h.1
      have h2 := h.2
      omega
    · rw [if_neg h] at hch
      cases hch



theorem final_flush_chain (C : MatcherCtx) (fuel : Nat) (st0 : MatchState)
    (hdata : C.flen = C.data.length)
    (hbl : C.ub = true → 0 < C.blength)
    (hI : stInv C st0) :
    chainFrom 0 (if (matchLoop C fuel st0).lit_start < C.flen then
        (matchLoop C fuel st0).instructions ++ [("literal",
          DeltaInstr.dliteral ⟨((matchLoop C fuel st0).lit_start : Int),
            sliceN C.data (matchLoop C fuel st0).lit_start C.flen⟩)]
      else (matchLoop C fuel st0).instructions) =
        some ((C.flen : Nat) : Int) ∧
    (if (matchLoop C fuel st0).lit_start < C.flen then
        (matchLoop C fuel st0).instructions ++ [("literal",
          DeltaInstr.dliteral ⟨((matchLoop C fuel st0).lit_start : Int),
            sliceN C.data (matchLoop C fuel st0).lit_start C.flen⟩)]
      else (matchLoop C fuel st0).instructions).Pairwise
        (fun a b => (instrSpan a).1 < (instrSpan b).1) := by
  obtain ⟨hchF, hlsF⟩ := matchLoop_inv C hdata hbl fuel st0 hI
  by_cases hflush : (matchLoop C fuel st0).lit_start < C.flen
  · rw [if_pos hflush]
    have hchain := chainFrom_snoc_literal _ C.data _ _ hchF hflush
      (le_of_eq hdata)
    exact ⟨hchain, chainFrom_pairwise _ _ _ hchain⟩
  · rw [if_neg hflush]
    have hle : (matchLoop C fuel st0).lit_start = C.flen := by omega
    rw [hle] at hchF
    exact ⟨hchF, chainFrom_pairwise _ _ _ hchF⟩

/-- C2: for every signature with a positive block size and every new
byte string `X` of length `N`, the instruction list `generate_delta`
returns tiles `[0, N)` exactly once — each instruction starts where the
previous one ended, has positive length, and the walk ends at `N`
(`chainFrom 0 · = some N`) — and is strictly ordered by ascending
`offset_in_new`/`offset`; this holds for both values of the
`updating_basis_file` flag, so it covers the aligned fast-path, and the
early-flush heuristic. -/
theorem C2_instruction_partition (strongFn : List Nat → List Nat)
    (ub : Bool) (sig : ChecksumSignature) (X : List Nat)
    (D : DeltaInstructions) (hbl : 0 < sig.block_size)
    (h : generate_delta strongFn ub sig X = .ok D) :
    chainFrom 0 D.instructions = some ((X.length : Nat) : Int) ∧
    D.instructions.Pairwise (fun a b => (instrSpan a).1 < (instrSpan b).1) := by
  have hcap : ¬ MAX_FILE_SIZE_IN_MEMORY < X.length := by
    intro hlt
    unfold generate_delta at h
    rw [if_pos hlt] at h
    cases h
  unfold generate_delta at h
  rw [if_neg hcap] at h
  simp only [] at h
  have hD := Except.ok.inj h
  subst hD
  simp only []
  exact final_flush_chain _ _ _ rfl (fun _ => hbl)
    ⟨rfl, le_refl _,
      show 0 + sig.block_size ⊓ X.length ≤ X.length by omega⟩


theorem C2_witness :
    chainFrom 0 (DeltaInstructions.mk 3 3 16
        ((List.range' 0 1).map (idMatchInstr [3, 1, 2] 16)) 1).instructions =
      some ((([3, 1, 2] : List Nat).length : Nat) : Int) ∧
    (DeltaInstructions.mk 3 3 16
        ((List.range' 0 1).map
          (idMatchInstr [3, 1, 2] 16)) 1).instructions.Pairwise
      (fun a b => (instrSpan a).1 < (instrSpan b).1) :=
  C2_instruction_partition (fun _ => [0]) false
    (generate_signature 16 (fun _ => [0]) 16 31 16 [3, 1, 2]) [3, 1, 2]
    (DeltaInstructions.mk 3 3 16
      ((List.range' 0 1).map (idMatchInstr [3, 1, 2] 16)) 1)
    (by decide)
    (generate_delta_identity_core [3, 1, 2] 16 (fun _ => [0])
      (generate_signature 16 (fun _ => [0]) 16 31 16 [3, 1, 2]) 16
      (by decide) (by decide) (by decide) (by decide) (by decide) (by decide))

end Rsync

namespace Rsync

/-- The concatenation `apply_delta` produces from an instruction list. -/
def applyBytes (B : List Nat) (bs : Nat) (l : List (String × DeltaInstr)) :
    List Nat :=
  (l.map (instrBytes B bs)).flatten

/-- Soundness of the strong checksum for this basis/new-file pair: any
window of `X` whose strong-checksum prefix matches a stored block's
prefix actually has the bytes `apply_delta` will copy for that block.
`generate_delta` only emits a match after such a prefix comparison
succeeds, so under this hypothesis every match copies the right bytes. -/
def strong_sound (strongFn : List Nat → List Nat) (s2l : Nat)
    (blocks : List BlockChecksum) (B X : List Nat) (bs : Nat) : Prop :=
  ∀ o < X.length + 1, ∀ k < bs + 1, ∀ i < blocks.length,
    o + k ≤ X.length →
    List.take s2l (blockAt blocks i).strong_checksum =
      List.take s2l (strongFn (sliceN X o (o + k))) →
    instrBytes B bs ("match",
      DeltaInstr.dmatch ⟨(i : Int), (o : Int), (k : Int)⟩) =
      sliceN X o (o + k)

set_option synthInstance.maxHeartbeats 1000000
set_option synthInstance.maxSize 512

instance strong_sound_decidable (strongFn : List Nat → List Nat)
    (s2l : Nat) (blocks : List BlockChecksum) (B X : List Nat) (bs : Nat) :
    Decidable (strong_sound strongFn s2l blocks B X bs) := by
  unfold strong_sound
  infer_instance

set_option synthInstance.maxHeartbeats 20000
set_option synthInstance.maxSize 128

/-- `stInv` extended with the facts the apply path needs: the window
never exceeds a block, and applying the instructions emitted so far
reproduces the new file up to `lit_start`. -/
def stInvA (C : MatcherCtx) (B : List Nat) (st : MatchState) : Prop :=
  stInv C st ∧ st.k ≤ C.blength ∧
  applyBytes B C.blength st.instructions = sliceN C.data 0 st.lit_start

/-- `stInvEnd` extended with the apply fact. -/
def stInvEndA (C : MatcherCtx) (B : List Nat) (st : MatchState) : Prop :=
  stInvEnd C st ∧
  applyBytes B C.blength st.instructions = sliceN C.data 0 st.lit_start

/-- The apply-path invariant for a step result. -/
def stepInvA (C : MatcherCtx) (B : List Nat) : StepRes → Prop
  | .cont st => stInvA C B st
  | .done st => stInvEndA C B st

theorem sliceN_append_sliceN (X : List Nat) (a b : Nat) (hab : a ≤ b) :
    sliceN X 0 a ++ sliceN X a b = sliceN X 0 b := by
  unfold sliceN
  simp only [Nat.sub_zero, List.drop_zero]
  rw [show b = a + (b - a) from by omega, List.take_add]
  rw [show a + (b - a) - a = b - a from by omega]

theorem applyBytes_append (B : List Nat) (bs : Nat)
    (l1 l2 : List (String × DeltaInstr)) :
    applyBytes B bs (l1 ++ l2) = applyBytes B bs l1 ++ applyBytes B bs l2 := by
  unfold applyBytes
  rw [List.map_append, List.flatten_append]

theorem applyBytes_snoc_literal (B : List Nat) (bs : Nat)
    (l : List (String × DeltaInstr)) (a : Int) (d : List Nat) :
    applyBytes B bs (l ++ [("literal", DeltaInstr.dliteral ⟨a, d⟩)]) =
      applyBytes B bs l ++ d := by
  rw [applyBytes_append]
  unfold applyBytes instrBytes
  simp

theorem applyBytes_snoc_match (B : List Nat) (bs : Nat)
    (l : List (String × DeltaInstr)) (i o k : Int) :
    applyBytes B bs (l ++ [("match", DeltaInstr.dmatch ⟨i, o, k⟩)]) =
      applyBytes B bs l ++
        instrBytes B bs ("match", DeltaInstr.dmatch ⟨i, o, k⟩) := by
  rw [applyBytes_append]
  unfold applyBytes
  simp


theorem noMatchStepA (C : MatcherCtx) (B : List Nat) (st : MatchState)
    (hdata : C.flen = C.data.length)
    (hch : chainFrom 0 st.instructions = some (st.lit_start : Int))
    (hls : st.lit_start ≤ st.offset) (hof : st.offset + st.k ≤ C.flen)
    (hk : 0 < st.k) (hkb : st.k ≤ C.blength)
    (happ : applyBytes B C.blength st.instructions =
      sliceN C.data 0 st.lit_start) :
    stepInvA C B (noMatchStep C st) := by
  refine ⟨noMatchStep_inv C st hdata hch hls hof hk, ?_, ?_⟩
  · simp only []
    by_cases hin : st.offset + st.k < C.flen
    · rw [if_pos hin]
      show st.k ≤ C.blength
      exact hkb
    · rw [if_neg hin]
      show st.k - 1 ≤ C.blength
      omega
  · simp only []
    by_cases hfl : C.blength + CHUNK_SIZE ≤ st.offset - st.last_match ∧
        CHUNK_SIZE < C.endB - st.offset
    · rw [if_pos hfl]
      by_cases hlt : st.lit_start < st.offset - C.blength
      · rw [if_pos hlt]
        show applyBytes B C.blength (st.instructions ++ [("literal",
          DeltaInstr.dliteral ⟨(st.lit_start : Int),
            sliceN C.data st.lit_start (st.offset - C.blength)⟩)]) =
          sliceN C.data 0 (st.offset - C.blength)
        rw [applyBytes_snoc_literal, happ]
        exact sliceN_append_sliceN C.data st.lit_start
          (st.offset - C.blength) (by omega)
      · rw [if_neg hlt]
        exact happ
    · rw [if_neg hfl]
      exact happ

theorem emitMatchA (C : MatcherCtx) (B : List Nat) (st : MatchState)
    (mi : Nat) (hdata : C.flen = C.data.length)
    (hH : strong_sound C.strongFn C.s2length C.blocks B C.data C.blength)
    (hch : chainFrom 0 st.instructions = some (st.lit_start : Int))
    (hls : st.lit_start ≤ st.offset) (hof : st.offset + st.k ≤ C.flen)
    (hk : 0 < st.k) (hkb : st.k ≤ C.blength)
    (hmi : mi < C.blocks.length)
    (hse : List.take C.s2length (blockAt C.blocks mi).strong_checksum =
      List.take C.s2length (C.strongFn
        (sliceN C.data st.offset (st.offset + st.k))))
    (happ : applyBytes B C.blength st.instructions =
      sliceN C.data 0 st.lit_start) :
    stepInvA C B (emitMatch C st mi) := by
  have hofd : st.offset + st.k ≤ C.data.length := by rw [← hdata]; exact hof
  have happ2 : applyBytes B C.blength
      ((if st.lit_start < st.offset then
          st.instructions ++ [("literal",
            DeltaInstr.dliteral ⟨(st.lit_start : Int),
              sliceN C.data st.lit_start st.offset⟩)]
        else st.instructions) ++ [("match",
          DeltaInstr.dmatch ⟨(mi : Int), (st.offset : Int),
            (st.k : Int)⟩)]) =
        sliceN C.data 0 (st.offset + st.k) := by
    have hm := hH st.offset (by omega) st.k (by omega) mi hmi hofd hse
    rw [applyBytes_snoc_match]
    have hpre : applyBytes B C.blength
        (if st.lit_start < st.offset then
          st.instructions ++ [("literal",
            DeltaInstr.dliteral ⟨(st.lit_start : Int),
              sliceN C.data st.lit_start st.offset⟩)]
        else st.instructions) = sliceN C.data 0 st.offset := by
      by_cases hlt : st.lit_start < st.offset
      · rw [if_pos hlt, applyBytes_snoc_literal, happ]
        exact sliceN_append_sliceN C.data st.lit_start st.offset (by omega)
      · rw [if_neg hlt]
        rw [happ]
        have : st.lit_start = st.offset := by omega
        rw [this]
    rw [hpre, hm]
    exact sliceN_append_sliceN C.data st.offset (st.offset + st.k) (by omega)
  have hstinv := emitMatch_inv C st mi hdata hch hls hof hk
  unfold emitMatch at hstinv ⊢
  simp only [] at hstinv ⊢
  by_cases hend : C.flen ≤ st.offset + st.k
  · rw [if_pos hend] at hstinv ⊢
    exact ⟨hstinv, happ2⟩
  · rw [if_neg hend] at hstinv ⊢
    by_cases hk0 : C.blength ⊓ (C.flen - (st.offset + st.k)) = 0
    · rw [if_pos hk0] at hstinv ⊢
      exact ⟨hstinv, happ2⟩
    · rw [if_neg hk0] at hstinv ⊢
      exact ⟨hstinv, Nat.min_le_left _ _, happ2⟩


theorem find?_match_fact (C : MatcherCtx) (st : MatchState) (m : Nat)
    (l : List Nat)
    (hsub : ∀ x, x ∈ l → x ∈ lookup_indices C.blocks C.ts
      (combine_checksum st.s1 st.s2) st.k)
    (hm0 : l.find? (fun i =>
      List.take C.s2length (blockAt C.blocks i).strong_checksum ==
        List.take C.s2length (C.strongFn
          (sliceN C.data st.offset (st.offset + st.k)))) = some m) :
    m < C.blocks.length ∧
    List.take C.s2length (blockAt C.blocks m).strong_checksum =
      List.take C.s2length (C.strongFn
        (sliceN C.data st.offset (st.offset + st.k))) := by
  have hmem := List.mem_of_find?_eq_some hm0
  have hpred := List.find?_some hm0
  refine ⟨((mem_lookup_indices _ _ _ _ _).mp (hsub m hmem)).1, ?_⟩
  exact eq_of_beq hpred

theorem bodyStepA (C : MatcherCtx) (B : List Nat) (st : MatchState)
    (hdata : C.flen = C.data.length)
    (hbl : C.ub = true → 0 < C.blength)
    (hH : strong_sound C.strongFn C.s2length C.blocks B C.data C.blength)
    (hI : stInvA C B st) (hk : 0 < st.k) :
    stepInvA C B (bodyStep C st) := by
  obtain ⟨⟨hch, hls, hof⟩, hkb, happ⟩ := hI
  unfold bodyStep
  simp only []
  by_cases hc0 : lookup_indices C.blocks C.ts
      (combine_checksum st.s1 st.s2) st.k = []
  · rw [if_pos hc0]
    exact noMatchStepA C B st hdata hch hls hof hk hkb happ
  · rw [if_neg hc0]
    cases hub : C.ub with
    | false =>
      simp only [hub, Bool.false_eq_true, if_false]
      cases hm0 : List.find? (fun i =>
          List.take C.s2length (blockAt C.blocks i).strong_checksum ==
            List.take C.s2length (C.strongFn
              (sliceN C.data st.offset (st.offset + st.k))))
          (lookup_indices C.blocks C.ts
            (combine_checksum st.s1 st.s2) st.k) with
      | none =>
        exact noMatchStepA C B st hdata hch hls hof hk hkb happ
      | some m =>
        obtain ⟨hmlt, hmse⟩ := find?_match_fact C st m _
          (fun x hx => hx) hm0
        simp only []
        split
        next mi heq =>
          have hse2 : List.take C.s2length
              (blockAt C.blocks mi).strong_checksum =
              List.take C.s2length (C.strongFn
                (sliceN C.data st.offset (st.offset + st.k))) ∧
              mi < C.blocks.length := by
            split at heq
            · split at heq
              · rename_i hpr hcnd
                have h5 : st.want_i = mi := Option.some.inj heq
                subst h5
                exact ⟨hcnd.2.2.symm, hpr.2⟩
              · have h5 : m = mi := Option.some.inj heq
                subst h5
                exact ⟨hmse, hmlt⟩
            · have h5 : m = mi := Option.some.inj heq
              subst h5
              exact ⟨hmse, hmlt⟩
          exact emitMatchA C B st mi hdata hH hch hls hof hk hkb
            hse2.2 hse2.1 happ
        next heq =>
          exact noMatchStepA C B st hdata hch hls hof hk hkb happ
    | true =>
      simp only [hub, eq_self_iff_true, if_true]
      cases hm0 : List.find? (fun i =>
          List.take C.s2length (blockAt C.blocks i).strong_checksum ==
            List.take C.s2length (C.strongFn
              (sliceN C.data st.offset (st.offset + st.k))))
          (List.filter (fun i =>
              decide (st.offset ≤ (blockAt C.blocks i).offset) ||
                st.same_offset.contains i)
            (lookup_indices C.blocks C.ts
              (combine_checksum st.s1 st.s2) st.k)) with
      | none =>
        exact noMatchStepA C B st hdata hch hls hof hk hkb happ
      | some m =>
        obtain ⟨hmlt, hmse⟩ := find?_match_fact C st m _
          (fun x hx => (List.mem_filter.mp hx).1) hm0
        simp only []
        set ao := (alignAdvance C.blength st.offset (st.offset + 1)
          st.aligned_offset st.aligned_i).1 with hao
        set ai := (alignAdvance C.blength st.offset (st.offset + 1)
          st.aligned_offset st.aligned_i).2 with hai
        have hoao : st.offset ≤ ao := by
          rw [hao]
          refine alignAdvance_ge C.blength st.offset (hbl hub) _ _ _ ?_
          have h2 : st.offset + 1 ≤ (st.offset + 1) * C.blength :=
            Nat.le_mul_of_pos_right _ (hbl hub)
          omega
        by_cases hfp : (st.offset = ao ∨ combine_checksum st.s1 st.s2 = 0 ∧
            st.k = C.blength ∧ ao + st.k ≤ C.flen) ∧ ai < C.blocks.length
        · rw [if_pos hfp]
          by_cases hma : (if some m ≠ some ai then
              (if combine_checksum st.s1 st.s2 =
                    (blockAt C.blocks ai).weak_checksum ∧
                  st.k = (blockAt C.blocks ai).length ∧
                  List.take C.s2length (blockAt C.blocks ai).strong_checksum =
                    List.take C.s2length (C.strongFn
                      (sliceN C.data st.offset (st.offset + st.k))) then
                some ai
              else some m)
            else some m) = some ai
          · have hseai : List.take C.s2length
                (blockAt C.blocks ai).strong_checksum =
                List.take C.s2length (C.strongFn
                  (sliceN C.data st.offset (st.offset + st.k))) := by
              by_cases hmi : m = ai
              · rw [← hmi]
                exact hmse
              · have hne : some m ≠ some ai :=
                  fun hcc => hmi (Option.some.inj hcc)
                rw [if_pos hne] at hma
                by_cases hW : combine_checksum st.s1 st.s2 =
                    (blockAt C.blocks ai).weak_checksum ∧
                    st.k = (blockAt C.blocks ai).length ∧
                    List.take C.s2length
                      (blockAt C.blocks ai).strong_checksum =
                      List.take C.s2length (C.strongFn
                        (sliceN C.data st.offset (st.offset + st.k)))
                · exact hW.2.2
                · rw [if_neg hW] at hma
                  exact absurd (Option.some.inj hma) hmi
            rw [if_pos hma]
            by_cases hj : st.offset ≠ ao ∧ ao + st.k ≤ C.flen
            · rw [if_pos hj]
              by_cases hjs : List.take C.s2length (C.strongFn
                    (sliceN C.data ao (ao + st.k))) =
                  List.take C.s2length (blockAt C.blocks ai).strong_checksum
              · rw [if_pos hjs, hma]
                simp only []
                split
                next mi heq =>
                  have hmiai : mi = ai := by
                    rcases ite_eq_iff.mp heq with ⟨-, h6⟩ | ⟨-, h6⟩
                    · rcases ite_eq_iff.mp h6 with ⟨-, h7⟩ | ⟨-, h7⟩ <;>
                        exact (Option.some.inj h7).symm
                    · exact (Option.some.inj h6).symm
                  subst hmiai
                  exact emitMatchA C B _ ai hdata hH hch
                    (le_trans hls hoao) hj.2 hk hkb hfp.2 hjs.symm happ
                next heq =>
                  exact noMatchStepA C B _ hdata hch
                    (le_trans hls hoao) hj.2 hk hkb happ
              · rw [if_neg hjs, hma]
                simp only []
                split
                next mi heq =>
                  have hmiai : mi = ai := by
                    rcases ite_eq_iff.mp heq with ⟨-, h6⟩ | ⟨-, h6⟩
                    · rcases ite_eq_iff.mp h6 with ⟨-, h7⟩ | ⟨-, h7⟩ <;>
                        exact (Option.some.inj h7).symm
                    · exact (Option.some.inj h6).symm
                  subst hmiai
                  exact emitMatchA C B _ ai hdata hH hch hls hof hk hkb
                    hfp.2 hseai happ
                next heq =>
                  exact noMatchStepA C B _ hdata hch hls hof hk hkb happ
            · rw [if_neg hj, hma]
              simp only []
              split
              next mi heq =>
                have hmiai : mi = ai := by
                  rcases ite_eq_iff.mp heq with ⟨-, h6⟩ | ⟨-, h6⟩
                  · rcases ite_eq_iff.mp h6 with ⟨-, h7⟩ | ⟨-, h7⟩ <;>
                      exact (Option.some.inj h7).symm
                  · exact (Option.some.inj h6).symm
                subst hmiai
                exact emitMatchA C B _ ai hdata hH hch hls hof hk hkb
                  hfp.2 hseai happ
              next heq =>
                exact noMatchStepA C B _ hdata hch hls hof hk hkb happ
          · rw [if_neg hma]
            have hmaeq : (if some m ≠ some ai then
                (if combine_checksum st.s1 st.s2 =
                      (blockAt C.blocks ai).weak_checksum ∧
                    st.k = (blockAt C.blocks ai).length ∧
                    List.take C.s2length
                      (blockAt C.blocks ai).strong_checksum =
                      List.take C.s2length (C.strongFn
                        (sliceN C.data st.offset (st.offset + st.k))) then
                  some ai
                else some m)
              else some m) = some m := by
              by_cases hmi : m = ai
              · rw [if_neg (show ¬(some m ≠ some ai) from by simp [hmi])]
              · have hne : some m ≠ some ai :=
                  fun hcc => hmi (Option.some.inj hcc)
                rw [if_pos hne]
                by_cases hW : combine_checksum st.s1 st.s2 =
                    (blockAt C.blocks ai).weak_checksum ∧
                    st.k = (blockAt C.blocks ai).length ∧
                    List.take C.s2length
                      (blockAt C.blocks ai).strong_checksum =
                      List.take C.s2length (C.strongFn
                        (sliceN C.data st.offset (st.offset + st.k)))
                · exact absurd (by rw [if_pos hne, if_pos hW]) hma
                · rw [if_neg hW]
            rw [hmaeq]
            simp only []
            split
            next mi heq =>
              have hse2 : List.take C.s2length
                  (blockAt C.blocks mi).strong_checksum =
                  List.take C.s2length (C.strongFn
                    (sliceN C.data st.offset (st.offset + st.k))) ∧
                  mi < C.blocks.length := by
                split at heq
                · split at heq
                  · rename_i hpr hcnd
                    have h5 : st.want_i = mi := Option.some.inj heq
                    subst h5
                    exact ⟨hcnd.2.2.symm, hpr.2⟩
                  · have h5 : m = mi := Option.some.inj heq
                    subst h5
                    exact ⟨hmse, hmlt⟩
                · have h5 : m = mi := Option.some.inj heq
                  subst h5
                  exact ⟨hmse, hmlt⟩
              exact emitMatchA C B _ mi hdata hH hch hls hof hk hkb
                hse2.2 hse2.1 happ
            next heq =>
              exact noMatchStepA C B _ hdata hch hls hof hk hkb happ
        · rw [if_neg hfp]
          simp only []
          split
          next mi heq =>
            have hse2 : List.take C.s2length
                (blockAt C.blocks mi).strong_checksum =
                List.take C.s2length (C.strongFn
                  (sliceN C.data st.offset (st.offset + st.k))) ∧
                mi < C.blocks.length := by
              split at heq
              · split at heq
                · rename_i hpr hcnd
                  have h5 : st.want_i = mi := Option.some.inj heq
                  subst h5
                  exact ⟨hcnd.2.2.symm, hpr.2⟩
                · have h5 : m = mi := Option.some.inj heq
                  subst h5
                  exact ⟨hmse, hmlt⟩
              · have h5 : m = mi := Option.some.inj heq
                subst h5
                exact ⟨hmse, hmlt⟩
            exact emitMatchA C B _ mi hdata hH hch hls hof hk hkb
              hse2.2 hse2.1 happ
          next heq =>
            exact noMatchStepA C B _ hdata hch hls hof hk hkb happ


theorem matchLoopA (C : MatcherCtx) (B : List Nat)
    (hdata : C.flen = C.data.length)
    (hbl : C.ub = true → 0 < C.blength)
    (hH : strong_sound C.strongFn C.s2length C.blocks B C.data C.blength) :
    ∀ (fuel : Nat) (st : MatchState), stInvA C B st →
      stInvEndA C B (matchLoop C fuel st) := by
  intro fuel
  induction fuel with
  | zero =>
    intro st hI
    refine ⟨⟨hI.1.1, ?_⟩, hI.2.2⟩
    show st.lit_start ≤ C.flen
    have h1 := hI.1.2.1
    have h2 := hI.1.2.2
    omega
  | succ n ih =>
    intro st hI
    unfold matchLoop
    by_cases hc : st.offset < C.endB ∧ 0 < st.k
    · rw [if_pos hc]
      have hstep := bodyStepA C B st hdata hbl hH hI hc.2
      cases hb : bodyStep C st with
      | done st2 => rw [hb] at hstep; exact hstep
      | cont st2 => rw [hb] at hstep; exact ih st2 hstep
    · rw [if_neg hc]
      refine ⟨⟨hI.1.1, ?_⟩, hI.2.2⟩
      show st.lit_start ≤ C.flen
      have h1 := hI.1.2.1
      have h2 := hI.1.2.2
      omega

theorem sliceN_full (X : List Nat) : sliceN X 0 X.length = X := by
  unfold sliceN
  simp

theorem final_flush_apply (C : MatcherCtx) (B : List Nat) (fuel : Nat)
    (st0 : MatchState) (hdata : C.flen = C.data.length)
    (hbl : C.ub = true → 0 < C.blength)
    (hH : strong_sound C.strongFn C.s2length C.blocks B C.data C.blength)
    (hI : stInvA C B st0) :
    applyBytes B C.blength
      (if (matchLoop C fuel st0).lit_start < C.flen then
        (matchLoop C fuel st0).instructions ++ [("literal",
          DeltaInstr.dliteral ⟨((matchLoop C fuel st0).lit_start : Int),
            sliceN C.data (matchLoop C fuel st0).lit_start C.flen⟩)]
      else (matchLoop C fuel st0).instructions) = C.data := by
  obtain ⟨⟨hchF, hlsF⟩, happF⟩ := matchLoopA C B hdata hbl hH fuel st0 hI
  by_cases hflush : (matchLoop C fuel st0).lit_start < C.flen
  · rw [if_pos hflush, applyBytes_snoc_literal, happF,
      sliceN_append_sliceN C.data _ C.flen (by omega), hdata]
    exact sliceN_full C.data
  · rw [if_neg hflush, happF]
    have hle : (matchLoop C fuel st0).lit_start = C.flen := by omega
    rw [hle, hdata]
    exact sliceN_full C.data


set_option maxHeartbeats 1000000

theorem gd_apply_core (strongFn : List Nat → List Nat) (ub : Bool)
    (sig : ChecksumSignature) (X B : List Nat)
    (hbs : 0 < sig.block_size)
    (hcapB : B.length ≤ MAX_FILE_SIZE_IN_MEMORY)
    (hcapX : X.length ≤ MAX_FILE_SIZE_IN_MEMORY)
    (hH : strong_sound strongFn (sig_s2length sig) sig.blocks B X
      sig.block_size) :
    (generate_delta strongFn ub sig X).bind (apply_delta B) = .ok X := by
  unfold generate_delta
  rw [if_neg (not_lt.mpr hcapX)]
  show apply_delta B _ = _
  unfold apply_delta
  rw [if_neg (not_lt.mpr hcapB)]
  simp only []
  have hfold : ∀ l : List (String × DeltaInstr),
      (List.map (instrBytes B sig.block_size) l).flatten =
      applyBytes B sig.block_size l := fun _ => rfl
  rw [hfold]
  refine congrArg Except.ok ?_
  cases hgl : sig.blocks.getLast? with
  | none =>
    exact final_flush_apply
      (⟨X, sig.blocks, sig.block_size, sig_s2length sig,
        tablesize sig.blocks.length, strongFn, ub,
        (if 0 < 0 then X.length + 1 - 0 else 0), X.length⟩ : MatcherCtx) B
      ((if 0 < 0 then X.length + 1 - 0 else 0) + 1)
      (⟨0, sig.block_size ⊓ X.length,
        (if 0 < sig.block_size ⊓ X.length then
          checksum_components (rolling_checksum_optimized
            (sliceN X 0 (sig.block_size ⊓ X.length)))
        else (0, 0)).1,
        (if 0 < sig.block_size ⊓ X.length then
          checksum_components (rolling_checksum_optimized
            (sliceN X 0 (sig.block_size ⊓ X.length)))
        else (0, 0)).2,
        0, 0, 0, [], 0, 0, []⟩ : MatchState)
      rfl (fun _ => hbs) hH
      ⟨⟨rfl, le_refl _,
        show 0 + sig.block_size ⊓ X.length ≤ X.length from by omega⟩,
        Nat.min_le_left _ _, rfl⟩
  | some b =>
    exact final_flush_apply
      (⟨X, sig.blocks, sig.block_size, sig_s2length sig,
        tablesize sig.blocks.length, strongFn, ub,
        (if 0 < b.length then X.length + 1 - b.length else 0),
        X.length⟩ : MatcherCtx) B
      ((if 0 < b.length then X.length + 1 - b.length else 0) + 1)
      (⟨0, sig.block_size ⊓ X.length,
        (if 0 < sig.block_size ⊓ X.length then
          checksum_components (rolling_checksum_optimized
            (sliceN X 0 (sig.block_size ⊓ X.length)))
        else (0, 0)).1,
        (if 0 < sig.block_size ⊓ X.length then
          checksum_components (rolling_checksum_optimized
            (sliceN X 0 (sig.block_size ⊓ X.length)))
        else (0, 0)).2,
        0, 0, 0, [], 0, 0, []⟩ : MatchState)
      rfl (fun _ => hbs) hH
      ⟨⟨rfl, le_refl _,
        show 0 + sig.block_size ⊓ X.length ≤ X.length from by omega⟩,
        Nat.min_le_left _ _, rfl⟩

set_option maxHeartbeats 200000


/-- C1 (amended): if the strong checksum is collision-free on this
basis/new-file pair (`strong_sound`: every window of `X` whose
strong-checksum prefix matches a stored block's prefix really has the
bytes `apply_delta` copies for that block), then
`apply_delta(B, generate_delta(generate_signature(B), X)) = X` for both
values of `updating_basis_file`.  Unconditionally the claim is false:
with the configured `NONE` strong checksum a weak-checksum collision
makes the delta reconstruct the wrong bytes (`C1_counterexample`). -/
theorem C1_apply_roundtrip (strongFn : List Nat → List Nat) (ub : Bool)
    (bs xl P cl : Nat) (B X : List Nat)
    (hbs : 0 < bs)
    (hcapB : B.length ≤ MAX_FILE_SIZE_IN_MEMORY)
    (hcapX : X.length ≤ MAX_FILE_SIZE_IN_MEMORY)
    (hH : strong_sound strongFn
      (sig_s2length (generate_signature bs strongFn xl P cl B))
      (generate_signature bs strongFn xl P cl B).blocks B X bs) :
    (generate_delta strongFn ub (generate_signature bs strongFn xl P cl B)
      X).bind (apply_delta B) = .ok X :=
  gd_apply_core strongFn ub (generate_signature bs strongFn xl P cl B) X B
    hbs hcapB hcapX hH

theorem C1_counterexample :
    ((generate_delta (fun _ => [0]) false
        (generate_signature 16 (fun _ => [0]) 16 31 16
          ([1, 0, 1] ++ List.replicate 13 0))
        ([0, 2, 0] ++ List.replicate 13 0)).bind
      (apply_delta ([1, 0, 1] ++ List.replicate 13 0))) ≠
      .ok ([0, 2, 0] ++ List.replicate 13 0) := by
  decide

theorem C1_witness :
    ((generate_delta (fun l => l) false
        (generate_signature 16 (fun l => l) 16 31 16 [1, 2, 3])
        [1, 2, 3]).bind (apply_delta [1, 2, 3])) = .ok [1, 2, 3] :=
  C1_apply_roundtrip (fun l => l) false 16 16 31 16 [1, 2, 3] [1, 2, 3]
    (by decide) (by decide) (by decide) (by decide)

end Rsync

namespace Rsync

/-- `_sum_head_from_signature`: header fields the receiver uses.  (For a
signature whose `num_blocks` disagrees with its block list the source
would raise on `blocks[-1]`; the model returns `remainder = 0` there —
every signature this development builds has `num_blocks =
blocks.length`.) -/
def sum_head_from_signature (sig : ChecksumSignature) : SumHead :=
  let count : Int := (sig.num_blocks : Int)
  let blength : Int := (sig.block_size : Int)
  let remainder : Int :=
    if 0 < sig.num_blocks then
      match sig.blocks.getLast? with
      | some b => if (b.length : Int) ≠ blength then (b.length : Int) else 0
      | none => 0
    else 0
  let s2length : Int :=
    match sig.blocks with
    | [] => 0
    | b :: _ => (b.strong_checksum.length : Int)
  ⟨count, blength, s2length, remainder⟩

/-- The token-emission loop of `send_delta_over_wire` (simple token
mode): literals accumulate in `pending`, each match flushes them ahead
of its marker via one `send_token` call, the final `send_token(-1, ...)`
flushes the tail and writes the terminating `0`.  (The sum head,
compression set-up and trailing file checksum are outside the token
stream.) -/
def send_tokens : List (String × DeltaInstr) → List Nat →
    Except Err (List Nat)
  | [], pending =>
    if pending = [] then send_token_simple (-1) none 0 0
    else send_token_simple (-1) (some pending) 0 pending.length
  | (cmd, .dliteral l) :: rest, pending =>
    if cmd = "literal" then send_tokens rest (pending ++ l.data)
    else .error (.protocol "Invalid delta instruction")
  | (cmd, .dmatch m) :: rest, pending =>
    if cmd = "match" then
      match (if pending = [] then send_token_simple m.block_index none 0 0
          else send_token_simple m.block_index (some pending) 0
            pending.length) with
      | .error e => .error e
      | .ok w => (send_tokens rest []).map (fun t => w ++ t)
    else .error (.protocol "Invalid delta instruction")

/-- The literal events `chunkLoop` emits: one per `CHUNK_SIZE` piece. -/
def chunkEvs (d : List Nat) (offset n : Nat) : Nat → Nat → List TokEvent
  | _, 0 => []
  | sent, fuel + 1 =>
    if sent < n then
      TokEvent.lit (sliceN d (offset + sent)
        (offset + sent + min CHUNK_SIZE (n - sent))) ::
        chunkEvs d offset n (sent + min CHUNK_SIZE (n - sent)) fuel
    else []

/-- The event sequence `send_tokens` puts on the wire. -/
def toEvents : List (String × DeltaInstr) → List Nat → List TokEvent
  | [], pending => chunkEvs pending 0 pending.length 0 pending.length
  | (_, .dliteral l) :: rest, pending => toEvents rest (pending ++ l.data)
  | (_, .dmatch m) :: rest, pending =>
    chunkEvs pending 0 pending.length 0 pending.length ++
      (TokEvent.blk m.block_index.toNat :: toEvents rest [])

/-- Conditions under which an instruction survives the wire unchanged: a
well-tagged literal, or a well-tagged match whose `block_index` is a
valid int32 block number and whose `length` equals the length the
receiver will copy for that block, inside the basis. -/
def wireInstrOk (basis : List Nat) (bl rem cnt : Int) :
    String × DeltaInstr → Prop
  | (cmd, .dliteral _) => cmd = "literal"
  | (cmd, .dmatch m) => cmd = "match" ∧ 0 ≤ m.block_index ∧
      m.block_index < 2 ^ 31 ∧ m.block_index < cnt ∧
      m.length = recvBlockLen bl rem cnt m.block_index.toNat ∧
      m.block_index * bl + m.length ≤ (basis.length : Int)

instance wireInstrOk_decidable (basis : List Nat) (bl rem cnt : Int)
    (ci : String × DeltaInstr) :
    Decidable (wireInstrOk basis bl rem cnt ci) := by
  obtain ⟨cmd, i⟩ := ci
  cases i with
  | dmatch m =>
    show Decidable (cmd = "match" ∧ _)
    infer_instance
  | dliteral l =>
    show Decidable (cmd = "literal")
    infer_instance

theorem chunkEvs_cons (d : List Nat) (offset n sent fuel : Nat) :
    chunkEvs d offset n sent (fuel + 1) =
      if sent < n then
        TokEvent.lit (sliceN d (offset + sent)
          (offset + sent + min CHUNK_SIZE (n - sent))) ::
          chunkEvs d offset n (sent + min CHUNK_SIZE (n - sent)) fuel
      else [] := rfl

theorem chunkLoop_eq (d : List Nat) (offset n : Nat)
    (hb : offset + n ≤ d.length) :
    ∀ (fuel sent : Nat),
      chunkLoop d offset n sent fuel =
        ((chunkEvs d offset n sent fuel).map encTok).flatten := by
  intro fuel
  induction fuel with
  | zero => intro sent; rfl
  | succ f ih =>
    intro sent
    rw [chunkEvs_cons]
    unfold chunkLoop
    by_cases hlt : sent < n
    · rw [if_pos hlt, if_pos hlt]
      rw [List.map_cons, List.flatten_cons]
      have hlen : (sliceN d (offset + sent)
          (offset + sent + min CHUNK_SIZE (n - sent))).length =
          min CHUNK_SIZE (n - sent) := by
        rw [sliceN_length_of_le]
        · omega
        · have := Nat.min_le_right CHUNK_SIZE (n - sent)
          omega
      show encInt32 _ ++ _ ++ _ = (encInt32 _ ++ _) ++ _
      rw [hlen, ih, List.append_assoc]
    · rw [if_neg hlt, if_neg hlt]
      rfl

theorem chunkEvs_ok (basis d : List Nat) (bl rem cnt : Int) (offset n : Nat)
    (hb : offset + n ≤ d.length) :
    ∀ (fuel sent : Nat), ∀ e ∈ chunkEvs d offset n sent fuel,
      evOk basis bl rem cnt e := by
  intro fuel
  induction fuel with
  | zero => intro sent e he; cases he
  | succ f ih =>
    intro sent e he
    rw [chunkEvs_cons] at he
    by_cases hlt : sent < n
    · rw [if_pos hlt, List.mem_cons] at he
      rcases he with he | he
      · subst he
        have h0 : 0 < min CHUNK_SIZE (n - sent) := by
          have : 0 < CHUNK_SIZE := by norm_num [CHUNK_SIZE]
          omega
        have hlen : (sliceN d (offset + sent)
            (offset + sent + min CHUNK_SIZE (n - sent))).length =
            min CHUNK_SIZE (n - sent) := by
          rw [sliceN_length_of_le]
          · omega
          · have := Nat.min_le_right CHUNK_SIZE (n - sent)
            omega
        refine ⟨?_, ?_⟩
        · intro hemp
          rw [hemp] at hlen
          simp at hlen
          omega
        · rw [hlen]
          have h1 : min CHUNK_SIZE (n - sent) ≤ CHUNK_SIZE :=
            Nat.min_le_left _ _
          have h2 : CHUNK_SIZE < 2 ^ 31 := by norm_num [CHUNK_SIZE]
          exact_mod_cast by omega
      · exact ih _ e he
    · rw [if_neg hlt] at he
      cases he

theorem sliceN_append_mid (X : List Nat) (a b c : Nat) (hab : a ≤ b)
    (hbc : b ≤ c) :
    sliceN X a b ++ sliceN X b c = sliceN X a c := by
  unfold sliceN
  rw [show b - a = b - a from rfl]
  have hdd : X.drop b = (X.drop a).drop (b - a) := by
    rw [List.drop_drop]
    congr 1
    omega
  rw [hdd, show c - a = (b - a) + (c - b) from by omega, List.take_add]

theorem chunkEvs_bytes (basis d : List Nat) (bl rem cnt : Int)
    (offset n : Nat) (hb : offset + n ≤ d.length) :
    ∀ (fuel sent : Nat), sent ≤ n → n ≤ sent + fuel →
      ((chunkEvs d offset n sent fuel).map
        (evBytes basis bl rem cnt)).flatten =
        sliceN d (offset + sent) (offset + n) := by
  intro fuel
  induction fuel with
  | zero =>
    intro sent h1 h2
    have : sent = n := by omega
    subst this
    show ([] : List Nat) = _
    unfold sliceN
    rw [Nat.sub_self]
    rfl
  | succ f ih =>
    intro sent h1 h2
    rw [chunkEvs_cons]
    by_cases hlt : sent < n
    · rw [if_pos hlt, List.map_cons, List.flatten_cons]
      show evBytes basis bl rem cnt (.lit _) ++ _ = _
      have h0 : 0 < min CHUNK_SIZE (n - sent) := by
        have : 0 < CHUNK_SIZE := by norm_num [CHUNK_SIZE]
        omega
      have hle : min CHUNK_SIZE (n - sent) ≤ n - sent :=
        Nat.min_le_right _ _
      rw [ih (sent + min CHUNK_SIZE (n - sent)) (by omega) (by omega)]
      show sliceN d (offset + sent)
          (offset + sent + min CHUNK_SIZE (n - sent)) ++ _ = _
      rw [show offset + (sent + min CHUNK_SIZE (n - sent)) =
        offset + sent + min CHUNK_SIZE (n - sent) from by omega]
      exact sliceN_append_mid d _ _ _ (by omega) (by omega)
    · rw [if_neg hlt]
      have : sent = n := by omega
      subst this
      show ([] : List Nat) = _
      unfold sliceN
      rw [Nat.sub_self]
      rfl


theorem send_tokens_nil (pending : List Nat) :
    send_tokens [] pending =
      if pending = [] then send_token_simple (-1) none 0 0
      else send_token_simple (-1) (some pending) 0 pending.length := rfl

theorem send_tokens_lit (cmd : String) (l : DeltaLiteral)
    (rest : List (String × DeltaInstr)) (pending : List Nat) :
    send_tokens ((cmd, .dliteral l) :: rest) pending =
      if cmd = "literal" then send_tokens rest (pending ++ l.data)
      else .error (.protocol "Invalid delta instruction") := rfl

theorem send_tokens_match (cmd : String) (m : DeltaMatch)
    (rest : List (String × DeltaInstr)) (pending : List Nat) :
    send_tokens ((cmd, .dmatch m) :: rest) pending =
      if cmd = "match" then
        match (if pending = [] then send_token_simple m.block_index none 0 0
            else send_token_simple m.block_index (some pending) 0
              pending.length) with
        | .error e => .error e
        | .ok w => (send_tokens rest []).map (fun t => w ++ t)
      else .error (.protocol "Invalid delta instruction") := rfl

theorem send_token_simple_marker (i : Int) (data : Option (List Nat))
    (offset n : Nat) (h0 : 0 ≤ i) (h31 : i < 2 ^ 31) :
    send_token_simple i data offset n =
      .ok ((match data with
        | some d => if 0 < n then chunkLoop d offset n 0 n else []
        | none => []) ++ encInt32 (-(i + 1))) := by
  unfold send_token_simple
  rw [if_pos (show i ≠ -2 from by omega)]
  unfold write_int
  rw [if_neg (by push_neg; omega)]
  rfl

theorem send_eq (basis : List Nat) (bl rem cnt : Int) :
    ∀ (instrs : List (String × DeltaInstr)) (pending : List Nat),
      (∀ ci ∈ instrs, wireInstrOk basis bl rem cnt ci) →
      send_tokens instrs pending =
        .ok (((toEvents instrs pending).map encTok).flatten ++
          encInt32 0) := by
  intro instrs
  induction instrs with
  | nil =>
    intro pending _
    rw [send_tokens_nil]
    by_cases hp : pending = []
    · subst hp
      rw [if_pos rfl]
      rfl
    · rw [if_neg hp]
      have hlen : 0 < pending.length := List.length_pos.mpr hp
      unfold send_token_simple
      rw [if_pos (show (-1 : Int) ≠ -2 from by norm_num)]
      show (write_int (-((-1 : Int) + 1))).map
        (fun t => (if 0 < pending.length then
          chunkLoop pending 0 pending.length 0 pending.length else []) ++ t)
        = _
      rw [if_pos hlen,
        chunkLoop_eq pending 0 pending.length (by omega) pending.length 0]
      rfl
  | cons ci rest ih =>
    intro pending hok
    obtain ⟨cmd, instr⟩ := ci
    have hok' : ∀ x ∈ rest, wireInstrOk basis bl rem cnt x :=
      fun x hx => hok x (List.mem_cons_of_mem _ hx)
    have hci := hok _ (List.mem_cons_self _ _)
    cases instr with
    | dliteral l =>
      have htag : cmd = "literal" := hci
      rw [send_tokens_lit, if_pos htag]
      exact ih (pending ++ l.data) hok'
    | dmatch m =>
      obtain ⟨htag, h0, h31, _, _, _⟩ := hci
      rw [send_tokens_match, if_pos htag]
      have hst : (if pending = [] then
            send_token_simple m.block_index none 0 0
          else send_token_simple m.block_index (some pending) 0
            pending.length) =
          .ok ((if pending = [] then []
            else chunkLoop pending 0 pending.length 0 pending.length) ++
            encInt32 (-(m.block_index + 1))) := by
        by_cases hp : pending = []
        · rw [if_pos hp, if_pos hp,
            send_token_simple_marker _ _ _ _ h0 h31]
        · rw [if_neg hp, if_neg hp,
            send_token_simple_marker _ _ _ _ h0 h31]
          have hlen : 0 < pending.length := List.length_pos.mpr hp
          simp only []
          rw [if_pos hlen]
      rw [hst]
      show (send_tokens rest []).map _ = _
      rw [ih [] hok']
      show Except.ok _ = _
      have hcast : ((m.block_index.toNat : Int)) = m.block_index :=
        Int.toNat_of_nonneg h0
      show Except.ok ((if pending = [] then []
          else chunkLoop pending 0 pending.length 0 pending.length) ++
          encInt32 (-(m.block_index + 1)) ++
          (((toEvents rest []).map encTok).flatten ++ encInt32 0)) = _
      rw [show toEvents ((cmd, DeltaInstr.dmatch m) :: rest) pending =
        chunkEvs pending 0 pending.length 0 pending.length ++
          (TokEvent.blk m.block_index.toNat :: toEvents rest []) from rfl]
      rw [List.map_append, List.flatten_append, List.map_cons,
        List.flatten_cons]
      show _ = Except.ok
        (((chunkEvs pending 0 pending.length 0 pending.length).map
            encTok).flatten ++ (encInt32 (-((m.block_index.toNat : Int) + 1))
          ++ ((toEvents rest []).map encTok).flatten) ++ encInt32 0)
      rw [hcast]
      have hch : (if pending = [] then []
          else chunkLoop pending 0 pending.length 0 pending.length) =
          ((chunkEvs pending 0 pending.length 0 pending.length).map
            encTok).flatten := by
        by_cases hp : pending = []
        · subst hp
          rfl
        · rw [if_neg hp,
            chunkLoop_eq pending 0 pending.length (by omega) pending.length 0]
      rw [hch]
      simp [List.append_assoc]


theorem toEvents_nilE (pending : List Nat) :
    toEvents [] pending =
      chunkEvs pending 0 pending.length 0 pending.length := rfl

theorem toEvents_litE (cmd : String) (l : DeltaLiteral)
    (rest : List (String × DeltaInstr)) (pending : List Nat) :
    toEvents ((cmd, .dliteral l) :: rest) pending =
      toEvents rest (pending ++ l.data) := rfl

theorem toEvents_matchE (cmd : String) (m : DeltaMatch)
    (rest : List (String × DeltaInstr)) (pending : List Nat) :
    toEvents ((cmd, .dmatch m) :: rest) pending =
      chunkEvs pending 0 pending.length 0 pending.length ++
        (TokEvent.blk m.block_index.toNat :: toEvents rest []) := rfl

theorem toEvents_ok (basis : List Nat) (bl rem cnt : Int) :
    ∀ (instrs : List (String × DeltaInstr)) (pending : List Nat),
      (∀ ci ∈ instrs, wireInstrOk basis bl rem cnt ci) →
      ∀ e ∈ toEvents instrs pending, evOk basis bl rem cnt e := by
  intro instrs
  induction instrs with
  | nil =>
    intro pending _ e he
    rw [toEvents_nilE] at he
    exact chunkEvs_ok basis pending bl rem cnt 0 pending.length
      (by omega) _ _ e he
  | cons ci rest ih =>
    intro pending hok e he
    obtain ⟨cmd, instr⟩ := ci
    have hok' : ∀ x ∈ rest, wireInstrOk basis bl rem cnt x :=
      fun x hx => hok x (List.mem_cons_of_mem _ hx)
    have hci := hok _ (List.mem_cons_self _ _)
    cases instr with
    | dliteral l =>
      rw [toEvents_litE] at he
      exact ih (pending ++ l.data) hok' e he
    | dmatch m =>
      obtain ⟨htag, h0, h31, hcnt, hlen, hrange⟩ := hci
      rw [toEvents_matchE, List.mem_append, List.mem_cons] at he
      have hcast : ((m.block_index.toNat : Int)) = m.block_index :=
        Int.toNat_of_nonneg h0
      rcases he with he | he | he
      · exact chunkEvs_ok basis pending bl rem cnt 0 pending.length
          (by omega) _ _ e he
      · subst he
        refine ⟨by rw [hcast]; exact h31, by rw [hcast]; exact hcnt, ?_⟩
        unfold recvBlockLen at hlen ⊢
        rw [hcast] at hlen ⊢
        rw [← hlen]
        exact hrange
      · exact ih [] hok' e he

theorem toEvents_bytes (basis : List Nat) (bl rem cnt : Int) (BS : Nat)
    (hbl : bl = (BS : Int)) :
    ∀ (instrs : List (String × DeltaInstr)) (pending : List Nat),
      (∀ ci ∈ instrs, wireInstrOk basis bl rem cnt ci) →
      ((toEvents instrs pending).map (evBytes basis bl rem cnt)).flatten =
        pending ++ (instrs.map (instrBytes basis BS)).flatten := by
  intro instrs
  induction instrs with
  | nil =>
    intro pending _
    rw [toEvents_nilE,
      chunkEvs_bytes basis pending bl rem cnt 0 pending.length (by omega)
        pending.length 0 (by omega) (by omega)]
    show sliceN pending (0 + 0) (0 + pending.length) = _
    rw [Nat.zero_add, Nat.zero_add, sliceN_full]
    simp
  | cons ci rest ih =>
    intro pending hok
    obtain ⟨cmd, instr⟩ := ci
    have hok' : ∀ x ∈ rest, wireInstrOk basis bl rem cnt x :=
      fun x hx => hok x (List.mem_cons_of_mem _ hx)
    have hci := hok _ (List.mem_cons_self _ _)
    cases instr with
    | dliteral l =>
      have htag : cmd = "literal" := hci
      rw [toEvents_litE, ih (pending ++ l.data) hok', List.map_cons,
        List.flatten_cons]
      have hib : instrBytes basis BS (cmd, .dliteral l) = l.data := by
        unfold instrBytes
        simp only []
        rw [if_pos htag]
      rw [hib, List.append_assoc]
    | dmatch m =>
      obtain ⟨htag, h0, h31, hcnt, hlen, hrange⟩ := hci
      have hcast : ((m.block_index.toNat : Int)) = m.block_index :=
        Int.toNat_of_nonneg h0
      rw [toEvents_matchE, List.map_append, List.flatten_append,
        List.map_cons, List.flatten_cons,
        chunkEvs_bytes basis pending bl rem cnt 0 pending.length (by omega)
          pending.length 0 (by omega) (by omega)]
      show sliceN pending (0 + 0) (0 + pending.length) ++
        (evBytes basis bl rem cnt (.blk m.block_index.toNat) ++ _) = _
      rw [Nat.zero_add, Nat.zero_add, sliceN_full, ih [] hok',
        List.map_cons, List.flatten_cons, List.nil_append]
      have hib : instrBytes basis BS (cmd, .dmatch m) =
          evBytes basis bl rem cnt (.blk m.block_index.toNat) := by
        unfold instrBytes evBytes
        simp only []
        rw [if_pos htag, hcast, ← hbl, ← hlen]
      rw [hib]


/-- C4 (amended): a delta whose instructions are well-tagged, and whose
every MATCH names a valid in-range block number whose `length` equals
the length the receiver will copy for that block
(`block_length`, or `remainder` for the last block when positive),
survives the simple token stream exactly: chunked-literal encoding by
`send_delta_over_wire`'s token loop followed by `receive_data` yields
`apply_delta(basis, D)`.  Without the per-match length condition the
paths diverge: the matcher's `want_i` promotion can emit a MATCH whose
length differs from the block's, which `apply_delta` honours but the
receiver ignores (`C4_counterexample`). -/
theorem C4_token_stream_equiv (basis : List Nat) (D : DeltaInstructions)
    (s2l rem cnt : Int)
    (hcapB : basis.length ≤ MAX_FILE_SIZE_IN_MEMORY)
    (hok : ∀ ci ∈ D.instructions,
      wireInstrOk basis (D.block_size : Int) rem cnt ci) :
    (send_tokens D.instructions []).bind (fun w =>
      (receive_data w basis ⟨cnt, (D.block_size : Int), s2l, rem⟩).map
        Prod.fst) = apply_delta basis D := by
  rw [send_eq basis _ rem cnt D.instructions [] hok]
  show (receive_data
    (((toEvents D.instructions []).map encTok).flatten ++ encInt32 0)
    basis ⟨cnt, (D.block_size : Int), s2l, rem⟩).map Prod.fst = _
  unfold receive_data
  simp only []
  have hfuel : (toEvents D.instructions []).length <
      (((toEvents D.instructions []).map encTok).flatten ++
        encInt32 0).length + 1 := by
    have := encStream_length (toEvents D.instructions [])
    unfold encStream at this
    omega
  have hshape : ((toEvents D.instructions []).map encTok).flatten ++
      encInt32 0 = ((toEvents D.instructions []).map encTok).flatten ++
      (encInt32 0 ++ []) := by
    simp
  rw [hshape, receive_loop_events basis (D.block_size : Int) rem cnt
    (toEvents D.instructions []) [] [] _ (by rw [← hshape]; exact hfuel)
    (toEvents_ok basis _ rem cnt D.instructions [] hok)]
  show Except.ok (([] : List Nat) ++ _) = _
  rw [List.nil_append,
    toEvents_bytes basis _ rem cnt D.block_size rfl D.instructions [] hok,
    List.nil_append]
  unfold apply_delta
  rw [if_neg (not_lt.mpr hcapB)]


theorem C4_counterexample :
    (generate_delta (fun _ => [0]) false
        (generate_signature 16 (fun _ => [0]) 16 31 16
          (([9] ++ List.replicate 15 1) ++ List.replicate 16 0 ++
            List.replicate 5 0))
        (([9] ++ List.replicate 15 1) ++ List.replicate 5 0)).bind
      (fun d => (send_tokens d.instructions []).bind (fun w =>
        (receive_data w
          (([9] ++ List.replicate 15 1) ++ List.replicate 16 0 ++
            List.replicate 5 0)
          (sum_head_from_signature
            (generate_signature 16 (fun _ => [0]) 16 31 16
              (([9] ++ List.replicate 15 1) ++ List.replicate 16 0 ++
                List.replicate 5 0)))).map Prod.fst)) ≠
    (generate_delta (fun _ => [0]) false
        (generate_signature 16 (fun _ => [0]) 16 31 16
          (([9] ++ List.replicate 15 1) ++ List.replicate 16 0 ++
            List.replicate 5 0))
        (([9] ++ List.replicate 15 1) ++ List.replicate 5 0)).bind
      (apply_delta (([9] ++ List.replicate 15 1) ++ List.replicate 16 0 ++
        List.replicate 5 0)) := by
  decide

theorem C4_witness :
    (send_tokens (DeltaInstructions.mk 3 3 2
        [("literal", DeltaInstr.dliteral ⟨0, [7]⟩),
         ("match", DeltaInstr.dmatch ⟨0, 1, 2⟩)] 0).instructions []).bind
      (fun w => (receive_data w [5, 6, 7]
        ⟨1, ((DeltaInstructions.mk 3 3 2
          [("literal", DeltaInstr.dliteral ⟨0, [7]⟩),
           ("match", DeltaInstr.dmatch ⟨0, 1, 2⟩)] 0).block_size : Int),
          2, 0⟩).map Prod.fst) =
    apply_delta [5, 6, 7] (DeltaInstructions.mk 3 3 2
      [("literal", DeltaInstr.dliteral ⟨0, [7]⟩),
       ("match", DeltaInstr.dmatch ⟨0, 1, 2⟩)] 0) :=
  C4_token_stream_equiv [5, 6, 7]
    (DeltaInstructions.mk 3 3 2
      [("literal", DeltaInstr.dliteral ⟨0, [7]⟩),
       ("match", DeltaInstr.dmatch ⟨0, 1, 2⟩)] 0) 2 0 1
    (by decide) (by decide)

end Rsync
